import Mathlib

/-!
Verification of the SPS (Sparkle Particle Storage) codec and of the SNBT
value grammar of the Sparkle-Particle repository.

Embedding conventions.

* Python floats are modelled as exact rationals (`ℚ`).  The codec's own design
  note (header of `sparkle/sps.py`) is that every coordinate is first rounded
  to a fixed number of decimal digits and all later arithmetic happens on
  those rounded values, so deltas are exact decimal differences; the rational
  model is that intended semantics.  Binary floating-point noise is what the
  spec's `5e-8` tolerance absorbs; it is not modelled.
* The line-oriented text of a `.sps` file is modelled as a list of `SLine`
  tokens, one constructor per line form of the format (`P`/`M` header, bare
  delta line, `? axis`, `= k n`, `t`, `d`, `v`, `c`, `> tick`).  The numeric
  rendering `_fmt` only rounds (a second time, which is the identity on the
  already-rounded values) and strips zero digits, and the reader parses the
  digits back, so the token level carries exactly the information of the text
  level for the numeric payloads.  String-level artifacts (a particle name
  that is empty or begins/ends with blanks would break `str.split`) are noted
  at the theorems they would affect.
* Python's `dict` is modelled as an insertion-ordered association list with
  overwrite-on-repeated-key semantics (`dictInsert`), matching how
  `ParticleAnimation.frames` behaves in `sps.load` / `sps.save`.
* The SNBT codec (`sparkle/snbt.py`) is modelled at the character level over
  `List Char`, including the unquoted-token reader and suffix resolution.
-/

namespace Sparkle

/- ============================================================
   Numeric model: decimal rounding (`round(v, prec)` of Python)
   ============================================================ -/

/-- Round-half-to-even on rationals: the rounding mode of Python's built-in
`round` on exact decimal values.  `rndHalfEven q` is an integer nearest to
`q`, ties going to the even integer. -/
def rndHalfEven (q : ℚ) : ℤ :=
  let f := ⌊q⌋
  let r := q - (f : ℚ)
  if r < 1/2 then f
  else if 1/2 < r then f + 1
  else if f % 2 = 0 then f else f + 1

/-- `round(v, prec)`: round to `prec` decimal digits. -/
def roundDec (prec : ℕ) (q : ℚ) : ℚ :=
  (rndHalfEven (q * 10 ^ prec) : ℚ) / 10 ^ prec

/-- The decimal grid of `prec` digits: the values the codec manipulates after
its initial rounding pass. -/
def OnGrid (prec : ℕ) (q : ℚ) : Prop := ∃ z : ℤ, q = (z : ℚ) / 10 ^ prec

theorem rndHalfEven_intCast (z : ℤ) : rndHalfEven (z : ℚ) = z := by
  simp [rndHalfEven]

theorem OnGrid.roundDec_eq {prec : ℕ} {q : ℚ} (h : OnGrid prec q) :
    roundDec prec q = q := by
  obtain ⟨z, rfl⟩ := h
  have hp : (10 : ℚ) ^ prec ≠ 0 := by positivity
  have : (z : ℚ) / 10 ^ prec * 10 ^ prec = (z : ℚ) := by field_simp
  rw [roundDec, this, rndHalfEven_intCast]

theorem roundDec_onGrid (prec : ℕ) (q : ℚ) : OnGrid prec (roundDec prec q) :=
  ⟨rndHalfEven (q * 10 ^ prec), rfl⟩

theorem OnGrid.addQ {prec : ℕ} {a b : ℚ} (ha : OnGrid prec a) (hb : OnGrid prec b) :
    OnGrid prec (a + b) := by
  obtain ⟨x, rfl⟩ := ha; obtain ⟨y, rfl⟩ := hb
  exact ⟨x + y, by push_cast; ring⟩

theorem OnGrid.subQ {prec : ℕ} {a b : ℚ} (ha : OnGrid prec a) (hb : OnGrid prec b) :
    OnGrid prec (a - b) := by
  obtain ⟨x, rfl⟩ := ha; obtain ⟨y, rfl⟩ := hb
  exact ⟨x - y, by push_cast; ring⟩

theorem OnGrid.zero (prec : ℕ) : OnGrid prec 0 := ⟨0, by simp⟩

/- ============================================================
   3D points (`Point3D` of `sparkle/shape.py`)
   ============================================================ -/

/-- A 3D point. -/
abbrev P3 := ℚ × ℚ × ℚ

/-- Componentwise addition, as in the decoder's accumulation
`(prev[0]+d[0], prev[1]+d[1], prev[2]+d[2])`. -/
def p3add (a b : P3) : P3 := (a.1 + b.1, a.2.1 + b.2.1, a.2.2 + b.2.2)

/-- Componentwise difference, as in the encoder's delta computation. -/
def p3sub (a b : P3) : P3 := (a.1 - b.1, a.2.1 - b.2.1, a.2.2 - b.2.2)

/-- Component of a point on axis 0/1/2 (= x/y/z), as `p[axis]` in Python. -/
def axisVal (p : P3) : ℕ → ℚ
  | 0 => p.1
  | 1 => p.2.1
  | _ => p.2.2

/-- The three components as a list, the order of a coordinate line. -/
def p3list (p : P3) : List ℚ := [p.1, p.2.1, p.2.2]

/-- `_round3(p, prec)`: componentwise decimal rounding. -/
def round3 (prec : ℕ) (p : P3) : P3 :=
  (roundDec prec p.1, roundDec prec p.2.1, roundDec prec p.2.2)

/-- All three components on the decimal grid. -/
def OnGrid3 (prec : ℕ) (p : P3) : Prop :=
  OnGrid prec p.1 ∧ OnGrid prec p.2.1 ∧ OnGrid prec p.2.2

theorem round3_onGrid (prec : ℕ) (p : P3) : OnGrid3 prec (round3 prec p) :=
  ⟨roundDec_onGrid _ _, roundDec_onGrid _ _, roundDec_onGrid _ _⟩

theorem OnGrid3.round3_eq {prec : ℕ} {p : P3} (h : OnGrid3 prec p) :
    round3 prec p = p := by
  obtain ⟨h1, h2, h3⟩ := h
  simp [round3, h1.roundDec_eq, h2.roundDec_eq, h3.roundDec_eq]

theorem OnGrid3.add {prec : ℕ} {a b : P3} (ha : OnGrid3 prec a) (hb : OnGrid3 prec b) :
    OnGrid3 prec (p3add a b) :=
  ⟨ha.1.addQ hb.1, ha.2.1.addQ hb.2.1, ha.2.2.addQ hb.2.2⟩

theorem OnGrid3.sub {prec : ℕ} {a b : P3} (ha : OnGrid3 prec a) (hb : OnGrid3 prec b) :
    OnGrid3 prec (p3sub a b) :=
  ⟨ha.1.subQ hb.1, ha.2.1.subQ hb.2.1, ha.2.2.subQ hb.2.2⟩

theorem p3add_sub_cancel (a b : P3) : p3add a (p3sub b a) = b := by
  simp [p3add, p3sub]

/- ============================================================
   SNBT value model (`sparkle/snbt.py`)
   ============================================================ -/

/-- Opening brace character, kept out of literals. -/
def lbrace : Char := Char.ofNat 123

/-- Closing brace character. -/
def rbrace : Char := Char.ofNat 125

/-- The tagged value tree of the SNBT codec.  Python `bool` is distinct from
`int` because `to_snbt` dispatches on `isinstance(value, bool)` before `int`;
`float` is modelled as an exact rational (see the header comment); a Python
`dict` is an insertion-ordered association list. -/
inductive SVal where
  | int (n : ℤ)
  | float (q : ℚ)
  | bool (b : Bool)
  | str (s : String)
  | list (l : List SVal)
  | comp (l : List (String × SVal))

/-- `_UNQUOTED_CHARS`: ASCII letters, digits, `.`, `_`, `+`, `-`. -/
def isUnquotedChar (c : Char) : Bool :=
  c.isAlpha || c.isDigit || c = '.' || c = '_' || c = '+' || c = '-'

/-- `_FLOAT_SUFFIX = set('fFdD')`. -/
def isFloatSuffix (c : Char) : Bool := c = 'f' || c = 'F' || c = 'd' || c = 'D'

/-- `_INT_SUFFIX = set('bBsSiIlL')`. -/
def isIntSuffix (c : Char) : Bool :=
  c = 'b' || c = 'B' || c = 's' || c = 'S' || c = 'i' || c = 'I' || c = 'l' || c = 'L'

/-- `_TWO_CHAR_FIRST = set('sSuU')`. -/
def isTwoCharFirst (c : Char) : Bool := c = 's' || c = 'S' || c = 'u' || c = 'U'

/-- `_TWO_CHAR_SECOND = set('bBsSiIlL')`. -/
def isTwoCharSecond (c : Char) : Bool := isIntSuffix c

/-- Numeric value of a decimal digit character. -/
def digitVal (c : Char) : ℕ := c.toNat - 48

/-- Value of a most-significant-first decimal digit list (what `int(s)` and
`float(s)` compute from a digit run). -/
def digitsVal (ds : List Char) : ℕ := ds.foldl (fun a c => 10 * a + digitVal c) 0

/-- Leading `+`/`-` sign of a numeric literal, with the rest of the input. -/
def readSign : List Char → ℤ × List Char
  | '-' :: r => (-1, r)
  | '+' :: r => (1, r)
  | s => (1, s)

/-- Hex digit test, as accepted by Python's `int(s, 16)`. -/
def isHexDigit (c : Char) : Bool :=
  c.isDigit || ('a' ≤ c && c ≤ 'f') || ('A' ≤ c && c ≤ 'F')

/-- Hex digit value. -/
def hexVal (c : Char) : ℕ :=
  if c.isDigit then c.toNat - 48
  else if 'a' ≤ c && c ≤ 'f' then c.toNat - 87
  else c.toNat - 55

/-- Digit test for radix 2 or 16. -/
def isRadixDigit (radix : ℕ) (c : Char) : Bool :=
  if radix = 16 then isHexDigit c else c = '0' || c = '1'

/-- Digit value for radix 2 or 16. -/
def radixDigitVal (c : Char) : ℕ := hexVal c

/-- Value of a most-significant-first digit list in the given radix. -/
def radixVal (radix : ℕ) (ds : List Char) : ℕ :=
  ds.foldl (fun a c => radix * a + radixDigitVal c) 0

/-- Python's `int(s, radix)` for radix 2 or 16: optional sign, an optional
matching `0x`/`0X` (resp. `0b`/`0B`) marker, then a nonempty digit run.
(Underscores between digits are also accepted by Python but the codec only
calls this on underscore-free text.) -/
def intRadix (radix : ℕ) (s : List Char) : Option ℤ :=
  let (sgn, t0) := readSign s
  let t := match t0 with
    | '0' :: c :: r =>
        if (radix = 16 && (c = 'x' || c = 'X')) || (radix = 2 && (c = 'b' || c = 'B'))
        then r else '0' :: c :: r
    | t0 => t0
  if t ≠ [] ∧ t.all (isRadixDigit radix) then some (sgn * (radixVal radix t : ℤ)) else none

/-- Python's `int(s)` in base 10: optional sign then a nonempty digit run. -/
def pyIntDec (s : List Char) : Option ℤ :=
  let (sgn, t) := readSign s
  if t ≠ [] ∧ t.all Char.isDigit then some (sgn * (digitsVal t : ℤ)) else none

/-- `_SNBTParser._try_int`: decimal, `0x` hex or `0b` binary integer with an
explicitly handled sign. -/
def tryInt (s : List Char) : Option ℤ :=
  match s with
  | [] => none
  | _ =>
    let sign : ℤ := if s.headD ' ' = '-' then -1 else 1
    let t := if s.headD ' ' = '-' || s.headD ' ' = '+' then s.tail else s
    if t = [] then none
    else if 2 < t.length ∧ t.headD ' ' = '0' ∧ (t.getD 1 ' ' = 'x' ∨ t.getD 1 ' ' = 'X') then
      (intRadix 16 (t.drop 2)).map (fun v => sign * v)
    else if 2 < t.length ∧ t.headD ' ' = '0' ∧ (t.getD 1 ' ' = 'b' ∨ t.getD 1 ' ' = 'B') then
      (intRadix 2 (t.drop 2)).map (fun v => sign * v)
    else pyIntDec s

/-- `_SNBTParser._try_float`: Python's `float(s)` on a finite decimal literal:
`[sign] (digits [. digits*] | . digits) [(e|E) [sign] digits]`.  Python
additionally accepts `inf`/`infinity`/`nan` (any case); those values have no
rational counterpart, are produced by no claim instance, and yield `none`
here. -/
def tryFloat (s : List Char) : Option ℚ :=
  let (sgn, t) := readSign s
  let ip := t.takeWhile Char.isDigit
  let t1 := t.dropWhile Char.isDigit
  let (fpOpt, t2) : Option (List Char) × List Char :=
    match t1 with
    | '.' :: r => (some (r.takeWhile Char.isDigit), r.dropWhile Char.isDigit)
    | _ => (none, t1)
  if ip = [] ∧ (fpOpt = none ∨ fpOpt = some []) then none
  else
    let fp := fpOpt.getD []
    let mant : ℚ := (sgn : ℚ) * ((digitsVal ip : ℚ) + (digitsVal fp : ℚ) / 10 ^ fp.length)
    match t2 with
    | [] => some mant
    | e :: r =>
      if e = 'e' ∨ e = 'E' then
        let (esgn, r1) := readSign r
        let ed := r1.takeWhile Char.isDigit
        let r2 := r1.dropWhile Char.isDigit
        if ed = [] ∨ r2 ≠ [] then none
        else some (mant * 10 ^ (esgn * (digitsVal ed : ℤ)))
      else none

/-- `_SNBTParser._resolve_token`: strip underscores, then try the two-character
integer suffix, the one-character float suffix, the one-character integer
suffix, and finally fall back to the verbatim token as a string. -/
def resolveToken (token : List Char) : SVal :=
  let clean := token.filter (fun c => c ≠ '_')
  let n := clean.length
  let two : Option ℤ :=
    if 2 < n ∧ isTwoCharFirst (clean.getD (n - 2) ' ') ∧ isTwoCharSecond (clean.getD (n - 1) ' ')
    then tryInt (clean.take (n - 2)) else none
  match two with
  | some v => .int v
  | none =>
    let fl : Option ℚ :=
      if 1 < n ∧ isFloatSuffix (clean.getD (n - 1) ' ') then tryFloat (clean.take (n - 1))
      else none
    match fl with
    | some v => .float v
    | none =>
      let ii : Option ℤ :=
        if 1 < n ∧ isIntSuffix (clean.getD (n - 1) ' ') then tryInt (clean.take (n - 1))
        else none
      match ii with
      | some v => .int v
      | none => .str (String.mk token)

/- ============================================================
   SNBT serialization (`to_snbt`)
   ============================================================ -/

/-- Decimal digit character for a value `0 ≤ d ≤ 9`. -/
def digitChar (d : ℕ) : Char := Char.ofNat (48 + d)

/-- Decimal rendering of a natural number, as `str(n)` produces it. -/
def natStr (n : ℕ) : List Char :=
  if n = 0 then ['0'] else (Nat.digits 10 n).reverse.map digitChar

/-- Decimal rendering of an integer, as `str(n)` produces it. -/
def intStr (z : ℤ) : List Char :=
  if z < 0 then '-' :: natStr z.natAbs else natStr z.natAbs

/-- Multiplicity of `p` in `n` (number of times `p` divides `n`). -/
def multP (p n : ℕ) : ℕ :=
  if h : 1 < p ∧ 0 < n ∧ n % p = 0 then multP p (n / p) + 1 else 0
  termination_by n
  decreasing_by exact Nat.div_lt_self h.2.1 h.1

/-- The decimal scale of a rational whose denominator divides a power of ten:
the least `k` with `q * 10 ^ k` integral. -/
def decScale (q : ℚ) : ℕ := max (multP 2 q.den) (multP 5 q.den)

/-- Model of Python's `repr` on a (finite, decimally representable) float:
sign, integer digits, `.`, fraction digits, with at least one digit on each
side of the point — `repr(1.5) = "1.5"`, `repr(2.0) = "2.0"`,
`repr(0.25) = "0.25"`.  (Python switches to exponent notation for very large
or very small magnitudes; only the value, not the spelling, matters to the
codec, and no claim instance reaches that range.) -/
def floatRepr (q : ℚ) : List Char :=
  let k := decScale q
  let sgn : List Char := if q < 0 then ['-'] else []
  let m : ℕ := (|q| * 10 ^ k).num.toNat
  if k = 0 then sgn ++ natStr m ++ ['.', '0']
  else
    let ds := natStr m
    let ds := if ds.length ≤ k then List.replicate (k + 1 - ds.length) '0' ++ ds else ds
    sgn ++ ds.take (ds.length - k) ++ '.' :: ds.drop (ds.length - k)

/-- `value.replace("\\", "\\\\").replace('"', '\\"')`: escaping used by
`to_snbt` for strings. -/
def escapeChars : List Char → List Char
  | [] => []
  | c :: rest =>
    if c = '\\' then '\\' :: '\\' :: escapeChars rest
    else if c = '"' then '\\' :: '"' :: escapeChars rest
    else c :: escapeChars rest

/-- Comma-join, as `",".join(...)`. -/
def commaJoin (l : List (List Char)) : List Char := List.intercalate [','] l

mutual

/-- `to_snbt`: serialize a value to SNBT text.  Booleans become `1b`/`0b`,
integers bare decimal digits, floats `repr(v) + "d"`, strings double-quoted
with backslash and double quote escaped, lists bracketed comma joins, dicts
braced `key:value` comma joins with keys emitted bare. -/
def toSnbt : SVal → List Char
  | .bool b => if b then ['1', 'b'] else ['0', 'b']
  | .int n => intStr n
  | .float q => floatRepr q ++ ['d']
  | .str s => '"' :: escapeChars s.data ++ ['"']
  | .list l => '[' :: commaJoin (toSnbtList l) ++ [']']
  | .comp l => lbrace :: commaJoin (toSnbtKVs l) ++ [rbrace]

/-- `to_snbt` mapped over list elements. -/
def toSnbtList : List SVal → List (List Char)
  | [] => []
  | v :: vs => toSnbt v :: toSnbtList vs

/-- `f"{k}:{to_snbt(v)}"` mapped over dict entries. -/
def toSnbtKVs : List (String × SVal) → List (List Char)
  | [] => []
  | (k, v) :: rest => (k.data ++ ':' :: toSnbt v) :: toSnbtKVs rest

end

/- ============================================================
   SNBT parsing (`_SNBTParser`)
   ============================================================ -/

/-- Python `dict` assignment `d[k] = v` on an insertion-ordered association
list: an existing key keeps its position and gets the new value, a new key is
appended. -/
def dictInsert {K V : Type} [DecidableEq K] (l : List (K × V)) (k : K) (v : V) :
    List (K × V) :=
  if l.any (fun kv => kv.1 = k) then
    l.map (fun kv => if kv.1 = k then (k, v) else kv)
  else l ++ [(k, v)]

/-- Whitespace skipped by `_skip_ws` (space, tab, newline, carriage return). -/
def isSnbtWs (c : Char) : Bool := c = ' ' || c = '\t' || c = '\n' || c = '\r'

/-- `_skip_ws`. -/
def skipWs (s : List Char) : List Char := s.dropWhile isSnbtWs

/-- `_ESCAPE_MAP` lookup. -/
def escMap (c : Char) : Option Char :=
  if c = 'b' then some (Char.ofNat 8)
  else if c = 'f' then some (Char.ofNat 12)
  else if c = 'n' then some '\n'
  else if c = 'r' then some '\r'
  else if c = 's' then some ' '
  else if c = 't' then some '\t'
  else if c = '\\' then some '\\'
  else if c = '\'' then some '\''
  else if c = '"' then some '"'
  else none

/-- `_parse_escape`: the character after a backslash.  `\xHH`, `\uHHHH` and
`\UHHHHHHHH` read a fixed number of hex digits (short or non-hex input makes
Python's `int(h, 16)`/slice raise, modelled as an error); `\N` followed by a
braced name performs a `unicodedata.lookup`, which needs the external Unicode
name table — no claim reaches it; it is reported as an error here.  Any other
escaped character is passed through literally. -/
def parseEscape : List Char → Except String (Char × List Char)
  | [] => .error "SNBT: string ended inside an escape"
  | c :: rest =>
    match escMap c with
    | some e => .ok (e, rest)
    | none =>
      if c = 'x' then
        match rest with
        | h1 :: h2 :: r =>
          if isHexDigit h1 && isHexDigit h2 then
            .ok (Char.ofNat (radixVal 16 [h1, h2]), r)
          else .error "SNBT: bad hex escape"
        | _ => .error "SNBT: bad hex escape"
      else if c = 'u' then
        match rest with
        | h1 :: h2 :: h3 :: h4 :: r =>
          if [h1, h2, h3, h4].all isHexDigit then
            .ok (Char.ofNat (radixVal 16 [h1, h2, h3, h4]), r)
          else .error "SNBT: bad unicode escape"
        | _ => .error "SNBT: bad unicode escape"
      else if c = 'U' then
        match rest with
        | h1 :: h2 :: h3 :: h4 :: h5 :: h6 :: h7 :: h8 :: r =>
          if [h1, h2, h3, h4, h5, h6, h7, h8].all isHexDigit then
            .ok (Char.ofNat (radixVal 16 [h1, h2, h3, h4, h5, h6, h7, h8]), r)
          else .error "SNBT: bad unicode escape"
        | _ => .error "SNBT: bad unicode escape"
      else if c = 'N' then .error "SNBT: named unicode lookup not modelled"
      else .ok (c, rest)

/-- `_parse_string` after the opening quote has been consumed: collect
characters until the matching quote, resolving backslash escapes. -/
def parseQuoted (quote : Char) : ℕ → List Char → Except String (List Char × List Char)
  | _, [] => .error "SNBT: unterminated string"
  | 0, _ => .error "SNBT: out of fuel"
  | fuel + 1, c :: rest =>
    if c = quote then .ok ([], rest)
    else if c = '\\' then
      match parseEscape rest with
      | .error e => .error e
      | .ok (e, r1) =>
        match parseQuoted quote fuel r1 with
        | .error err => .error err
        | .ok (s, r2) => .ok (e :: s, r2)
    else
      match parseQuoted quote fuel rest with
      | .error err => .error err
      | .ok (s, r2) => .ok (c :: s, r2)

/-- Coercion applied by `_parse_items` to every element of a typed array:
Python's `int(v)`.  Integers pass through, floats truncate toward zero,
strings go through a base-10 parse, anything else raises. -/
def asIntVal : SVal → Except String ℤ
  | .int n => .ok n
  | .bool b => .ok (if b then 1 else 0)
  | .float q => .ok (if q < 0 then -((-q).floor) else q.floor)
  | .str s =>
    match pyIntDec s.data with
    | some v => .ok v
    | none => .error "SNBT: invalid int"
  | _ => .error "SNBT: int() on a collection"

/-- Map `asIntVal` over parsed elements (`[int(v) for v in result]`). -/
def asIntList : List SVal → Except String (List ℤ)
  | [] => .ok []
  | v :: rest =>
    match asIntVal v with
    | .error e => .error e
    | .ok n =>
      match asIntList rest with
      | .error e => .error e
      | .ok l => .ok (n :: l)

mutual

/-- `_parse_value`: dispatch on the first non-whitespace character — `{` for a
compound, `[` for a list or typed array, a quote for a string, anything else
an unquoted token.  `fuel` bounds the recursion depth/width; every entry point
passes at least the input length plus one, which the consumption argument
(every loop iteration consumes input) makes sufficient. -/
def parseValue : ℕ → List Char → Except String (SVal × List Char)
  | 0, _ => .error "SNBT: out of fuel"
  | fuel + 1, text =>
    let t := skipWs text
    match t with
    | [] => .error "SNBT: unexpected end of input"
    | c :: rest =>
      if c = lbrace then parseDict fuel rest
      else if c = '[' then
        match skipWs rest with
        | b :: ';' :: r =>
          if b = 'B' || b = 'I' || b = 'L' || b = 'b' || b = 'i' || b = 'l' then
            match parseItems fuel ']' true [] r with
            | .error e => .error e
            | .ok (vs, r2) =>
              match asIntList vs with
              | .error e => .error e
              | .ok ns => .ok (.list (ns.map SVal.int), r2)
          else
            match parseItems fuel ']' false [] rest with
            | .error e => .error e
            | .ok (vs, r2) => .ok (.list vs, r2)
        | _ =>
          match parseItems fuel ']' false [] rest with
          | .error e => .error e
          | .ok (vs, r2) => .ok (.list vs, r2)
      else if c = '"' ∨ c = '\'' then
        match parseQuoted c (rest.length + 1) rest with
        | .error e => .error e
        | .ok (s, r) => .ok (.str (String.mk s), r)
      else
        let token := t.takeWhile isUnquotedChar
        if token = [] then .error "SNBT: illegal character"
        else .ok (resolveToken token, t.dropWhile isUnquotedChar)

/-- `_parse_items` after the first element position: the accumulating loop of
list/array parsing, with trailing commas (and, as in the source, missing
commas) accepted.  The Boolean records the `[B;`/`[I;`/`[L;` typed-array
marker, applied by the caller. -/
def parseItems (fuel : ℕ) (close : Char) (asInt : Bool) (acc : List SVal) :
    List Char → Except String (List SVal × List Char) :=
  fun s =>
    match fuel with
    | 0 => .error "SNBT: out of fuel"
    | fuel + 1 =>
      let t := skipWs s
      match t with
      | [] => .error "SNBT: unexpected end of input"
      | c :: rest =>
        if c = close then .ok (acc.reverse, rest)
        else if c = ',' && !acc.isEmpty then
          let t2 := skipWs rest
          match t2 with
          | [] => .error "SNBT: unexpected end of input"
          | c2 :: rest2 =>
            if c2 = close then .ok (acc.reverse, rest2)
            else
              match parseValue fuel t2 with
              | .error e => .error e
              | .ok (v, r) => parseItems fuel close asInt (v :: acc) r
        else
          match parseValue fuel t with
          | .error e => .error e
          | .ok (v, r) => parseItems fuel close asInt (v :: acc) r

/-- `_parse_dict` after the opening brace: `key:value` pairs separated by
commas, trailing comma allowed, quoted or bare keys. -/
def parseDict (fuel : ℕ) : List Char → Except String (SVal × List Char) :=
  fun s =>
    match fuel with
    | 0 => .error "SNBT: out of fuel"
    | fuel + 1 =>
      let t := skipWs s
      match t with
      | [] => .error "SNBT: unexpected end of input"
      | c :: rest =>
        if c = rbrace then .ok (.comp [], rest)
        else parseDictLoop fuel [] t

/-- The accumulating loop of `_parse_dict`. -/
def parseDictLoop (fuel : ℕ) (acc : List (String × SVal)) :
    List Char → Except String (SVal × List Char) :=
  fun s =>
    match fuel with
    | 0 => .error "SNBT: out of fuel"
    | fuel + 1 =>
      match parseKV fuel s with
      | .error e => .error e
      | .ok (k, v, r) =>
        let t := skipWs r
        match t with
        | [] => .error "SNBT: unexpected end of input"
        | c :: rest =>
          if c = rbrace then .ok (.comp (dictInsert acc k v), rest)
          else if c = ',' then
            let t2 := skipWs rest
            match t2 with
            | [] => .error "SNBT: unexpected end of input"
            | c2 :: rest2 =>
              if c2 = rbrace then .ok (.comp (dictInsert acc k v), rest2)
              else parseDictLoop fuel (dictInsert acc k v) t2
          else parseDictLoop fuel (dictInsert acc k v) t

/-- `_parse_kv`: a quoted or bare key (bare keys read until `:`, `,`, a closing
brace or whitespace), then one character consumed for the `:` (the source
advances without checking it), then a value. -/
def parseKV (fuel : ℕ) : List Char → Except String (String × SVal × List Char) :=
  fun s =>
    match fuel with
    | 0 => .error "SNBT: out of fuel"
    | fuel + 1 =>
      let t := skipWs s
      let keyRes : Except String (String × List Char) :=
        match t with
        | [] => .error "SNBT: unexpected end of input"
        | c :: rest =>
          if c = '"' ∨ c = '\'' then
            match parseQuoted c (rest.length + 1) rest with
            | .error e => .error e
            | .ok (k, r) => .ok (String.mk k, r)
          else
            let isKeyStop : Char → Bool := fun ch =>
              ch = ':' || ch = ',' || ch = rbrace || isSnbtWs ch
            .ok (String.mk (t.takeWhile (fun ch => !isKeyStop ch)),
                 t.dropWhile (fun ch => !isKeyStop ch))
      match keyRes with
      | .error e => .error e
      | .ok (k, r) =>
        let r1 := skipWs r
        match r1 with
        | [] => .error "SNBT: unexpected end of input"
        | _ :: r2 =>
          match parseValue fuel r2 with
          | .error e => .error e
          | .ok (v, r3) => .ok (k, v, r3)

end

/-- `from_snbt`: parse SNBT text into a value (leading and trailing whitespace
skipped; the source does not reject trailing garbage).  The fuel `4 * len + 4`
strictly dominates the recursion: every chain of four nested calls consumes at
least one input character, so the fuel guard is never the reason a parse
fails. -/
def fromSnbt (text : String) : Except String SVal :=
  match parseValue (4 * text.length + 4) text.data with
  | .error e => .error e
  | .ok (v, _) => .ok v

/- ============================================================
   SPS line tokens (`sparkle/sps.py`, format v1)
   ============================================================ -/

/-- Tag of a coordinate block: `P` position header, `M` motion header. -/
inductive PtsTag where
  | P
  | M
deriving DecidableEq

/-- One line of an SPS body, at the token level.  `_fmt` rounds each number a
second time (the identity on the already-rounded encoder values) and strips
zero digits, and decoding parses the digits back with `float`, so each line's
numeric payload survives the text layer exactly; the constructors carry those
payloads.  A `delta` line carries the list of written components (two under
axis elision, three otherwise), which is also how the decoder distinguishes
the elided case (`len(vals) == 2`). -/
inductive SLine where
  | header (tag : PtsTag) (p : P3)
  | delta (vals : List ℚ)
  | dropDir (axis : ℕ)
  | run (k n : ℕ)
  | tline (name : String)
  | dline (d : P3)
  | vline (v : ℚ)
  | cline (c : ℤ)
  | tick (t : ℤ)
deriving DecidableEq

/-- `_is_data_line`: a delta line is the only line form starting with a digit,
`-` or `.` (headers start with `P`/`M`, directives with `?`, run markers with
`=`, attribute lines with a letter, tick markers with `>`). -/
def isDataLine : SLine → Bool
  | .delta _ => true
  | _ => false

/- ============================================================
   Point-block decoding (`_decode_pts`)
   ============================================================ -/

/-- `pts[-1]`: the decoder indexes the last accumulated point; the list is
never empty there (it starts from the header point). -/
def lastP (ps : List P3) : P3 := ps.getLastD (0, 0, 0)

/-- Inner loop of a run-marker replay: `for d in pattern: pts.append(prev+d)`. -/
def appendPattern (ps : List P3) (pattern : List P3) : List P3 :=
  pattern.foldl (fun a d => a ++ [p3add (lastP a) d]) ps

/-- Outer loop of a run-marker replay: `for _ in range(n)`. -/
def appendReps (ps : List P3) (pattern : List P3) : ℕ → List P3
  | 0 => ps
  | n + 1 => appendReps (appendPattern ps pattern) pattern n

/-- The loop of `_decode_pts` over the lines after the header.  State:
accumulated points, literal deltas seen (`recent_deltas`), currently elided
axis.  A run marker `= k n` replays the last `k` literal deltas `n` times
(Python's `recent_deltas[-k:]`, which for `k = 0` is the whole list); a
two-component delta line under an active elision directive gets `0` inserted
at the elided axis; the loop stops at the first line that is not a
directive/run/delta line and returns it with the rest. -/
def decodePtsLoop : List SLine → List P3 → List P3 → Option ℕ → (List P3 × List SLine)
  | [], pts, _, _ => (pts, [])
  | l :: rest, pts, recent, drop =>
    match l with
    | .dropDir a => decodePtsLoop rest pts recent (some a)
    | .run k n =>
      let pattern := if k = 0 then recent else recent.drop (recent.length - k)
      decodePtsLoop rest (appendReps pts pattern n) recent drop
    | .delta vals0 =>
      let vals := match drop with
        | some a => if vals0.length = 2 then vals0.insertIdx a 0 else vals0
        | none => vals0
      let d : P3 := (vals.getD 0 0, vals.getD 1 0, vals.getD 2 0)
      decodePtsLoop rest (pts ++ [p3add (lastP pts) d]) (recent ++ [d]) drop
    | _ => (pts, l :: rest)

/-- `_decode_pts`: read the absolute header point, then accumulate deltas.
(The source is only ever called with the cursor on a `P`/`M` header; on any
other input it would raise on the header split, modelled by the identity
fallback, which no theorem relies on.) -/
def decodePts : List SLine → (List P3 × List SLine)
  | .header _ p :: rest => decodePtsLoop rest [p] [] none
  | lines => ([], lines)

theorem decodePtsLoop_rest_le (ls : List SLine) :
    ∀ pts recent drop, (decodePtsLoop ls pts recent drop).2.length ≤ ls.length := by
  induction ls with
  | nil => intro pts recent drop; simp [decodePtsLoop]
  | cons l rest ih =>
    intro pts recent drop
    match l with
    | .dropDir a => simpa [decodePtsLoop] using le_trans (ih ..) (by omega)
    | .run k n => simpa [decodePtsLoop] using le_trans (ih ..) (by omega)
    | .delta vals => simpa [decodePtsLoop] using le_trans (ih ..) (by omega)
    | .header t p => simp [decodePtsLoop]
    | .tline s => simp [decodePtsLoop]
    | .dline d => simp [decodePtsLoop]
    | .vline v => simp [decodePtsLoop]
    | .cline c => simp [decodePtsLoop]
    | .tick t => simp [decodePtsLoop]

theorem decodePts_rest_le (ls : List SLine) :
    (decodePts ls).2.length ≤ ls.length := by
  match ls with
  | .header t p :: rest =>
    simpa [decodePts] using le_trans (decodePtsLoop_rest_le ..) (by omega)
  | [] => simp [decodePts]
  | .delta v :: r => simp [decodePts]
  | .dropDir a :: r => simp [decodePts]
  | .run k n :: r => simp [decodePts]
  | .tline s :: r => simp [decodePts]
  | .dline d :: r => simp [decodePts]
  | .vline v :: r => simp [decodePts]
  | .cline c :: r => simp [decodePts]
  | .tick t :: r => simp [decodePts]

/- ============================================================
   Shapes (`ParticleShape`) and the shape record codec
   ============================================================ -/

/-- `ParticleShape`, restricted to the fields the SPS codec reads and writes.
`motions = none` is Python's `motions is None`; `_numify`/`_numify3` in the
source switch the Python number type (`float` with integral value → `int`)
without changing the numeric value, so they are invisible in the rational
model. -/
structure Shape where
  points : List P3
  particle : String
  delta : P3
  speed : ℚ
  count : ℤ
  motions : Option (List P3)
deriving DecidableEq

/-- The per-record scalar state threaded between animation frames: stripped
particle type, spread vector, speed, count. -/
structure ShapeState where
  t : String
  d : P3
  v : ℚ
  c : ℤ
deriving DecidableEq

/-- `_DEFAULTS = dict(t="flame", d=(0,0,0), v=0.0, c=1)`. -/
def defaultState : ShapeState := ⟨"flame", (0, 0, 0), 0, 1⟩

/-- The shape assembled at the end of `_decode_shape`: the particle name is
namespace-qualified when it carries no `:`, empty decoded motions collapse to
`none` (`motions or None`). -/
def mkDecodedShape (p : String) (d : P3) (v : ℚ) (c : ℤ)
    (points motions : List P3) : Shape :=
  { points := points
    particle := if p.data.contains ':' then p else "minecraft:" ++ p
    delta := d
    speed := v
    count := c
    motions := if motions.isEmpty then none else some motions }

/-- The line loop of `_decode_shape`.  Stray data lines (and any line whose
command letter is not recognized, e.g. `?`/`=` outside a point block) are
skipped; `t`/`d`/`v`/`c` update the running scalars; `P`/`M` headers hand the
suffix to `_decode_pts`. -/
def decodeShapeLoop :
    List SLine → String → P3 → ℚ → ℤ → List P3 → List P3 → Shape × ShapeState
  | [], p, d, v, c, points, motions =>
    (mkDecodedShape p d v c points motions, ⟨p, d, v, c⟩)
  | l :: rest, p, d, v, c, points, motions =>
    match l with
    | .tline s => decodeShapeLoop rest s d v c points motions
    | .dline nd => decodeShapeLoop rest p nd v c points motions
    | .vline nv => decodeShapeLoop rest p d nv c points motions
    | .cline nc => decodeShapeLoop rest p d v nc points motions
    | .header .P q =>
      let r := decodePts (SLine.header .P q :: rest)
      decodeShapeLoop r.2 p d v c r.1 motions
    | .header .M q =>
      let r := decodePts (SLine.header .M q :: rest)
      decodeShapeLoop r.2 p d v c points r.1
    | _ => decodeShapeLoop rest p d v c points motions
  termination_by ls => ls.length
  decreasing_by
  all_goals simp only [List.length_cons]
  all_goals first
  | omega
  | · have := decodePtsLoop_rest_le rest [q] [] none
      simp only [decodePts]
      omega

/-- `_decode_shape`: run the line loop from the inherited defaults. -/
def decodeShape (lines : List SLine) (st : ShapeState) : Shape × ShapeState :=
  decodeShapeLoop lines st.t st.d st.v st.c [] []

/- ============================================================
   Axis-elision planning (`_plan_drops`)
   ============================================================ -/

/-- The per-axis scanner of `_plan_drops`: walk the deltas from absolute index
`i`, and for every maximal run of zeros (on the given axis) of length at least
3 record `(start, stop, axis, length)`. -/
def zeroRuns (axis : ℕ) (ds : List P3) (i : ℕ) : List (ℕ × ℕ × ℕ × ℕ) :=
  match ds with
  | [] => []
  | d :: rest =>
    if axisVal d axis = 0 then
      let zl := 1 + (rest.takeWhile (fun e => decide (axisVal e axis = 0))).length
      (if 3 ≤ zl then [(i, i + zl, axis, zl)] else [])
        ++ zeroRuns axis (rest.drop (zl - 1)) (i + zl)
    else zeroRuns axis rest (i + 1)
  termination_by ds.length
  decreasing_by
  all_goals simp only [List.length_drop, List.length_cons]
  all_goals omega

/-- Stable insertion keeping runs sorted by length descending: a run is placed
after every run of length ≥ its own, which is exactly the order
`runs.sort(key=..., reverse=True)` (a stable sort) produces. -/
def insertRunDesc (r : ℕ × ℕ × ℕ × ℕ) : List (ℕ × ℕ × ℕ × ℕ) → List (ℕ × ℕ × ℕ × ℕ)
  | [] => [r]
  | s :: rest => if s.2.2.2 < r.2.2.2 then r :: s :: rest else s :: insertRunDesc r rest

/-- Stable sort of the candidate runs by length descending. -/
def sortRunsDesc (l : List (ℕ × ℕ × ℕ × ℕ)) : List (ℕ × ℕ × ℕ × ℕ) :=
  l.foldl (fun acc r => insertRunDesc r acc) []

/-- `all(drop_map[k] is None for k in range(start, end))`, positionally: the
head is checked when the window `[s, e)` covers index 0 and the window shifts
down along the recursion.  (The accepted runs always satisfy `e ≤ len`, so
Python's out-of-range `IndexError` case is unreachable.) -/
def rangeFree : List (Option ℕ) → ℕ → ℕ → Bool
  | [], _, _ => true
  | v :: rest, s, e =>
    (if s = 0 ∧ 0 < e then v.isNone else true) && rangeFree rest (s - 1) (e - 1)

/-- `for k in range(start, end): drop_map[k] = axis`, positionally as in
`rangeFree`. -/
def fillRange : List (Option ℕ) → ℕ → ℕ → ℕ → List (Option ℕ)
  | [], _, _, _ => []
  | v :: rest, s, e, axis =>
    (if s = 0 ∧ 0 < e then some axis else v) :: fillRange rest (s - 1) (e - 1) axis

/-- Greedy non-overlapping assignment of the sorted runs. -/
def assignRuns (runs : List (ℕ × ℕ × ℕ × ℕ)) (dm : List (Option ℕ)) : List (Option ℕ) :=
  runs.foldl (fun m r => if rangeFree m r.1 r.2.1 then fillRange m r.1 r.2.1 r.2.2.1 else m) dm

/-- `_plan_drops`: per delta index, the elided axis (`some a`) or `none`.
Only runs of ≥ 3 consecutive zero components enable elision; candidates from
all three axes are sorted by length descending and accepted greedily when
non-overlapping. -/
def planDrops (ds : List P3) : List (Option ℕ) :=
  if ds.isEmpty then []
  else
    assignRuns (sortRunsDesc (zeroRuns 0 ds 0 ++ zeroRuns 1 ds 0 ++ zeroRuns 2 ds 0))
      (List.replicate ds.length none)

/- ============================================================
   Point-block encoding (`_encode_pts`)
   ============================================================ -/

/-- `dec_pts`: the decoder accumulation the encoder simulates — the running
sums of the deltas from the anchor (so `accPts a ds` has length
`ds.length + 1` and starts with `a`). -/
def accPts (a : P3) : List P3 → List P3
  | [] => [a]
  | d :: ds => a :: accPts (p3add a d) ds

/-- The decoder point reached after applying a list of deltas from `a`. -/
def accLast (a : P3) (ds : List P3) : P3 := (accPts a ds).getLastD a

/-- The consecutive deltas of a rounded point list (`n - 1` deltas). -/
def deltasOf : List P3 → List P3
  | a :: b :: rest => p3sub b a :: deltasOf (b :: rest)
  | _ => []

/-- `_fmtD`: the written components of a delta line — all three, or the two
components other than the elided axis.  (As in the source, an axis index
outside `0..2` elides nothing.) -/
def deltaVals (drop : Option ℕ) (d : P3) : List ℚ :=
  match drop with
  | none => p3list d
  | some a => (p3list d).eraseIdx a

/-- One simulated replay of `pattern` from `acc`: each step adds the next
pattern delta and compares the result with the corresponding target decoder
point, both rounded to `prec` (the inner `for jj in range(k)` loop of
`_encode_pts`).  Returns the verdict and the accumulator after the replay. -/
def replayChk (prec : ℕ) : List P3 → P3 → List P3 → Bool × P3
  | [], acc, _ => (true, acc)
  | _ :: _, acc, [] => (false, acc)
  | d :: ps, acc, t :: ts =>
    let acc' := p3add acc d
    if round3 prec acc' = round3 prec t then replayChk prec ps acc' ts
    else (false, acc')

/-- The `while pos + k <= seg_end` replay-counting loop: how many complete
replays of `pattern` succeed against the target points. -/
def countReps (prec : ℕ) (pattern : List P3) (acc : P3) (targets : List P3) : ℕ :=
  if h : targets.length < pattern.length ∨ pattern.isEmpty then 0
  else
    match replayChk prec pattern acc targets with
    | (true, acc') => 1 + countReps prec pattern acc' (targets.drop pattern.length)
    | (false, _) => 0
  termination_by targets.length
  decreasing_by
  simp only [not_or, not_lt] at h
  have h2 : pattern ≠ [] := by
    intro he
    exact absurd (by simp [he]) h.2
  have h3 : 0 < pattern.length := List.length_pos.mpr h2
  simp only [List.length_drop]
  omega

/-- The best `(k, n)` search of `_encode_pts` at the current position: `k`
runs over `1 .. min(remaining/2, 8)` in increasing order; a candidate replaces
the best so far only when its coverage `n*k` strictly exceeds the best
coverage so far (so the smallest `k` wins ties).  `ds` is the remaining
segment, `acc` the current decoder point (`dec_pts[j]`). -/
def bestRun (prec : ℕ) (ds : List P3) (acc : P3) : ℕ × ℕ :=
  (List.range' 1 (min (ds.length / 2) 8)).foldl
    (fun best k =>
      let pattern := ds.take k
      let accK := (accPts acc ds).getD k acc
      let n := countReps prec pattern accK ((accPts acc ds).drop (k + 1))
      if 0 < n ∧ best.2 * best.1 < n * k then (k, n) else best)
    (0, 0)

/-- Invariant-threading for left folds, used to read properties off the best
`(k, n)` search. -/
theorem foldl_inv {α β : Type} (P : β → Prop) (f : β → α → β) :
    ∀ (l : List α) (b : β), P b → (∀ b' x, x ∈ l → P b' → P (f b' x)) →
      P (l.foldl f b)
  | [], _, hb, _ => hb
  | x :: l, b, hb, hs =>
    foldl_inv P f l (f b x) (hs b x (by simp) hb)
      (fun b' y hy => hs b' y (by simp [hy]))

theorem bestRun_fst_pos (prec : ℕ) (ds : List P3) (acc : P3) :
    0 < (bestRun prec ds acc).2 → 1 ≤ (bestRun prec ds acc).1 := by
  unfold bestRun
  refine foldl_inv (fun best => 0 < best.2 → 1 ≤ best.1) _ _ (0, 0) (by simp) ?_
  intro b k hk hb
  simp only []
  split
  · exact fun _ => (List.mem_range'_1.mp hk).1
  · exact hb

/-- Run-length encoding of one elision segment (`while j < seg_end`): emit the
best pattern block followed by its run marker and skip what it covers, or a
single literal delta line when no replay succeeds. -/
def encSeg (prec : ℕ) (drop : Option ℕ) : List P3 → P3 → List SLine
  | [], _ => []
  | d :: rest, acc =>
    let ds := d :: rest
    if h : 0 < (bestRun prec ds acc).2 then
      (ds.take (bestRun prec ds acc).1).map (fun e => SLine.delta (deltaVals drop e))
        ++ SLine.run (bestRun prec ds acc).1 (bestRun prec ds acc).2
        :: encSeg prec drop
             (ds.drop ((bestRun prec ds acc).1 + (bestRun prec ds acc).2 * (bestRun prec ds acc).1))
             ((accPts acc ds).getD
               ((bestRun prec ds acc).1 + (bestRun prec ds acc).2 * (bestRun prec ds acc).1) acc)
    else
      SLine.delta (deltaVals drop d) :: encSeg prec drop rest (p3add acc d)
  termination_by ds => ds.length
  decreasing_by
  · have hk := bestRun_fst_pos prec (d :: rest) acc h
    simp only [List.length_drop, List.length_cons]
    omega
  · simp

theorem lengthDropWhileLe {α : Type} (p : α → Bool) (l : List α) :
    (l.dropWhile p).length ≤ l.length := by
  induction l with
  | nil => simp
  | cons x xs ih =>
    simp only [List.dropWhile_cons]
    split
    · exact le_trans ih (by simp)
    · simp

/-- The outer segment walk of `_encode_pts` over the deltas zipped with their
planned elision: group maximal constant-elision segments, emit a `? axis`
directive on entering a segment with an elided axis (nothing is emitted when
the new state is `none`), and run-length encode each segment. -/
def encBody (prec : ℕ) : List (P3 × Option ℕ) → Option ℕ → P3 → List SLine
  | [], _, _ => []
  | (d, dr) :: rest, cur, acc =>
    let zds := (d, dr) :: rest
    let seg := (zds.takeWhile (fun x => decide (x.2 = dr))).map Prod.fst
    let after := zds.dropWhile (fun x => decide (x.2 = dr))
    let dirLines : List SLine :=
      if dr = cur then []
      else
        match dr with
        | some a => [.dropDir a]
        | none => []
    dirLines ++ encSeg prec dr seg acc
      ++ encBody prec after dr ((accPts acc seg).getLastD acc)
  termination_by zds => zds.length
  decreasing_by
  simp only [List.dropWhile_cons]
  split
  · have := lengthDropWhileLe (fun x => decide (x.2 = dr)) rest
    simp only [List.length_cons]
    omega
  · simp_all

/-- `_encode_pts`: round all points to `prec` first, emit the absolute header,
then the delta stream with axis elision and run-length folding. -/
def encodePts (pts : List P3) (tag : PtsTag) (prec : ℕ) : List SLine :=
  match pts with
  | [] => []
  | p :: rest =>
    let rpts := (p :: rest).map (round3 prec)
    let hd := SLine.header tag (rpts.headD (0, 0, 0))
    if rpts.length < 2 then [hd]
    else
      let deltas := deltasOf rpts
      hd :: encBody prec (deltas.zip (planDrops deltas)) none (rpts.headD (0, 0, 0))

/- ============================================================
   Shape record encoding (`_encode_shape`)
   ============================================================ -/

/-- Strip the well-known namespace:
`shape.particle[10:] if shape.particle.startswith("minecraft:") else ...`. -/
def stripMc (s : String) : String :=
  if "minecraft:".data.isPrefixOf s.data then s.drop 10 else s

/-- The type line of `_encode_shape`:
`if prev is None or sp != prev["t"]: lines.append(f"t {sp}")`. -/
def tlineDiff (sp : String) (prev : Option ShapeState) : List SLine :=
  match prev with
  | none => [.tline sp]
  | some st => if sp ≠ st.t then [.tline sp] else []

/-- The `d`/`v`/`c` lines of `_encode_shape`: against the fixed defaults when
there is no previous state, else against the previous state. -/
def attrDiff (prec : ℕ) (cd : P3) (cv : ℚ) (cc : ℤ) (prev : Option ShapeState) :
    List SLine :=
  match prev with
  | none =>
    (if cd ≠ (0, 0, 0) then [.dline (round3 prec cd)] else [])
      ++ (if cv ≠ 0 then [.vline (roundDec prec cv)] else [])
      ++ (if cc ≠ 1 then [.cline cc] else [])
  | some st =>
    (if cd ≠ st.d then [.dline (round3 prec cd)] else [])
      ++ (if cv ≠ st.v then [.vline (roundDec prec cv)] else [])
      ++ (if cc ≠ st.c then [.cline cc] else [])

/-- `_encode_shape`: diff the scalar attributes against the previous state (or
the fixed defaults when there is none — except for the type line, which is
always emitted on the first record), then the position block and, when the
motions list is non-`None` and non-empty (Python truthiness), the motion
block.  The `d`/`v` payloads go through `_fmt`, i.e. are rounded to `prec`;
the comparisons happen on the unrounded values. -/
def encodeShape (shape : Shape) (prec : ℕ) (prev : Option ShapeState) :
    List SLine × ShapeState :=
  let sp := stripMc shape.particle
  let cd := shape.delta
  let cv := shape.speed
  let cc := shape.count
  let state : ShapeState := ⟨sp, cd, cv, cc⟩
  let mlines : List SLine :=
    match shape.motions with
    | some ms => if ms.isEmpty then [] else encodePts ms .M prec
    | none => []
  (tlineDiff sp prev ++ attrDiff prec cd cv cc prev
    ++ encodePts shape.points .P prec ++ mlines, state)

/- ============================================================
   Saving and loading (`save` / `load`), at the body level
   ============================================================ -/

/-- Ascending insertion by tick (`sorted(data.frames)`; dict keys are
unique). -/
def insertFrame (x : ℤ × Shape) : List (ℤ × Shape) → List (ℤ × Shape)
  | [] => [x]
  | y :: rest => if x.1 < y.1 then x :: y :: rest else y :: insertFrame x rest

/-- Sort an animation's frames by tick. -/
def sortFrames (l : List (ℤ × Shape)) : List (ℤ × Shape) :=
  l.foldl (fun acc x => insertFrame x acc) []

/-- The frame loop of `save` for an animation: tick marker, then the frame's
record diffed against the threaded state. -/
def encodeFrames (prec : ℕ) : List (ℤ × Shape) → Option ShapeState → List SLine
  | [], _ => []
  | (t, sh) :: rest, prev =>
    let r := encodeShape sh prec prev
    SLine.tick t :: r.1 ++ encodeFrames prec rest (some r.2)

/-- The body `save` writes for a single shape (after `#SPS1` and `@s`, which
the loader strips/dispatches on; comments and blank lines likewise never
reach the decoders). -/
def saveShapeLines (sh : Shape) (prec : ℕ) : List SLine :=
  (encodeShape sh prec none).1

/-- The body `save` writes for an animation (after `#SPS1` and `@a`). -/
def saveAnimLines (frames : List (ℤ × Shape)) (prec : ℕ) : List SLine :=
  encodeFrames prec (sortFrames frames) none

/-- `load` on a `@s` body. -/
def loadShapeBody (body : List SLine) : Shape :=
  (decodeShape body defaultState).1

/-- The grouping loop of `load` for `@a` bodies: split the body at tick
markers.  `tick` starts at `-1` and a group is emitted only when `tick >= 0`,
so lines before the first marker and groups under a negative tick are
silently dropped. -/
def splitFrames : List SLine → ℤ → List SLine → List (ℤ × List SLine)
  | [], tick, buf => if 0 ≤ tick then [(tick, buf)] else []
  | l :: rest, tick, buf =>
    match l with
    | .tick t => (if 0 ≤ tick then [(tick, buf)] else []) ++ splitFrames rest t []
    | _ => splitFrames rest tick (buf ++ [l])

/-- The frame decode loop of `load`: thread the scalar state through the
groups in file order and assign `anim.frames[t] = shape` — a repeated tick
overwrites the earlier frame in place. -/
def decodeFrames : List (ℤ × List SLine) → ShapeState → List (ℤ × Shape) → List (ℤ × Shape)
  | [], _, acc => acc
  | (t, ls) :: rest, st, acc =>
    let r := decodeShape ls st
    decodeFrames rest r.2 (dictInsert acc t r.1)

/-- `load` on an `@a` body: the resulting `tick → shape` map as an
insertion-ordered association list. -/
def loadAnimBody (body : List SLine) : List (ℤ × Shape) :=
  decodeFrames (splitFrames body (-1) []) defaultState []

/- ============================================================
   The compiler output (`ParticleCompiler.compile`), numerically
   ============================================================ -/

/-- The numeric payload of one `particle` command: type, position (formatted
at `prec` decimals by `_fmt_coord`), the delta-or-motion triple (motions are
formatted at `prec`, spreads printed verbatim), speed, and count (the literal
`0` in motion mode). -/
structure Cmd where
  particle : String
  pos : P3
  dv : P3
  speed : ℚ
  count : ℤ
deriving DecidableEq

/-- `ParticleCompiler.compile`, at the numeric level (the command strings are
injective renderings of these records).  With motions present the source
indexes `motions[i]` for each point index `i`, which requires the parallel
lists to have equal length; the zip realizes exactly that case. -/
def compileCmds (sh : Shape) (prec : ℕ) : List Cmd :=
  match sh.motions with
  | some ms =>
    (sh.points.zip ms).map
      (fun pm => ⟨sh.particle, round3 prec pm.1, round3 prec pm.2, sh.speed, 0⟩)
  | none =>
    sh.points.map (fun p => ⟨sh.particle, round3 prec p, sh.delta, sh.speed, sh.count⟩)

/- ============================================================
   Properties of the delta accumulation
   ============================================================ -/

theorem accPts_ne_nil (a : P3) (ds : List P3) : accPts a ds ≠ [] := by
  cases ds <;> simp [accPts]

theorem accPts_length (a : P3) (ds : List P3) :
    (accPts a ds).length = ds.length + 1 := by
  induction ds generalizing a with
  | nil => simp [accPts]
  | cons d rest ih => simp [accPts, ih]

theorem accPts_head_tail (a : P3) (ds : List P3) :
    accPts a ds = a :: (accPts a ds).tail := by
  cases ds <;> simp [accPts]

theorem getLastD_of_ne_nil {α : Type} {l : List α} (h : l ≠ []) (d1 d2 : α) :
    l.getLastD d1 = l.getLastD d2 := by
  cases l with
  | nil => exact absurd rfl h
  | cons x xs => rw [List.getLastD_cons, List.getLastD_cons]

theorem accLast_nil (a : P3) : accLast a [] = a := by
  simp [accLast, accPts]

theorem accLast_cons (a d : P3) (ds : List P3) :
    accLast a (d :: ds) = accLast (p3add a d) ds := by
  simp only [accLast, accPts, List.getLastD_cons]
  exact getLastD_of_ne_nil (accPts_ne_nil _ _) _ _

theorem accPts_append (a : P3) (l1 l2 : List P3) :
    accPts a (l1 ++ l2) = accPts a l1 ++ (accPts (accLast a l1) l2).tail := by
  induction l1 generalizing a with
  | nil =>
    simp only [List.nil_append, accPts, accLast_nil, List.singleton_append]
    exact accPts_head_tail a l2
  | cons d rest ih => simp [accPts, ih, accLast_cons]

theorem accPts_tail_append (a : P3) (l1 l2 : List P3) :
    (accPts a (l1 ++ l2)).tail
      = (accPts a l1).tail ++ (accPts (accLast a l1) l2).tail := by
  rw [accPts_append]
  conv_lhs => rw [accPts_head_tail a l1]
  simp

theorem accLast_append (a : P3) (l1 l2 : List P3) :
    accLast a (l1 ++ l2) = accLast (accLast a l1) l2 := by
  induction l1 generalizing a with
  | nil => simp [accLast_nil]
  | cons d rest ih => simp [accLast_cons, ih]

theorem accPts_deltasOf (a : P3) (rest : List P3) :
    accPts a (deltasOf (a :: rest)) = a :: rest := by
  induction rest generalizing a with
  | nil => simp [deltasOf, accPts]
  | cons b rest ih => simp [deltasOf, accPts, p3add_sub_cancel, ih]

theorem accPts_take (a : P3) (ds : List P3) (m : ℕ) :
    (accPts a ds).take (m + 1) = accPts a (ds.take m) := by
  induction ds generalizing a m with
  | nil => simp [accPts]
  | cons d rest ih =>
    cases m with
    | zero => simp [accPts]
    | succ m => simp [accPts, ih]

theorem accPts_getD (dflt : P3) (ds : List P3) :
    ∀ (a : P3) (m : ℕ), m ≤ ds.length →
      (accPts a ds).getD m dflt = accLast a (ds.take m) := by
  induction ds with
  | nil =>
    intro a m hm
    have : m = 0 := Nat.le_zero.mp (by simpa using hm)
    subst this
    simp [accPts, accLast_nil]
  | cons d rest ih =>
    intro a m hm
    cases m with
    | zero => simp [accPts, accLast_nil]
    | succ m =>
      simp only [accPts, List.getD_cons_succ, List.take_succ_cons, accLast_cons]
      exact ih _ m (by simpa using hm)

theorem accPts_tail_take (a : P3) (ds : List P3) (m : ℕ) :
    (accPts a ds).tail.take m = (accPts a (ds.take m)).tail := by
  have h1 := accPts_take a ds m
  have h2 := accPts_head_tail a ds
  have h3 := accPts_head_tail a (ds.take m)
  calc (accPts a ds).tail.take m
      = ((accPts a ds).take (m + 1)).tail := by
        rw [h2]
        simp
    _ = (accPts a (ds.take m)).tail := by rw [h1]

theorem accPts_tail_drop (a : P3) (ds : List P3) (m : ℕ) :
    (accPts a ds).tail.drop m = (accPts (accLast a (ds.take m)) (ds.drop m)).tail := by
  conv_lhs => rw [← List.take_append_drop m ds, accPts_append]
  rw [accPts_head_tail a (ds.take m)]
  simp only [List.cons_append, List.tail_cons]
  by_cases hm : m ≤ ds.length
  · have hX : (accPts a (ds.take m)).tail.length = m := by
      have h1 := accPts_length a (ds.take m)
      have hl : (ds.take m).length = m := by simp [hm]
      rw [accPts_head_tail a (ds.take m)] at h1
      simp only [List.length_cons] at h1
      omega
    have h2 := List.drop_left ((accPts a (ds.take m)).tail)
      ((accPts (accLast a (ds.take m)) (ds.drop m)).tail)
    rwa [hX] at h2
  · push_neg at hm
    have h1 : ds.take m = ds := List.take_of_length_le (le_of_lt hm)
    have h2 : ds.drop m = [] := List.drop_eq_nil_of_le (le_of_lt hm)
    rw [h1, h2]
    simp only [accPts, List.tail_cons, List.append_nil]
    apply List.drop_eq_nil_of_le
    have h3 := accPts_length a ds
    rw [accPts_head_tail a ds] at h3
    simp only [List.length_cons] at h3
    omega

theorem accPts_onGrid {prec : ℕ} : ∀ {ds : List P3} {a : P3}, OnGrid3 prec a →
    (∀ d ∈ ds, OnGrid3 prec d) → ∀ x ∈ accPts a ds, OnGrid3 prec x := by
  intro ds
  induction ds with
  | nil => intro a ha _ x hx; simp [accPts] at hx; rwa [hx]
  | cons d rest ih =>
    intro a ha hds x hx
    simp only [accPts, List.mem_cons] at hx
    rcases hx with rfl | hx
    · exact ha
    · exact ih (ha.add (hds d (by simp))) (fun e he => hds e (by simp [he])) x hx

theorem accLast_onGrid {prec : ℕ} : ∀ {ds : List P3} {a : P3}, OnGrid3 prec a →
    (∀ d ∈ ds, OnGrid3 prec d) → OnGrid3 prec (accLast a ds) := by
  intro ds
  induction ds with
  | nil => intro a ha _; rwa [accLast_nil]
  | cons d rest ih =>
    intro a ha hds
    rw [accLast_cons]
    exact ih (ha.add (hds d (by simp))) (fun e he => hds e (by simp [he]))

/- ============================================================
   Decoding the encoder's output: single lines and replays
   ============================================================ -/

/-- The relation the encoder maintains between its elision state and the
decoder's directive state: whenever the encoder writes two-component lines for
axis `a`, the decoder's last seen directive is `? a` (the decoder's state is
unconstrained while the encoder writes full lines, since three-component lines
never trigger reinsertion). -/
def dropCompat : Option ℕ → Option ℕ → Prop
  | some a, dropd => dropd = some a
  | none, _ => True

/-- `n` concatenated copies of a pattern block. -/
def repeatN (pattern : List P3) (n : ℕ) : List P3 := (List.replicate n pattern).flatten

theorem repeatN_zero (pattern : List P3) : repeatN pattern 0 = [] := rfl

theorem repeatN_succ (pattern : List P3) (n : ℕ) :
    repeatN pattern (n + 1) = pattern ++ repeatN pattern n := by
  simp [repeatN, List.replicate_succ]

theorem lastP_append_right (l : List P3) {r : List P3} (hr : r ≠ []) :
    lastP (l ++ r) = lastP r := by
  induction l with
  | nil => simp
  | cons x xs ih =>
    show (x :: (xs ++ r)).getLastD (0, 0, 0) = lastP r
    rw [List.getLastD_cons, getLastD_of_ne_nil (show xs ++ r ≠ [] by simp [hr]) x (0, 0, 0)]
    exact ih

theorem lastP_concat (l : List P3) (x : P3) : lastP (l ++ [x]) = x := by
  rw [lastP_append_right l (by simp)]
  simp [lastP]

theorem lastP_accPts (a : P3) (ds : List P3) : lastP (accPts a ds) = accLast a ds := by
  unfold lastP accLast
  exact getLastD_of_ne_nil (accPts_ne_nil _ _) _ _

theorem lastP_append_tail {pts : List P3} {a : P3} (h : lastP pts = a) (ds : List P3) :
    lastP (pts ++ (accPts a ds).tail) = accLast a ds := by
  cases ds with
  | nil => simpa [accPts, accLast_nil]
  | cons d rest =>
    have hne : (accPts a (d :: rest)).tail ≠ [] := by
      have := accPts_length (p3add a d) rest
      simp [accPts, accPts_ne_nil]
    rw [lastP_append_right pts hne]
    have h2 := lastP_accPts a (d :: rest)
    rw [accPts_head_tail a (d :: rest)] at h2
    unfold lastP at h2 ⊢
    rw [List.getLastD_cons] at h2
    rw [← h2]
    exact getLastD_of_ne_nil hne _ _

theorem pts_ne_nil_append (pts l : List P3) (h : pts ≠ []) : pts ++ l ≠ [] := by
  simp [h]

/-- Reinserting `0` at the elided axis recovers the full component list. -/
theorem insert_erase_axis {a : ℕ} (ha : a < 3) {d : P3} (hz : axisVal d a = 0) :
    ((p3list d).eraseIdx a).insertIdx a 0 = p3list d := by
  interval_cases a <;>
    simp_all [p3list, axisVal, List.insertIdx, List.eraseIdx] <;>
    exact hz.symm

/-- Rebuilding the point tuple from its component list. -/
theorem p3_of_list (d : P3) :
    (((p3list d).getD 0 0 : ℚ), (p3list d).getD 1 0, (p3list d).getD 2 0) = d := by
  simp [p3list]

theorem deltaVals_none_length (d : P3) : (deltaVals none d).length = 3 := by
  simp [deltaVals, p3list]

theorem deltaVals_some_length {a : ℕ} (ha : a < 3) (d : P3) :
    (deltaVals (some a) d).length = 2 := by
  interval_cases a <;> simp [deltaVals, p3list, List.eraseIdx]

/-- Decoding one literal delta line emitted by the encoder appends exactly the
encoded delta (under a compatible directive state) and records it in
`recent_deltas`. -/
theorem decodePtsLoop_delta {dr dropd : Option ℕ} (hc : dropCompat dr dropd)
    {d : P3} (hdr : ∀ a, dr = some a → a < 3 ∧ axisVal d a = 0)
    (rest : List SLine) (pts recent : List P3) :
    decodePtsLoop (SLine.delta (deltaVals dr d) :: rest) pts recent dropd
      = decodePtsLoop rest (pts ++ [p3add (lastP pts) d]) (recent ++ [d]) dropd := by
  cases dr with
  | none =>
    have h3 := deltaVals_none_length d
    cases dropd with
    | none =>
      simp only [decodePtsLoop, deltaVals]
      rw [p3_of_list]
    | some b =>
      simp only [decodePtsLoop, deltaVals] at h3 ⊢
      rw [if_neg (by omega), p3_of_list]
  | some a =>
    obtain ⟨ha, hz⟩ := hdr a rfl
    have hcompat : dropd = some a := hc
    subst hcompat
    have h2 := deltaVals_some_length ha d
    simp only [decodePtsLoop]
    rw [if_pos h2, deltaVals, insert_erase_axis ha hz, p3_of_list]

/-- Decoding a block of literal delta lines appends the accumulated points. -/
theorem decodePtsLoop_deltaBlock {dr dropd : Option ℕ} (hc : dropCompat dr dropd)
    (L : List P3) (hdr : ∀ a, dr = some a → a < 3 ∧ ∀ d ∈ L, axisVal d a = 0) :
    ∀ (rest : List SLine) (pts recent : List P3), pts ≠ [] →
      decodePtsLoop ((L.map fun e => SLine.delta (deltaVals dr e)) ++ rest) pts recent dropd
        = decodePtsLoop rest (pts ++ (accPts (lastP pts) L).tail) (recent ++ L) dropd := by
  induction L with
  | nil => intro rest pts recent _; simp [accPts]
  | cons d L ih =>
    intro rest pts recent hpts
    simp only [List.map_cons, List.cons_append]
    rw [decodePtsLoop_delta hc (fun a h => ⟨(hdr a h).1, ((hdr a h).2) d (by simp)⟩)]
    rw [ih (fun a h => ⟨(hdr a h).1, fun e he => ((hdr a h).2) e (by simp [he])⟩)
      rest _ _ (by simp)]
    rw [lastP_concat]
    simp only [accPts, List.tail_cons, List.append_assoc, List.cons_append,
      List.nil_append]
    rw [← accPts_head_tail]

/-- One decoder replay of a pattern appends the accumulated points. -/
theorem appendPattern_eq (pattern : List P3) :
    ∀ (P : List P3), P ≠ [] →
      appendPattern P pattern = P ++ (accPts (lastP P) pattern).tail := by
  induction pattern with
  | nil => intro P _; simp [appendPattern, accPts]
  | cons d ps ih =>
    intro P hP
    show appendPattern (P ++ [p3add (lastP P) d]) ps = _
    rw [ih _ (by simp), lastP_concat]
    simp only [accPts, List.tail_cons, List.append_assoc, List.cons_append,
      List.nil_append]
    rw [← accPts_head_tail]

/-- `n` decoder replays of a pattern append the accumulated points of the
`n`-fold repetition. -/
theorem appendReps_eq (pattern : List P3) :
    ∀ (n : ℕ) (P : List P3), P ≠ [] →
      appendReps P pattern n = P ++ (accPts (lastP P) (repeatN pattern n)).tail := by
  intro n
  induction n with
  | zero => intro P hP; simp [appendReps, repeatN_zero, accPts]
  | succ n ih =>
    intro P hP
    show appendReps (appendPattern P pattern) pattern n = _
    rw [appendPattern_eq pattern P hP, ih _ (by simp [hP]),
      lastP_append_tail (rfl : lastP P = lastP P), repeatN_succ,
      accPts_append]
    simp only [List.append_assoc, List.append_cancel_left_eq]
    conv_rhs => rw [accPts_head_tail (lastP P) pattern]
    simp

/- ============================================================
   The run-length validation is sound (exact on the grid)
   ============================================================ -/

/-- A successful simulated replay pins the target prefix to the exact
accumulated points: on the decimal grid, rounded equality is equality. -/
theorem replayChk_ok {prec : ℕ} :
    ∀ {pattern : List P3} {acc acc' : P3} {targets : List P3},
      replayChk prec pattern acc targets = (true, acc') →
      OnGrid3 prec acc → (∀ d ∈ pattern, OnGrid3 prec d) →
      (∀ t ∈ targets, OnGrid3 prec t) → pattern.length ≤ targets.length →
      targets.take pattern.length = (accPts acc pattern).tail
        ∧ acc' = accLast acc pattern := by
  intro pattern
  induction pattern with
  | nil =>
    intro acc acc' targets h _ _ _ _
    simp only [replayChk] at h
    have h2 : acc = acc' := congrArg Prod.snd h
    subst h2
    simp [accPts, accLast_nil]
  | cons d ps ih =>
    intro acc acc' targets h hg hp ht hlen
    cases targets with
    | nil => simp at hlen
    | cons t ts =>
      simp only [replayChk] at h
      by_cases heq : round3 prec (p3add acc d) = round3 prec t
      · rw [if_pos heq] at h
        have hg1 : OnGrid3 prec (p3add acc d) := hg.add (hp d (by simp))
        have hgt : OnGrid3 prec t := ht t (by simp)
        have hadt : p3add acc d = t := by
          rw [← hg1.round3_eq, ← hgt.round3_eq, heq]
        obtain ⟨h1, h2⟩ := ih h hg1 (fun e he => hp e (by simp [he]))
          (fun e he => ht e (by simp [he])) (by simpa using hlen)
        constructor
        · simp only [List.length_cons, List.take_succ_cons, accPts, List.tail_cons]
          rw [h1, ← hadt, ← accPts_head_tail]
        · rw [h2, accLast_cons, hadt]
      · rw [if_neg heq] at h
        exact absurd (Prod.ext_iff.mp h).1 (by simp)

/-- A successful replay count pins the corresponding target prefix to the
accumulated points of the repeated pattern. -/
theorem countReps_take {prec : ℕ} {pattern : List P3}
    (hp : ∀ d ∈ pattern, OnGrid3 prec d) :
    ∀ (N : ℕ) (targets : List P3), targets.length ≤ N → ∀ (acc : P3),
      OnGrid3 prec acc → (∀ t ∈ targets, OnGrid3 prec t) →
      countReps prec pattern acc targets * pattern.length ≤ targets.length
        ∧ targets.take (countReps prec pattern acc targets * pattern.length)
            = (accPts acc (repeatN pattern (countReps prec pattern acc targets))).tail := by
  intro N
  induction N with
  | zero =>
    intro targets hlen acc hg ht
    have hT : targets = [] := List.length_eq_zero.mp (Nat.le_zero.mp hlen)
    subst hT
    rcases pattern with _ | ⟨p, ps⟩
    · rw [countReps]
      simp [repeatN_zero, accPts]
    · rw [countReps]
      rw [dif_pos (by simp)]
      simp [repeatN_zero, accPts]
  | succ N ihN =>
    intro targets hlen acc hg ht
    rw [countReps]
    by_cases hguard : targets.length < pattern.length ∨ pattern.isEmpty
    · rw [dif_pos hguard]
      simp [repeatN_zero, accPts]
    · rw [dif_neg hguard]
      push_neg at hguard
      obtain ⟨hkle, hpne⟩ := hguard
      have hk1 : 0 < pattern.length :=
        List.length_pos.mpr (by simpa [List.isEmpty_iff] using hpne)
      rcases hrc : replayChk prec pattern acc targets with ⟨ok, acc'⟩
      cases ok with
      | false =>
        refine ⟨by simp, ?_⟩
        show targets.take (0 * pattern.length) = (accPts acc (repeatN pattern 0)).tail
        simp [repeatN_zero, accPts]
      | true =>
        show (1 + countReps prec pattern acc' (targets.drop pattern.length))
              * pattern.length ≤ targets.length
          ∧ targets.take ((1 + countReps prec pattern acc' (targets.drop pattern.length))
              * pattern.length)
            = (accPts acc (repeatN pattern
                (1 + countReps prec pattern acc' (targets.drop pattern.length)))).tail
        obtain ⟨htake, hacc'⟩ := replayChk_ok hrc hg hp ht hkle
        have hg' : OnGrid3 prec acc' := hacc' ▸ accLast_onGrid hg hp
        have hdl : (targets.drop pattern.length).length ≤ N := by
          simp only [List.length_drop]
          omega
        obtain ⟨hm1, hm2⟩ := ihN (targets.drop pattern.length) hdl acc' hg'
          (fun t htm => ht t (List.mem_of_mem_drop htm))
        set m := countReps prec pattern acc' (targets.drop pattern.length) with hmdef
        have h1m : (1 + m) * pattern.length = pattern.length + m * pattern.length := by
          ring
        constructor
        · rw [h1m]
          simp only [List.length_drop] at hm1
          omega
        · rw [h1m, List.take_add, htake, hm2, show 1 + m = m + 1 from by omega,
            repeatN_succ, accPts_append, ← hacc']
          conv_rhs => rw [accPts_head_tail acc pattern]
          simp


/-- What a positive outcome of the best-`(k, n)` search means: `k` was one of
the tried block lengths and `n` is its simulated replay count. -/
theorem bestRun_spec (prec : ℕ) (ds : List P3) (acc : P3)
    (h : 0 < (bestRun prec ds acc).2) :
    1 ≤ (bestRun prec ds acc).1 ∧ (bestRun prec ds acc).1 ≤ min (ds.length / 2) 8 ∧
      (bestRun prec ds acc).2 = countReps prec (ds.take (bestRun prec ds acc).1)
        ((accPts acc ds).getD (bestRun prec ds acc).1 acc)
        ((accPts acc ds).drop ((bestRun prec ds acc).1 + 1)) := by
  revert h
  unfold bestRun
  refine foldl_inv (fun best => 0 < best.2 → 1 ≤ best.1 ∧ best.1 ≤ min (ds.length / 2) 8 ∧
    best.2 = countReps prec (ds.take best.1) ((accPts acc ds).getD best.1 acc)
      ((accPts acc ds).drop (best.1 + 1))) _ _ (0, 0) (by simp) ?_
  intro b k hk hb
  simp only []
  split
  · intro _
    obtain ⟨h1, h2⟩ := List.mem_range'_1.mp hk
    exact ⟨h1, by omega, rfl⟩
  · exact hb

/-- Decoding the run-length encoding of one elision segment appends exactly
the segment's accumulated points. -/
theorem encSeg_decode (prec : ℕ) (dr : Option ℕ) :
    ∀ (N : ℕ) (ds : List P3), ds.length ≤ N → ∀ (acc : P3) (pts recent : List P3)
      (dropd : Option ℕ) (rest : List SLine),
      OnGrid3 prec acc → (∀ d ∈ ds, OnGrid3 prec d) →
      (∀ a, dr = some a → a < 3 ∧ ∀ d ∈ ds, axisVal d a = 0) →
      dropCompat dr dropd → pts ≠ [] → lastP pts = acc →
      ∃ recent', decodePtsLoop (encSeg prec dr ds acc ++ rest) pts recent dropd
          = decodePtsLoop rest (pts ++ (accPts acc ds).tail) recent' dropd := by
  intro N
  induction N with
  | zero =>
    intro ds hlen acc pts recent dropd rest _ _ _ _ _ _
    have hds : ds = [] := List.length_eq_zero.mp (Nat.le_zero.mp hlen)
    subst hds
    exact ⟨recent, by simp [encSeg, accPts]⟩
  | succ N ihN =>
    intro ds hlen acc pts recent dropd rest hga hgds hdr hc hpts hlast
    match ds with
    | [] => exact ⟨recent, by simp [encSeg, accPts]⟩
    | d :: ds' =>
      rw [encSeg]
      by_cases hbr : 0 < (bestRun prec (d :: ds') acc).2
      · rw [dif_pos hbr]
        obtain ⟨hk1, hkle, hn⟩ := bestRun_spec prec (d :: ds') acc hbr
        have hkds : (bestRun prec (d :: ds') acc).1 ≤ (d :: ds').length := by
          have := Nat.div_le_self (d :: ds').length 2
          omega
        set k := (bestRun prec (d :: ds') acc).1 with hkdef
        set n := (bestRun prec (d :: ds') acc).2 with hndef
        clear_value k n
        set pattern := (d :: ds').take k with hpat
        have hpatlen : pattern.length = k := by
          rw [hpat, List.length_take]
          simp only [List.length_cons] at hkds
          omega
        set T := (accPts acc (d :: ds')).tail with hT
        clear_value pattern T
        have hdropT : (accPts acc (d :: ds')).drop (k + 1) = T.drop k := by
          rw [accPts_head_tail acc (d :: ds'), hT]
          simp
        have haccK : (accPts acc (d :: ds')).getD k acc = accLast acc pattern := by
          rw [hpat]
          exact accPts_getD acc (d :: ds') acc k hkds
        -- grid facts
        have hgpat : ∀ e ∈ pattern, OnGrid3 prec e :=
          fun e he => hgds e (List.mem_of_mem_take (hpat ▸ he))
        have hgK : OnGrid3 prec (accLast acc pattern) :=
          accLast_onGrid hga hgpat
        have hgT : ∀ t ∈ T, OnGrid3 prec t := by
          intro t htm
          refine accPts_onGrid hga hgds t ?_
          rw [accPts_head_tail acc (d :: ds')]
          exact List.mem_cons_of_mem _ (hT ▸ htm)
        -- the replay count pins the covered targets
        have hcount := @countReps_take prec pattern hgpat
          (T.drop k).length (T.drop k) le_rfl (accLast acc pattern) hgK
          (fun t htm => hgT t (List.mem_of_mem_drop htm))
        rw [haccK, hdropT] at hn
        rw [hpatlen, ← hn] at hcount
        obtain ⟨hcov, hrep⟩ := hcount
        -- decode the emitted pattern lines
        have hblock := decodePtsLoop_deltaBlock hc pattern
          (fun a ha => ⟨(hdr a ha).1,
            fun e he => (hdr a ha).2 e (List.mem_of_mem_take (hpat ▸ he))⟩)
          (SLine.run k n :: encSeg prec dr ((d :: ds').drop (k + n * k))
            ((accPts acc (d :: ds')).getD (k + n * k) acc) ++ rest)
          pts recent hpts
        rw [List.append_assoc, hblock, hlast]
        -- decode the run marker
        rw [show decodePtsLoop ((SLine.run k n :: encSeg prec dr ((d :: ds').drop (k + n * k))
              ((accPts acc (d :: ds')).getD (k + n * k) acc)) ++ rest)
              (pts ++ (accPts acc pattern).tail) (recent ++ pattern) dropd
            = decodePtsLoop (encSeg prec dr ((d :: ds').drop (k + n * k))
                ((accPts acc (d :: ds')).getD (k + n * k) acc) ++ rest)
              (appendReps (pts ++ (accPts acc pattern).tail)
                (if k = 0 then recent ++ pattern
                 else (recent ++ pattern).drop ((recent ++ pattern).length - k)) n)
              (recent ++ pattern) dropd
          from by rw [List.cons_append]; rfl]
        have hpat' : (if k = 0 then recent ++ pattern
            else (recent ++ pattern).drop ((recent ++ pattern).length - k)) = pattern := by
          rw [if_neg (by omega)]
          have hlen2 : (recent ++ pattern).length - k = recent.length := by
            simp [hpatlen]
          rw [hlen2, List.drop_left]
        rw [hpat']
        have hplast : lastP (pts ++ (accPts acc pattern).tail) = accLast acc pattern :=
          lastP_append_tail hlast pattern
        rw [appendReps_eq pattern n _ (pts_ne_nil_append _ _ hpts), hplast, ← hrep]
        -- assembled points: pts ++ T.take k ++ (T.drop k).take (n*k) = pts ++ T.take (k+n*k)
        have htk : (accPts acc pattern).tail = T.take k := by
          rw [hpat, hT, accPts_tail_take]
        have hjoin : (pts ++ (accPts acc pattern).tail) ++ (T.drop k).take (n * k)
            = pts ++ T.take (k + n * k) := by
          rw [htk, List.append_assoc, ← List.take_add]
        rw [hjoin]
        -- recurse on the remaining deltas
        have hTlen : T.length = (d :: ds').length := by
          have h5 := accPts_length acc (d :: ds')
          rw [accPts_head_tail acc (d :: ds')] at h5
          rw [hT]
          simp only [List.length_cons] at h5 ⊢
          omega
        have hcov2 : k + n * k ≤ (d :: ds').length := by
          rw [List.length_drop] at hcov
          omega
        have hacc2 : (accPts acc (d :: ds')).getD (k + n * k) acc
            = accLast acc ((d :: ds').take (k + n * k)) :=
          accPts_getD acc (d :: ds') acc _ hcov2
        have hrec := ihN ((d :: ds').drop (k + n * k))
          (by
            simp only [List.length_drop, List.length_cons] at hlen ⊢
            omega)
          (accLast acc ((d :: ds').take (k + n * k)))
          (pts ++ T.take (k + n * k)) (recent ++ pattern) dropd rest
          (accLast_onGrid hga (fun e he => hgds e (List.mem_of_mem_take he)))
          (fun e he => hgds e (List.mem_of_mem_drop he))
          (fun a ha => ⟨(hdr a ha).1, fun e he => (hdr a ha).2 e (List.mem_of_mem_drop he)⟩)
          hc (pts_ne_nil_append _ _ hpts)
          (by
            rw [show T.take (k + n * k)
                = (accPts acc ((d :: ds').take (k + n * k))).tail from by
                rw [hT, accPts_tail_take]]
            exact lastP_append_tail hlast _)
        obtain ⟨recent', hrec⟩ := hrec
        rw [hacc2, hrec]
        refine ⟨recent', ?_⟩
        rw [← show T.drop (k + n * k)
            = (accPts (accLast acc ((d :: ds').take (k + n * k)))
                ((d :: ds').drop (k + n * k))).tail from by rw [hT, accPts_tail_drop],
          List.append_assoc, List.take_append_drop]
      · rw [dif_neg hbr]
        rw [List.cons_append]
        rw [decodePtsLoop_delta hc (fun a ha => ⟨(hdr a ha).1, (hdr a ha).2 d (by simp)⟩)]
        rw [hlast]
        have hrec := ihN ds' (by simpa using hlen) (p3add acc d)
          (pts ++ [p3add acc d]) (recent ++ [d]) dropd rest
          (hga.add (hgds d (by simp)))
          (fun e he => hgds e (by simp [he]))
          (fun a ha => ⟨(hdr a ha).1, fun e he => (hdr a ha).2 e (by simp [he])⟩)
          hc (pts_ne_nil_append _ _ hpts) (lastP_concat _ _)
        obtain ⟨recent', hrec⟩ := hrec
        refine ⟨recent', ?_⟩
        rw [hrec]
        simp only [accPts, List.tail_cons, List.append_assoc, List.cons_append,
          List.nil_append]
        rw [← accPts_head_tail]

theorem mem_takeWhile_and {α : Type} {p : α → Bool} :
    ∀ {l : List α} {x : α}, x ∈ l.takeWhile p → x ∈ l ∧ p x := by
  intro l
  induction l with
  | nil => intro x hx; simp [List.takeWhile] at hx
  | cons y ys ih =>
    intro x hx
    rw [List.takeWhile_cons] at hx
    by_cases hy : p y
    · rw [if_pos hy] at hx
      rcases List.mem_cons.mp hx with rfl | hx
      · exact ⟨by simp, hy⟩
      · obtain ⟨h1, h2⟩ := ih hx
        exact ⟨by simp [h1], h2⟩
    · rw [if_neg hy] at hx
      simp at hx

theorem mem_dropWhile_mem {α : Type} {p : α → Bool} :
    ∀ {l : List α} {x : α}, x ∈ l.dropWhile p → x ∈ l := by
  intro l
  induction l with
  | nil => intro x hx; simp [List.dropWhile] at hx
  | cons y ys ih =>
    intro x hx
    rw [List.dropWhile_cons] at hx
    by_cases hy : p y
    · rw [if_pos hy] at hx
      exact by simp [ih hx]
    · rw [if_neg hy] at hx
      exact hx

/-- Decoding the full encoder body appends the accumulation of all deltas:
per segment, the optional directive line updates the decoder's elision state
to match the encoder's, and the segment decodes to its accumulated points. -/
theorem encBody_decode (prec : ℕ) :
    ∀ (N : ℕ) (zds : List (P3 × Option ℕ)), zds.length ≤ N →
      ∀ (cur : Option ℕ) (acc : P3) (pts recent : List P3) (dropd : Option ℕ)
        (rest : List SLine),
      OnGrid3 prec acc → (∀ p ∈ zds, OnGrid3 prec p.1) →
      (∀ p ∈ zds, ∀ a, p.2 = some a → a < 3 ∧ axisVal p.1 a = 0) →
      dropCompat cur dropd → pts ≠ [] → lastP pts = acc →
      ∃ recent' dropd',
        decodePtsLoop (encBody prec zds cur acc ++ rest) pts recent dropd
          = decodePtsLoop rest (pts ++ (accPts acc (zds.map Prod.fst)).tail) recent' dropd' := by
  intro N
  induction N with
  | zero =>
    intro zds hlen cur acc pts recent dropd rest _ _ _ _ _ _
    have hz : zds = [] := List.length_eq_zero.mp (Nat.le_zero.mp hlen)
    subst hz
    exact ⟨recent, dropd, by simp [encBody, accPts]⟩
  | succ N ihN =>
    intro zds hlen cur acc pts recent dropd rest hga hgz hz hc hpts hlast
    match zds with
    | [] => exact ⟨recent, dropd, by simp [encBody, accPts]⟩
    | (d, dr) :: rest' =>
      rw [encBody.eq_def]
      simp only []
      set S := ((d, dr) :: rest').takeWhile (fun x => decide (x.2 = dr)) with hS
      set seg := S.map Prod.fst with hseg
      set after := ((d, dr) :: rest').dropWhile (fun x => decide (x.2 = dr)) with hafter
      -- break the input into the head segment and the remainder
      have hsplit : ((d, dr) :: rest').map Prod.fst = seg ++ after.map Prod.fst := by
        rw [hseg, hafter, hS, ← List.map_append, List.takeWhile_append_dropWhile]
      -- every member of the head segment has elision state dr and sits in zds
      have hSmem : ∀ x ∈ S, x ∈ (d, dr) :: rest' ∧ x.2 = dr := by
        intro x hx
        obtain ⟨h1, h2⟩ := mem_takeWhile_and (hS ▸ hx)
        exact ⟨h1, by simpa using h2⟩
      have hsegGrid : ∀ e ∈ seg, OnGrid3 prec e := by
        intro e he
        obtain ⟨x, hx, rfl⟩ := List.mem_map.mp (hseg ▸ he)
        exact hgz x (hSmem x hx).1
      have hsegZero : ∀ a, dr = some a → a < 3 ∧ ∀ e ∈ seg, axisVal e a = 0 := by
        intro a ha
        subst ha
        constructor
        · exact (hz (d, some a) (by simp) a rfl).1
        · intro e he
          obtain ⟨x, hx, rfl⟩ := List.mem_map.mp (hseg ▸ he)
          exact (hz x (hSmem x hx).1 a ((hSmem x hx).2)).2
      have hafterLt : after.length < ((d, dr) :: rest').length := by
        rw [hafter, List.dropWhile_cons, if_pos (by simp)]
        have := lengthDropWhileLe (fun x => decide (x.2 = dr)) rest'
        simp only [List.length_cons]
        omega
      -- the continuation after the optional directive line
      have hcont : ∀ (dropd₁ : Option ℕ), dropCompat dr dropd₁ →
          ∃ recent' dropd',
            decodePtsLoop ((encSeg prec dr seg acc
                ++ encBody prec after dr ((accPts acc seg).getLastD acc)) ++ rest)
              pts recent dropd₁
              = decodePtsLoop rest
                  (pts ++ (accPts acc (((d, dr) :: rest').map Prod.fst)).tail)
                  recent' dropd' := by
        intro dropd₁ hc₁
        obtain ⟨recent₂, hsegEq⟩ := encSeg_decode prec dr seg.length seg le_rfl acc
          pts recent dropd₁
          (encBody prec after dr ((accPts acc seg).getLastD acc) ++ rest)
          hga hsegGrid hsegZero hc₁ hpts hlast
        rw [List.append_assoc, hsegEq]
        have hlen2 : after.length ≤ N := by
          simp only [List.length_cons] at hlen hafterLt
          omega
        obtain ⟨recent₃, dropd₃, hbodyEq⟩ := ihN after hlen2 dr
          (accLast acc seg) (pts ++ (accPts acc seg).tail) recent₂ dropd₁ rest
          (accLast_onGrid hga hsegGrid)
          (fun p hp => hgz p (mem_dropWhile_mem (hafter ▸ hp)))
          (fun p hp a ha => hz p (mem_dropWhile_mem (hafter ▸ hp)) a ha)
          hc₁ (pts_ne_nil_append _ _ hpts)
          (lastP_append_tail hlast seg)
        rw [show (accPts acc seg).getLastD acc = accLast acc seg from rfl, hbodyEq]
        refine ⟨recent₃, dropd₃, ?_⟩
        rw [hsplit, accPts_tail_append, ← List.append_assoc]
      by_cases hdc : dr = cur
      · rw [if_pos hdc]
        rw [List.nil_append]
        exact hcont dropd (by rw [hdc]; exact hc)
      · rw [if_neg hdc]
        cases dr with
        | none => rw [List.nil_append]; exact hcont dropd trivial
        | some a =>
          rw [show (([SLine.dropDir a] ++ encSeg prec (some a) seg acc)
                ++ encBody prec after (some a) ((accPts acc seg).getLastD acc)) ++ rest
              = SLine.dropDir a :: ((encSeg prec (some a) seg acc
                ++ encBody prec after (some a) ((accPts acc seg).getLastD acc)) ++ rest)
            from by simp]
          rw [show decodePtsLoop (SLine.dropDir a :: ((encSeg prec (some a) seg acc
                ++ encBody prec after (some a) ((accPts acc seg).getLastD acc)) ++ rest))
                pts recent dropd
              = decodePtsLoop ((encSeg prec (some a) seg acc
                ++ encBody prec after (some a) ((accPts acc seg).getLastD acc)) ++ rest)
                pts recent (some a) from rfl]
          exact hcont (some a) rfl

/- ============================================================
   Soundness of the elision plan
   ============================================================ -/

theorem takeWhile_getD {α : Type} (p : α → Bool) (dflt : α) :
    ∀ (l : List α) (m : ℕ), m < (l.takeWhile p).length →
      l.getD m dflt = (l.takeWhile p).getD m dflt := by
  intro l
  induction l with
  | nil => intro m hm; simp [List.takeWhile] at hm
  | cons x xs ih =>
    intro m hm
    rw [List.takeWhile_cons] at hm ⊢
    by_cases hx : p x
    · rw [if_pos hx] at hm ⊢
      cases m with
      | zero => simp
      | succ m =>
        simp only [List.getD_cons_succ]
        exact ih m (by simpa using hm)
    · rw [if_neg hx] at hm
      simp at hm

theorem mem_getD {α : Type} (l : List α) (m : ℕ) (dflt : α) (h : m < l.length) :
    l.getD m dflt ∈ l := by
  rw [List.getD_eq_getElem?_getD, List.getElem?_eq_getElem h]
  exact List.getElem_mem h

theorem getD_drop {α : Type} (l : List α) (m n : ℕ) (dflt : α) :
    (l.drop m).getD n dflt = l.getD (m + n) dflt := by
  rw [List.getD_eq_getElem?_getD, List.getD_eq_getElem?_getD, List.getElem?_drop]

theorem lengthTakeWhileLe {α : Type} (p : α → Bool) (l : List α) :
    (l.takeWhile p).length ≤ l.length := by
  induction l with
  | nil => simp [List.takeWhile]
  | cons x xs ih =>
    rw [List.takeWhile_cons]
    split
    · simpa using ih
    · simp

/-- Every run the per-axis scanner reports is a genuine zero run: it carries
the scanned axis, starts at or after the scan offset, stays in bounds, has
length at least 3, and all of its delta components on that axis vanish. -/
theorem zeroRuns_spec (axis : ℕ) :
    ∀ (N : ℕ) (ds : List P3), ds.length ≤ N → ∀ (off : ℕ) (r : ℕ × ℕ × ℕ × ℕ),
      r ∈ zeroRuns axis ds off →
      r.2.2.1 = axis ∧ off ≤ r.1 ∧ r.1 < r.2.1 ∧ r.2.1 ≤ off + ds.length
        ∧ 3 ≤ r.2.1 - r.1
        ∧ ∀ j, r.1 ≤ j → j < r.2.1 → axisVal (ds.getD (j - off) (0, 0, 0)) axis = 0 := by
  intro N
  induction N with
  | zero =>
    intro ds hlen off r hr
    have hds : ds = [] := List.length_eq_zero.mp (Nat.le_zero.mp hlen)
    subst hds
    rw [zeroRuns] at hr
    simp at hr
  | succ N ihN =>
    intro ds hlen off r hr
    match ds with
    | [] =>
      rw [zeroRuns] at hr
      simp at hr
    | d :: rest =>
      rw [zeroRuns] at hr
      by_cases h0 : axisVal d axis = 0
      · rw [if_pos h0] at hr
        set tw := rest.takeWhile (fun e => decide (axisVal e axis = 0)) with htw
        have htwle : tw.length ≤ rest.length := by
          rw [htw]
          exact lengthTakeWhileLe _ _
        rcases List.mem_append.mp hr with hrun | hrec
        · have hr3 : 3 ≤ 1 + tw.length := by
            by_contra hlt
            rw [if_neg hlt] at hrun
            simp at hrun
          rw [if_pos hr3] at hrun
          have hreq : r = (off, off + (1 + tw.length), axis, 1 + tw.length) := by
            simpa using hrun
          subst hreq
          refine ⟨rfl, le_rfl, show off < off + (1 + tw.length) from by omega,
            show off + (1 + tw.length) ≤ off + (d :: rest).length from by
              simp only [List.length_cons]; omega,
            show 3 ≤ off + (1 + tw.length) - off from by omega, ?_⟩
          intro j hj1 hj2
          replace hj1 : off ≤ j := hj1
          replace hj2 : j < off + (1 + tw.length) := hj2
          by_cases hj0 : j = off
          · subst hj0
            simpa using h0
          · have hm : 1 ≤ j - off := by omega
            have hmd : j - off = (j - off - 1) + 1 := by omega
            rw [hmd, List.getD_cons_succ]
            have hmtw : j - off - 1 < tw.length := by omega
            rw [takeWhile_getD _ _ rest (j - off - 1) (htw ▸ hmtw), ← htw]
            have hmem := mem_getD tw (j - off - 1) (0, 0, 0) hmtw
            have := (mem_takeWhile_and (htw ▸ hmem)).2
            simpa using this
        · have hdl : (rest.drop (1 + tw.length - 1)).length ≤ N := by
            simp only [List.length_drop]
            simp only [List.length_cons] at hlen
            omega
          obtain ⟨ha1, ha2, ha3, ha4, ha5, ha6⟩ := ihN _ hdl _ r hrec
          refine ⟨ha1, by omega, ha3, ?_, ha5, ?_⟩
          · simp only [List.length_drop] at ha4
            simp only [List.length_cons]
            omega
          · intro j hj1 hj2
            have hjo : off + (1 + tw.length) ≤ j := le_trans ha2 hj1
            have h6 := ha6 j hj1 hj2
            rw [getD_drop] at h6
            have harith : 1 + tw.length - 1 + (j - (off + (1 + tw.length)))
                = (j - off) - 1 := by omega
            rw [harith] at h6
            have hmd : j - off = ((j - off) - 1) + 1 := by omega
            rw [hmd, List.getD_cons_succ]
            exact h6
      · rw [if_neg h0] at hr
        have hdl : rest.length ≤ N := by
          simp only [List.length_cons] at hlen
          omega
        obtain ⟨ha1, ha2, ha3, ha4, ha5, ha6⟩ := ihN _ hdl _ r hr
        refine ⟨ha1, by omega, ha3, by simp only [List.length_cons]; omega, ha5, ?_⟩
        intro j hj1 hj2
        have hjo : off + 1 ≤ j := le_trans ha2 hj1
        have h6 := ha6 j hj1 hj2
        have hmd : j - off = (j - (off + 1)) + 1 := by omega
        rw [hmd, List.getD_cons_succ]
        exact h6

theorem mem_insertRunDesc {r x : ℕ × ℕ × ℕ × ℕ} :
    ∀ {l : List (ℕ × ℕ × ℕ × ℕ)}, x ∈ insertRunDesc r l → x = r ∨ x ∈ l := by
  intro l
  induction l with
  | nil => intro h; simpa [insertRunDesc] using h
  | cons y ys ih =>
    intro h
    rw [insertRunDesc] at h
    split at h
    · rcases List.mem_cons.mp h with rfl | h2
      · exact Or.inl rfl
      · exact Or.inr h2
    · rcases List.mem_cons.mp h with rfl | h2
      · exact Or.inr (by simp)
      · rcases ih h2 with rfl | h3
        · exact Or.inl rfl
        · exact Or.inr (by simp [h3])

theorem mem_sortRunsDesc {l : List (ℕ × ℕ × ℕ × ℕ)} {x : ℕ × ℕ × ℕ × ℕ}
    (h : x ∈ sortRunsDesc l) : x ∈ l := by
  have hinv := foldl_inv (fun acc => ∀ y ∈ acc, y ∈ l)
    (fun acc r => insertRunDesc r acc) l [] (by simp)
    (fun b r hr hb => by
      intro y hy
      rcases mem_insertRunDesc hy with rfl | h2
      · exact hr
      · exact hb y h2)
  exact hinv x h

theorem fillRange_length : ∀ (dm : List (Option ℕ)) (s e ax : ℕ),
    (fillRange dm s e ax).length = dm.length := by
  intro dm
  induction dm with
  | nil => intro s e ax; rfl
  | cons v rest ih =>
    intro s e ax
    simp [fillRange, ih]

theorem fillRange_getD : ∀ (dm : List (Option ℕ)) (s e ax i : ℕ),
    (fillRange dm s e ax).getD i none
      = if s ≤ i ∧ i < e ∧ i < dm.length then some ax else dm.getD i none := by
  intro dm
  induction dm with
  | nil =>
    intro s e ax i
    simp [fillRange]
  | cons v rest ih =>
    intro s e ax i
    cases i with
    | zero =>
      simp only [fillRange, List.getD_cons_zero]
      by_cases h : s = 0 ∧ 0 < e
      · rw [if_pos h, if_pos (by simp only [List.length_cons]; omega)]
      · rw [if_neg h, if_neg (by simp only [List.length_cons]; omega)]
    | succ i =>
      simp only [fillRange, List.getD_cons_succ, ih]
      have hiff : (s - 1 ≤ i ∧ i < e - 1 ∧ i < rest.length)
          ↔ (s ≤ i + 1 ∧ i + 1 < e ∧ i + 1 < (v :: rest).length) := by
        simp only [List.length_cons]
        omega
      rw [if_congr hiff rfl rfl]

theorem rangeFree_getD : ∀ (dm : List (Option ℕ)) (s e : ℕ),
    rangeFree dm s e = true → ∀ j, s ≤ j → j < e → dm.getD j none = none := by
  intro dm
  induction dm with
  | nil => intro s e _ j _ _; simp
  | cons v rest ih =>
    intro s e h j hj1 hj2
    rw [rangeFree, Bool.and_eq_true] at h
    cases j with
    | zero =>
      have hs : s = 0 := Nat.le_zero.mp hj1
      have h1 := h.1
      rw [if_pos ⟨hs, hj2⟩] at h1
      simpa [Option.isNone_iff_eq_none] using h1
    | succ j =>
      rw [List.getD_cons_succ]
      exact ih (s - 1) (e - 1) h.2 j (by omega) (by omega)

/-- A well-formed candidate run over the deltas: in-bounds, length at least 3,
all components on its axis zero. -/
def RunOK (ds : List P3) (r : ℕ × ℕ × ℕ × ℕ) : Prop :=
  r.2.2.1 < 3 ∧ r.1 < r.2.1 ∧ r.2.1 ≤ ds.length ∧ 3 ≤ r.2.1 - r.1 ∧
    ∀ j, r.1 ≤ j → j < r.2.1 → axisVal (ds.getD j (0, 0, 0)) r.2.2.1 = 0

/-- Soundness of a drop map: parallel to the deltas, and every marked index
carries a valid axis, a zero component there, and sits inside a fully marked
run of length at least 3. -/
def DmOK (ds : List P3) (dm : List (Option ℕ)) : Prop :=
  dm.length = ds.length ∧ ∀ i a, dm.getD i none = some a →
    a < 3 ∧ i < ds.length ∧ axisVal (ds.getD i (0, 0, 0)) a = 0 ∧
      ∃ s e, s ≤ i ∧ i < e ∧ 3 ≤ e - s ∧ ∀ j, s ≤ j → j < e → dm.getD j none = some a

theorem assignRuns_ok {ds : List P3} {runs : List (ℕ × ℕ × ℕ × ℕ)}
    {dm : List (Option ℕ)} (hr : ∀ r ∈ runs, RunOK ds r) (hdm : DmOK ds dm) :
    DmOK ds (assignRuns runs dm) := by
  unfold assignRuns
  refine foldl_inv (DmOK ds) _ runs dm hdm ?_
  intro b r hrm hb
  split
  case isFalse => exact hb
  case isTrue hfree =>
    obtain ⟨hax, hse, heb, hlen3, hzero⟩ := hr r hrm
    obtain ⟨hblen, hbok⟩ := hb
    constructor
    · rw [fillRange_length, hblen]
    · intro i a h
      rw [fillRange_getD] at h
      by_cases hw : r.1 ≤ i ∧ i < r.2.1 ∧ i < b.length
      · rw [if_pos hw] at h
        have ha : a = r.2.2.1 := by
          injection h.symm
        subst ha
        refine ⟨hax, by omega, hzero i hw.1 hw.2.1, r.1, r.2.1, hw.1, hw.2.1, hlen3, ?_⟩
        intro j hj1 hj2
        rw [fillRange_getD, if_pos ⟨hj1, hj2, by omega⟩]
      · rw [if_neg hw] at h
        obtain ⟨h1, h2, h3, s0, e0, hs0, he0, hl0, hrun0⟩ := hbok i a h
        refine ⟨h1, h2, h3, s0, e0, hs0, he0, hl0, ?_⟩
        intro j hj1 hj2
        have hold := hrun0 j hj1 hj2
        rw [fillRange_getD]
        by_cases hw2 : r.1 ≤ j ∧ j < r.2.1 ∧ j < b.length
        · have := rangeFree_getD b r.1 r.2.1 hfree j hw2.1 hw2.2.1
          rw [this] at hold
          exact absurd hold (by simp)
        · rw [if_neg hw2]
          exact hold

/-- `_plan_drops` is sound: the drop map is parallel to the deltas, and every
elided index has a valid axis with a zero delta component there and belongs to
a fully elided run of length at least 3. -/
theorem planDrops_ok (ds : List P3) : DmOK ds (planDrops ds) := by
  rw [planDrops]
  by_cases hds : ds.isEmpty
  · rw [if_pos hds]
    have : ds = [] := by simpa [List.isEmpty_iff] using hds
    subst this
    exact ⟨rfl, fun i a h => by simp at h⟩
  · rw [if_neg hds]
    apply assignRuns_ok
    · intro r hrm
      have hr' := mem_sortRunsDesc hrm
      have hspec : ∀ axis : ℕ, axis < 3 → r ∈ zeroRuns axis ds 0 → RunOK ds r := by
        intro axis h3 hmem
        obtain ⟨ha1, _, ha3, ha4, ha5, ha6⟩ := zeroRuns_spec axis ds.length ds le_rfl 0 r hmem
        refine ⟨by omega, ha3, by simpa using ha4, ha5, ?_⟩
        intro j hj1 hj2
        have := ha6 j hj1 hj2
        simpa [ha1] using this
      rcases List.mem_append.mp hr' with h01 | h2
      · rcases List.mem_append.mp h01 with h0 | h1
        · exact hspec 0 (by omega) h0
        · exact hspec 1 (by omega) h1
      · exact hspec 2 (by omega) h2
    · refine ⟨by simp, ?_⟩
      intro i a h
      rw [List.getD_eq_getElem?_getD, List.getElem?_replicate] at h
      by_cases hi : i < ds.length
      · rw [if_pos hi] at h
        simp at h
      · rw [if_neg hi] at h
        simp at h

/- ============================================================
   The point codec round trip
   ============================================================ -/

/-- The line forms `_decode_pts` consumes after the header; any other line
ends the point block. -/
def isPtBodyLine : SLine → Bool
  | .delta _ => true
  | .dropDir _ => true
  | .run _ _ => true
  | _ => false

theorem decodePtsLoop_stop (rest : List SLine) (pts recent : List P3)
    (dropd : Option ℕ)
    (h : rest = [] ∨ ∃ l r', rest = l :: r' ∧ isPtBodyLine l = false) :
    decodePtsLoop rest pts recent dropd = (pts, rest) := by
  rcases h with rfl | ⟨l, r', rfl, hl⟩
  · rfl
  · cases l with
    | delta v => simp [isPtBodyLine] at hl
    | dropDir a => simp [isPtBodyLine] at hl
    | run k n => simp [isPtBodyLine] at hl
    | header t p => rfl
    | tline s => rfl
    | dline d => rfl
    | vline v => rfl
    | cline c => rfl
    | tick t => rfl

theorem deltasOf_onGrid {prec : ℕ} :
    ∀ {l : List P3}, (∀ x ∈ l, OnGrid3 prec x) → ∀ d ∈ deltasOf l, OnGrid3 prec d := by
  intro l
  induction l with
  | nil => intro _ d hd; simp [deltasOf] at hd
  | cons a l ih =>
    intro hl d hd
    cases l with
    | nil => simp [deltasOf] at hd
    | cons b r =>
      rw [deltasOf] at hd
      rcases List.mem_cons.mp hd with rfl | hd2
      · exact (hl b (by simp)).sub (hl a (by simp))
      · exact ih (fun x hx => hl x (by simp [List.mem_cons.mp hx])) d hd2

/-- Decoding an encoded point block reproduces exactly the rounded points and
hands back the remaining lines (which must start outside the block). -/
theorem decodePts_encodePts (prec : ℕ) (tag : PtsTag) (p0 : P3) (rest0 : List P3)
    (rest : List SLine)
    (hstop : rest = [] ∨ ∃ l r', rest = l :: r' ∧ isPtBodyLine l = false) :
    decodePts (encodePts (p0 :: rest0) tag prec ++ rest)
      = ((p0 :: rest0).map (round3 prec), rest) := by
  have hgrpts : ∀ x ∈ (p0 :: rest0).map (round3 prec), OnGrid3 prec x := by
    intro x hx
    obtain ⟨y, _, rfl⟩ := List.mem_map.mp hx
    exact round3_onGrid prec y
  cases rest0 with
  | nil =>
    rw [show encodePts [p0] tag prec = [SLine.header tag (round3 prec p0)] from rfl]
    rw [show ([SLine.header tag (round3 prec p0)] ++ rest : List SLine)
        = SLine.header tag (round3 prec p0) :: rest from rfl]
    rw [decodePts, decodePtsLoop_stop rest _ _ _ hstop]
    rfl
  | cons p1 rest1 =>
    set rpts := (p0 :: p1 :: rest1).map (round3 prec) with hrpts
    have hrlen : rpts.length = rest1.length + 2 := by simp [hrpts]
    have henc : encodePts (p0 :: p1 :: rest1) tag prec
        = SLine.header tag (round3 prec p0)
          :: encBody prec ((deltasOf rpts).zip (planDrops (deltasOf rpts))) none
              (round3 prec p0) := by
      rw [encodePts]
      rw [if_neg (by rw [← hrpts, hrlen]; omega)]
      rfl
    rw [henc]
    rw [show (SLine.header tag (round3 prec p0)
          :: encBody prec ((deltasOf rpts).zip (planDrops (deltasOf rpts))) none
              (round3 prec p0)) ++ rest
        = SLine.header tag (round3 prec p0)
          :: (encBody prec ((deltasOf rpts).zip (planDrops (deltasOf rpts))) none
              (round3 prec p0) ++ rest) from rfl]
    rw [decodePts]
    obtain ⟨hdmlen, hdmok⟩ := planDrops_ok (deltasOf rpts)
    have hzfst : ((deltasOf rpts).zip (planDrops (deltasOf rpts))).map Prod.fst
        = deltasOf rpts := List.map_fst_zip _ _ (by omega)
    have hgd : ∀ d ∈ deltasOf rpts, OnGrid3 prec d := deltasOf_onGrid hgrpts
    obtain ⟨recent', dropd', hbody⟩ := encBody_decode prec
      ((deltasOf rpts).zip (planDrops (deltasOf rpts))).length
      ((deltasOf rpts).zip (planDrops (deltasOf rpts))) le_rfl none
      (round3 prec p0) [round3 prec p0] [] none rest
      (round3_onGrid prec p0)
      (by
        intro q hq
        exact hgd q.1 (List.of_mem_zip hq).1)
      (by
        intro q hq a ha
        obtain ⟨i, hi, hqi⟩ := List.mem_iff_getElem.mp hq
        have hi1 : i < (deltasOf rpts).length := by
          rw [List.length_zip] at hi
          omega
        have hi2 : i < (planDrops (deltasOf rpts)).length := by
          rw [List.length_zip] at hi
          omega
        have hq1 : q.1 = (deltasOf rpts)[i] := by
          rw [← hqi]
          simp [List.getElem_zip]
        have hq2 : q.2 = (planDrops (deltasOf rpts))[i] := by
          rw [← hqi]
          simp [List.getElem_zip]
        have hgetd : (planDrops (deltasOf rpts)).getD i none = some a := by
          rw [List.getD_eq_getElem?_getD, List.getElem?_eq_getElem hi2, ← hq2, ha]
          rfl
        obtain ⟨ha3, hilt, hzero, -⟩ := hdmok i a hgetd
        refine ⟨ha3, ?_⟩
        rw [hq1]
        rw [List.getD_eq_getElem?_getD, List.getElem?_eq_getElem hi1] at hzero
        exact hzero)
      trivial (by simp) (by simp [lastP])
    rw [hbody, hzfst]
    have hacc : accPts (round3 prec p0) (deltasOf rpts) = rpts := by
      rw [hrpts, List.map_cons]
      exact accPts_deltasOf (round3 prec p0) ((p1 :: rest1).map (round3 prec))
    rw [hacc]
    rw [show [round3 prec p0] ++ rpts.tail = round3 prec p0 :: rpts.tail from rfl]
    rw [show round3 prec p0 :: rpts.tail = rpts from by
      rw [hrpts, List.map_cons]
      rfl]
    exact decodePtsLoop_stop rest _ _ _ hstop

/- ============================================================
   The shape record round trip
   ============================================================ -/

theorem dsl_tline (s : String) (rest : List SLine) (p : String) (d : P3) (v : ℚ)
    (c : ℤ) (pts ms : List P3) :
    decodeShapeLoop (SLine.tline s :: rest) p d v c pts ms
      = decodeShapeLoop rest s d v c pts ms := by
  rw [decodeShapeLoop]

theorem dsl_dline (x : P3) (rest : List SLine) (p : String) (d : P3) (v : ℚ)
    (c : ℤ) (pts ms : List P3) :
    decodeShapeLoop (SLine.dline x :: rest) p d v c pts ms
      = decodeShapeLoop rest p x v c pts ms := by
  rw [decodeShapeLoop]

theorem dsl_vline (x : ℚ) (rest : List SLine) (p : String) (d : P3) (v : ℚ)
    (c : ℤ) (pts ms : List P3) :
    decodeShapeLoop (SLine.vline x :: rest) p d v c pts ms
      = decodeShapeLoop rest p d x c pts ms := by
  rw [decodeShapeLoop]

theorem dsl_cline (x : ℤ) (rest : List SLine) (p : String) (d : P3) (v : ℚ)
    (c : ℤ) (pts ms : List P3) :
    decodeShapeLoop (SLine.cline x :: rest) p d v c pts ms
      = decodeShapeLoop rest p d v x pts ms := by
  rw [decodeShapeLoop]

theorem dsl_dline_opt (cond : Prop) [Decidable cond] (x : P3) (rest : List SLine)
    (p : String) (d : P3) (v : ℚ) (c : ℤ) (pts ms : List P3) :
    decodeShapeLoop ((if cond then [SLine.dline x] else []) ++ rest) p d v c pts ms
      = decodeShapeLoop rest p (if cond then x else d) v c pts ms := by
  split
  · rw [List.singleton_append, dsl_dline]
  · rw [List.nil_append]

theorem dsl_vline_opt (cond : Prop) [Decidable cond] (x : ℚ) (rest : List SLine)
    (p : String) (d : P3) (v : ℚ) (c : ℤ) (pts ms : List P3) :
    decodeShapeLoop ((if cond then [SLine.vline x] else []) ++ rest) p d v c pts ms
      = decodeShapeLoop rest p d (if cond then x else v) c pts ms := by
  split
  · rw [List.singleton_append, dsl_vline]
  · rw [List.nil_append]

theorem dsl_cline_opt (cond : Prop) [Decidable cond] (x : ℤ) (rest : List SLine)
    (p : String) (d : P3) (v : ℚ) (c : ℤ) (pts ms : List P3) :
    decodeShapeLoop ((if cond then [SLine.cline x] else []) ++ rest) p d v c pts ms
      = decodeShapeLoop rest p d v (if cond then x else c) pts ms := by
  split
  · rw [List.singleton_append, dsl_cline]
  · rw [List.nil_append]

theorem encodePts_cons_form (p0 : P3) (rest0 : List P3) (tag : PtsTag) (prec : ℕ) :
    ∃ body, encodePts (p0 :: rest0) tag prec
      = SLine.header tag (round3 prec p0) :: body := by
  cases rest0 with
  | nil => exact ⟨[], rfl⟩
  | cons p1 r1 =>
    rw [encodePts]
    rw [if_neg (by simp)]
    exact ⟨_, rfl⟩

theorem dsl_P (prec : ℕ) (p0 : P3) (rest0 : List P3) (rest : List SLine)
    (hstop : rest = [] ∨ ∃ l r', rest = l :: r' ∧ isPtBodyLine l = false)
    (p : String) (d : P3) (v : ℚ) (c : ℤ) (pts ms : List P3) :
    decodeShapeLoop (encodePts (p0 :: rest0) .P prec ++ rest) p d v c pts ms
      = decodeShapeLoop rest p d v c ((p0 :: rest0).map (round3 prec)) ms := by
  obtain ⟨body, hform⟩ := encodePts_cons_form p0 rest0 .P prec
  have hmaster := decodePts_encodePts prec .P p0 rest0 rest hstop
  rw [hform] at hmaster ⊢
  rw [List.cons_append]
  rw [decodeShapeLoop]
  simp only [List.cons_append] at hmaster
  rw [hmaster]

theorem dsl_M (prec : ℕ) (p0 : P3) (rest0 : List P3) (rest : List SLine)
    (hstop : rest = [] ∨ ∃ l r', rest = l :: r' ∧ isPtBodyLine l = false)
    (p : String) (d : P3) (v : ℚ) (c : ℤ) (pts ms : List P3) :
    decodeShapeLoop (encodePts (p0 :: rest0) .M prec ++ rest) p d v c pts ms
      = decodeShapeLoop rest p d v c pts ((p0 :: rest0).map (round3 prec)) := by
  obtain ⟨body, hform⟩ := encodePts_cons_form p0 rest0 .M prec
  have hmaster := decodePts_encodePts prec .M p0 rest0 rest hstop
  rw [hform] at hmaster ⊢
  rw [List.cons_append]
  rw [decodeShapeLoop]
  simp only [List.cons_append] at hmaster
  rw [hmaster]

theorem round3_zero (prec : ℕ) : round3 prec (0, 0, 0) = (0, 0, 0) :=
  OnGrid3.round3_eq ⟨OnGrid.zero prec, OnGrid.zero prec, OnGrid.zero prec⟩

theorem roundDec_zero (prec : ℕ) : roundDec prec 0 = 0 :=
  OnGrid.roundDec_eq (OnGrid.zero prec)

/-- The particle identifier as reconstructed by `_decode_shape`. -/
def decodedParticle (p : String) : String :=
  if p.data.contains ':' then p else "minecraft:" ++ p

/-- Loading a saved single shape: points and motions come back exactly as the
rounded originals, spread and speed rounded, count exact, and the particle
identifier goes through strip-then-requalify. -/
theorem loadShape_saveShape (S : Shape) (prec : ℕ) :
    loadShapeBody (saveShapeLines S prec)
      = { points := S.points.map (round3 prec)
        , particle := decodedParticle (stripMc S.particle)
        , delta := round3 prec S.delta
        , speed := roundDec prec S.speed
        , count := S.count
        , motions := match S.motions with
            | some m => if m.isEmpty then none else some (m.map (round3 prec))
            | none => none } := by
  unfold loadShapeBody saveShapeLines encodeShape decodeShape
  simp only [tlineDiff, attrDiff]
  rw [List.append_assoc, List.append_assoc, List.append_assoc]
  rw [List.singleton_append, dsl_tline]
  rw [List.append_assoc, dsl_dline_opt, dsl_vline_opt, dsl_cline_opt]
  have hd : (if S.delta ≠ (0, 0, 0) then round3 prec S.delta else ((0, 0, 0) : P3))
      = round3 prec S.delta := by
    split
    · rfl
    · rename_i h
      push_neg at h
      rw [h, round3_zero]
  have hv : (if S.speed ≠ 0 then roundDec prec S.speed else (0 : ℚ))
      = roundDec prec S.speed := by
    split
    · rfl
    · rename_i h
      push_neg at h
      rw [h, roundDec_zero]
  have hc : (if S.count ≠ 1 then S.count else (1 : ℤ)) = S.count := by
    split
    · rfl
    · rename_i h
      push_neg at h
      rw [h]
  simp only [defaultState] at *
  rw [hd, hv, hc]
  -- the motion block, shared by both point cases
  have hmthen : ∀ (p : String) (d : P3) (v : ℚ) (c : ℤ) (pts : List P3),
      decodeShapeLoop (match S.motions with
          | some ms => if ms.isEmpty then [] else encodePts ms .M prec
          | none => []) p d v c pts []
        = (mkDecodedShape p d v c pts (match S.motions with
            | some m => if m.isEmpty then [] else m.map (round3 prec)
            | none => []),
           ⟨p, d, v, c⟩) := by
    intro p d v c pts
    match S.motions with
    | none => rw [decodeShapeLoop]
    | some [] =>
      show decodeShapeLoop [] p d v c pts []
          = (mkDecodedShape p d v c pts [], ⟨p, d, v, c⟩)
      rw [decodeShapeLoop]
    | some (m0 :: mr) =>
      show decodeShapeLoop (encodePts (m0 :: mr) .M prec) p d v c pts []
          = (mkDecodedShape p d v c pts ((m0 :: mr).map (round3 prec)), ⟨p, d, v, c⟩)
      have h1 := dsl_M prec m0 mr [] (Or.inl rfl) p d v c pts []
      rw [List.append_nil] at h1
      rw [h1, decodeShapeLoop]
  -- the position block
  have hfinal : ∀ (p : String) (d : P3) (v : ℚ) (c : ℤ),
      decodeShapeLoop (encodePts S.points .P prec ++ (match S.motions with
          | some ms => if ms.isEmpty then [] else encodePts ms .M prec
          | none => [])) p d v c [] []
        = (mkDecodedShape p d v c (S.points.map (round3 prec))
            (match S.motions with
              | some m => if m.isEmpty then [] else m.map (round3 prec)
              | none => []),
           ⟨p, d, v, c⟩) := by
    intro p d v c
    have hstop : (match S.motions with
          | some ms => if ms.isEmpty then [] else encodePts ms .M prec
          | none => ([] : List SLine)) = []
        ∨ ∃ l r', (match S.motions with
          | some ms => if ms.isEmpty then [] else encodePts ms .M prec
          | none => ([] : List SLine)) = l :: r' ∧ isPtBodyLine l = false := by
      match S.motions with
      | none => exact Or.inl rfl
      | some [] => exact Or.inl rfl
      | some (m0 :: mr) =>
        obtain ⟨body, hform⟩ := encodePts_cons_form m0 mr .M prec
        exact Or.inr ⟨SLine.header .M (round3 prec m0), body, hform, rfl⟩
    match hpts : S.points with
    | [] =>
      rw [show encodePts [] .P prec = [] from rfl, List.nil_append, hmthen]
      rfl
    | p0 :: r0 =>
      rw [dsl_P prec p0 r0 _ hstop, hmthen]
  rw [hfinal]
  match S.motions with
  | none => rfl
  | some [] => rfl
  | some (m0 :: mr) => rfl

/- ============================================================
   C8: empty and singleton point sequences
   ============================================================ -/

/-- **C8.** Empty/singleton boundary: encoding an empty point sequence
produces no header line and no body, and decoding that empty output
reproduces an empty sequence; encoding a single point produces the header
line only, and decoding it reproduces exactly that single point, rounded to
the encoding precision. -/
theorem C8_empty_singleton_boundary (prec : ℕ) (tag : PtsTag) (p : P3) :
    encodePts [] tag prec = []
    ∧ decodePts (encodePts [] tag prec) = ([], [])
    ∧ encodePts [p] tag prec = [SLine.header tag (round3 prec p)]
    ∧ decodePts (encodePts [p] tag prec) = ([round3 prec p], []) :=
  ⟨rfl, rfl, rfl, rfl⟩

/- ============================================================
   C10: namespace qualification of the particle identifier
   ============================================================ -/

/-- **C10, counterexample.** The identifier `minecraft:a:b` carries the
well-known prefix, so the claim says it round-trips unchanged; but the
encoder strips the prefix and the decoder sees a remainder that still
contains `:`, so it does not restore the prefix: the round trip returns
`a:b`. -/
theorem C10_counterexample :
    ("minecraft:".data.isPrefixOf "minecraft:a:b".data) = true
    ∧ (loadShapeBody (saveShapeLines ⟨[], "minecraft:a:b", (0, 0, 0), 0, 1, none⟩ 3)).particle
        = "a:b"
    ∧ ("a:b" : String) ≠ "minecraft:a:b" := by
  refine ⟨by decide, ?_, by decide⟩
  rw [loadShape_saveShape]
  decide

/-- **C10 (amended).** The round trip maps the particle identifier `p` to
`decodedParticle (stripMc p)`.  Consequently: an identifier without the
well-known prefix and without `:` comes back `minecraft:`-qualified; an
identifier without the well-known prefix but with a `:` comes back
unchanged; and an identifier `minecraft:rest` round-trips unchanged
provided the remainder `rest` contains no further `:` (the counterexample
shows the prefix is otherwise lost). -/
theorem C10_namespace_qualification (S : Shape) (prec : ℕ) :
    (loadShapeBody (saveShapeLines S prec)).particle
        = decodedParticle (stripMc S.particle)
    ∧ ("minecraft:".data.isPrefixOf S.particle.data = false →
        S.particle.data.contains ':' = false →
        (loadShapeBody (saveShapeLines S prec)).particle
          = "minecraft:" ++ S.particle)
    ∧ ("minecraft:".data.isPrefixOf S.particle.data = false →
        S.particle.data.contains ':' = true →
        (loadShapeBody (saveShapeLines S prec)).particle = S.particle)
    ∧ (∀ rest : String, S.particle = "minecraft:" ++ rest →
        stripMc S.particle = rest → rest.data.contains ':' = false →
        (loadShapeBody (saveShapeLines S prec)).particle = S.particle) := by
  have h1 : (loadShapeBody (saveShapeLines S prec)).particle
      = decodedParticle (stripMc S.particle) := by
    rw [loadShape_saveShape]
  refine ⟨h1, ?_, ?_, ?_⟩
  · intro hpre hcol
    rw [h1, stripMc, if_neg (by simp [hpre]), decodedParticle,
      if_neg (by intro h; rw [hcol] at h; exact Bool.false_ne_true h)]
  · intro hpre hcol
    rw [h1, stripMc, if_neg (by simp [hpre]), decodedParticle, if_pos hcol]
  · intro rest hp hs hr
    rw [h1, hs, decodedParticle,
      if_neg (by intro h; rw [hr] at h; exact Bool.false_ne_true h)]
    exact hp.symm

/-- Witness for C10: a bare identifier gets qualified; one already carrying
the well-known prefix (and no further `:`) round-trips unchanged. -/
theorem C10_namespace_qualification_witness :
    (loadShapeBody (saveShapeLines ⟨[], "wand", (0, 0, 0), 0, 1, none⟩ 3)).particle
        = "minecraft:" ++ "wand"
    ∧ (loadShapeBody (saveShapeLines ⟨[], "minecraft:wand", (0, 0, 0), 0, 1, none⟩ 3)).particle
        = "minecraft:wand" :=
  ⟨(C10_namespace_qualification ⟨[], "wand", (0, 0, 0), 0, 1, none⟩ 3).2.1
      (by decide) (by decide),
   (C10_namespace_qualification ⟨[], "minecraft:wand", (0, 0, 0), 0, 1, none⟩ 3).2.2.2
      "wand" rfl (by decide) (by decide)⟩

/- ============================================================
   C1: the compiled round trip
   ============================================================ -/

theorem round3_round3 (prec : ℕ) (p : P3) :
    round3 prec (round3 prec p) = round3 prec p :=
  OnGrid3.round3_eq (round3_onGrid prec p)

/-- **C1, counterexample.** The claim promises that the compiled per-point
output of the round-tripped shape matches that of the original (coordinates
rounded).  For the particle type `flame` the coordinates do match exactly,
but the compiled commands still differ: the decoder namespace-qualifies the
type, so the round trip compiles `minecraft:flame` where the original
compiled `flame`. -/
theorem C1_counterexample :
    (compileCmds (loadShapeBody (saveShapeLines
          ⟨[(1, 2, 3)], "flame", (0, 0, 0), 0, 1, none⟩ 3)) 3).map Cmd.particle
      = ["minecraft:flame"]
    ∧ (compileCmds ⟨[(1, 2, 3)], "flame", (0, 0, 0), 0, 1, none⟩ 3).map Cmd.particle
      = ["flame"]
    ∧ ("minecraft:flame" : String) ≠ "flame" := by
  refine ⟨?_, rfl, by decide⟩
  rw [loadShape_saveShape]
  simp only [compileCmds, List.map_map, List.map_cons, List.map_nil,
    Function.comp]
  decide

/-- **C1 (amended).** Round-trip identity at the compiler: for every shape
`S` (whose motions, when present, are non-empty) and precision `p`,
compiling the decoded encoding of `S` yields exactly the commands of `S`
with every coordinate equal to the rounded original (so within any positive
tolerance, in particular 5e-8), the spread and speed rounded to `p`, and
the particle identifier requalified (`decodedParticle (stripMc ·)`) rather
than preserved verbatim. -/
theorem C1_round_trip_compiled (S : Shape) (prec : ℕ)
    (hm : ∀ ms, S.motions = some ms → ms ≠ []) :
    compileCmds (loadShapeBody (saveShapeLines S prec)) prec
      = (compileCmds S prec).map
          (fun cmd => ⟨decodedParticle (stripMc cmd.particle), cmd.pos,
                       round3 prec cmd.dv, roundDec prec cmd.speed, cmd.count⟩) := by
  rw [loadShape_saveShape]
  match hmo : S.motions with
  | none =>
    simp only [compileCmds, hmo, List.map_map]
    refine List.map_congr_left ?_
    intro p hp
    simp [Function.comp, round3_round3]
  | some [] => exact absurd rfl (hm [] hmo)
  | some (m0 :: mr) =>
    simp only [compileCmds, hmo, List.isEmpty_cons, Bool.false_eq_true, if_false,
      List.zip_map, List.map_map]
    refine List.map_congr_left ?_
    intro pm hpm
    simp [Function.comp, Prod.map, round3_round3]

/-- Witness for C1 at a one-point shape with a motion vector. -/
theorem C1_round_trip_compiled_witness :
    compileCmds (loadShapeBody (saveShapeLines
        ⟨[(1, 2, 3)], "flame", (0, 0, 0), 0, 1, some [(1, 0, 0)]⟩ 3)) 3
      = (compileCmds ⟨[(1, 2, 3)], "flame", (0, 0, 0), 0, 1, some [(1, 0, 0)]⟩ 3).map
          (fun cmd => ⟨decodedParticle (stripMc cmd.particle), cmd.pos,
                       round3 3 cmd.dv, roundDec 3 cmd.speed, cmd.count⟩) :=
  C1_round_trip_compiled ⟨[(1, 2, 3)], "flame", (0, 0, 0), 0, 1, some [(1, 0, 0)]⟩ 3
    (fun ms h => by cases h; simp)

/- ============================================================
   C3: duplicate tick markers
   ============================================================ -/

/-- A tick marker line (`>` prefix in the text format). -/
def isTickLine : SLine → Bool
  | .tick _ => true
  | _ => false

theorem splitFrames_noTick (body : List SLine)
    (h : ∀ l ∈ body, isTickLine l = false) :
    ∀ (rest : List SLine) (tick : ℤ) (buf : List SLine),
      splitFrames (body ++ rest) tick buf = splitFrames rest tick (buf ++ body) := by
  induction body with
  | nil => intro rest tick buf; simp
  | cons l body ih =>
    intro rest tick buf
    have hl := h l (by simp)
    have hb : ∀ l' ∈ body, isTickLine l' = false := fun l' h' => h l' (by simp [h'])
    cases l <;> simp only [isTickLine, Bool.true_eq_false] at hl <;>
      (simp only [List.cons_append, splitFrames, List.append_eq]
       rw [ih hb]
       simp)

theorem dictInsert_nil {K V : Type} [DecidableEq K] (k : K) (v : V) :
    dictInsert [] k v = [(k, v)] := by
  simp [dictInsert]

theorem dictInsert_single_same {K V : Type} [DecidableEq K] (k : K) (v w : V) :
    dictInsert [(k, v)] k w = [(k, w)] := by
  simp [dictInsert]

/-- **C3 (amended).** `load` performs no tick validation: a body containing
two frames under the same non-negative tick is silently merged — the result
holds a single frame at that tick, namely the later record decoded against
the scalar state left behind by the earlier one.  (This refutes the claim
that such inputs are rejected or at least not silently merged.) -/
theorem C3_duplicate_tick_merged (t : ℤ) (ht : 0 ≤ t) (b1 b2 : List SLine)
    (h1 : ∀ l ∈ b1, isTickLine l = false)
    (h2 : ∀ l ∈ b2, isTickLine l = false) :
    loadAnimBody (SLine.tick t :: b1 ++ SLine.tick t :: b2)
      = [(t, (decodeShape b2 (decodeShape b1 defaultState).2).1)] := by
  unfold loadAnimBody
  have hsplit : splitFrames (SLine.tick t :: b1 ++ SLine.tick t :: b2) (-1) []
      = [(t, b1), (t, b2)] := by
    have e1 : splitFrames (SLine.tick t :: (b1 ++ SLine.tick t :: b2)) (-1) []
        = splitFrames (b1 ++ SLine.tick t :: b2) t [] := by
      rw [splitFrames.eq_def]
      norm_num
    have e2 : splitFrames (SLine.tick t :: b2) t b1
        = [(t, b1)] ++ splitFrames b2 t [] := by
      rw [splitFrames.eq_def]
      simp [ht]
    have e3 : splitFrames (b2 ++ []) t [] = [(t, b2)] := by
      rw [splitFrames_noTick b2 h2, splitFrames.eq_def]
      simp [ht]
    rw [List.cons_append, e1, splitFrames_noTick b1 h1, List.nil_append, e2]
    rw [List.append_nil] at e3
    rw [e3]
    rfl
  rw [hsplit]
  rw [decodeFrames]
  simp only [dictInsert_nil]
  rw [decodeFrames]
  simp only [dictInsert_single_same]
  rw [decodeFrames]

/-- Witness for C3: two frames at tick 5. -/
theorem C3_duplicate_tick_merged_witness :
    loadAnimBody [SLine.tick 5, SLine.tline "a", SLine.tick 5, SLine.tline "b"]
      = [(5, (decodeShape [SLine.tline "b"]
              (decodeShape [SLine.tline "a"] defaultState).2).1)] :=
  C3_duplicate_tick_merged 5 (by decide) [SLine.tline "a"] [SLine.tline "b"]
    (by decide) (by decide)

/-- **C3, counterexample.** Loading a body with two frames at tick 5 (types
`a` then `b`) returns a single silently-merged frame: the animation has
exactly one frame, at tick 5, holding the second record's shape. -/
theorem C3_counterexample :
    loadAnimBody [SLine.tick 5, SLine.tline "a", SLine.tick 5, SLine.tline "b"]
      = [(5, ⟨[], "minecraft:b", (0, 0, 0), 0, 1, none⟩)] := by
  unfold loadAnimBody
  have hs : splitFrames [SLine.tick 5, SLine.tline "a", SLine.tick 5, SLine.tline "b"] (-1) []
      = [((5 : ℤ), [SLine.tline "a"]), ((5 : ℤ), [SLine.tline "b"])] := rfl
  rw [hs, decodeFrames]
  simp only [dictInsert_nil]
  rw [decodeFrames]
  simp only [dictInsert_single_same]
  rw [decodeFrames]
  have d1 : decodeShape [SLine.tline "a"] defaultState
      = (mkDecodedShape "a" (0, 0, 0) 0 1 [] [], ⟨"a", (0, 0, 0), 0, 1⟩) := by
    rw [decodeShape, dsl_tline, decodeShapeLoop]
    rfl
  have d2 : decodeShape [SLine.tline "b"] (⟨"a", (0, 0, 0), 0, 1⟩ : ShapeState)
      = (mkDecodedShape "b" (0, 0, 0) 0 1 [] [], ⟨"b", (0, 0, 0), 0, 1⟩) := by
    rw [decodeShape, dsl_tline, decodeShapeLoop]
  rw [d1, d2]
  decide

/- ============================================================
   C6: particle-type diffing
   ============================================================ -/

/-- The payload of a type line, `none` on every other line form. -/
def tlineVal : SLine → Option String
  | .tline s => some s
  | _ => none

/-- The type-line payloads of a body, in order. -/
def tlines (ls : List SLine) : List String := ls.filterMap tlineVal

theorem tlines_append (l1 l2 : List SLine) :
    tlines (l1 ++ l2) = tlines l1 ++ tlines l2 :=
  List.filterMap_append l1 l2 tlineVal

theorem tlines_tick (t : ℤ) (l : List SLine) :
    tlines (SLine.tick t :: l) = tlines l := by
  simp [tlines, tlineVal]

theorem mem_ite_singleton {α : Type} {c : Prop} [Decidable c] {x l : α}
    (h : l ∈ if c then [x] else []) : l = x := by
  revert h
  split <;> simp

theorem tlines_attrDiff (prec : ℕ) (cd : P3) (cv : ℚ) (cc : ℤ)
    (prev : Option ShapeState) : tlines (attrDiff prec cd cv cc prev) = [] := by
  unfold attrDiff
  cases prev <;>
    (rw [tlines, List.filterMap_eq_nil]
     intro l hl
     simp only [List.mem_append] at hl
     rcases hl with (h | h) | h <;> rw [mem_ite_singleton h] <;> rfl)

theorem encSeg_no_tline (prec : ℕ) (dr : Option ℕ) :
    ∀ (N : ℕ) (ds : List P3), ds.length ≤ N → ∀ (acc : P3),
      ∀ l ∈ encSeg prec dr ds acc, tlineVal l = none := by
  intro N
  induction N with
  | zero =>
    intro ds hlen acc l hl
    have hds : ds = [] := List.length_eq_zero.mp (Nat.le_zero.mp hlen)
    subst hds
    rw [encSeg] at hl
    simp at hl
  | succ N ihN =>
    intro ds hlen acc l hl
    match ds with
    | [] =>
      rw [encSeg] at hl
      simp at hl
    | d :: ds' =>
      rw [encSeg] at hl
      by_cases hbr : 0 < (bestRun prec (d :: ds') acc).2
      · rw [dif_pos hbr] at hl
        have hk1 := bestRun_fst_pos prec (d :: ds') acc hbr
        simp only [List.mem_append, List.mem_cons, List.mem_map] at hl
        rcases hl with ⟨e, -, he⟩ | rfl | hl
        · rw [← he]; rfl
        · rfl
        · refine ihN _ ?_ _ l hl
          simp only [List.length_drop, List.length_cons]
          simp only [List.length_cons] at hlen
          omega
      · rw [dif_neg hbr] at hl
        rcases List.mem_cons.mp hl with rfl | hl
        · rfl
        · refine ihN ds' ?_ (p3add acc d) l hl
          simp only [List.length_cons] at hlen
          omega

theorem encBody_no_tline (prec : ℕ) :
    ∀ (N : ℕ) (zds : List (P3 × Option ℕ)), zds.length ≤ N →
      ∀ (cur : Option ℕ) (acc : P3),
      ∀ l ∈ encBody prec zds cur acc, tlineVal l = none := by
  intro N
  induction N with
  | zero =>
    intro zds hlen cur acc l hl
    have hz : zds = [] := List.length_eq_zero.mp (Nat.le_zero.mp hlen)
    subst hz
    rw [encBody] at hl
    simp at hl
  | succ N ihN =>
    intro zds hlen cur acc l hl
    match zds with
    | [] =>
      rw [encBody] at hl
      simp at hl
    | (d, dr) :: rest =>
      rw [encBody.eq_def] at hl
      simp only [] at hl
      simp only [List.mem_append] at hl
      rcases hl with (hl | hl) | hl
      · -- directive lines
        revert hl
        split
        · intro hl; simp at hl
        · split
          · intro hl
            rcases List.mem_singleton.mp hl with rfl
            rfl
          · intro hl; simp at hl
      · exact encSeg_no_tline prec dr _ _ (le_refl _) acc l hl
      · refine ihN _ ?_ dr _ l hl
        have hdw := lengthDropWhileLe (fun x : P3 × Option ℕ => decide (x.2 = dr)) rest
        simp only [List.dropWhile_cons]
        simp only [List.length_cons] at hlen
        split
        · omega
        · rename_i hfalse
          simp at hfalse

theorem tlines_encodePts (pts : List P3) (tag : PtsTag) (prec : ℕ) :
    tlines (encodePts pts tag prec) = [] := by
  match pts with
  | [] => rfl
  | p :: rest =>
    rw [encodePts]
    split
    · rfl
    · rw [tlines, List.filterMap_cons]
      have : tlineVal (SLine.header tag (((p :: rest).map (round3 prec)).headD (0, 0, 0)))
          = none := rfl
      rw [this]
      rw [List.filterMap_eq_nil]
      intro l hl
      exact encBody_no_tline prec _ _ (le_refl _) none _ l hl

/-- The threaded state `_encode_shape` returns. -/
theorem encodeShape_snd (sh : Shape) (prec : ℕ) (prev : Option ShapeState) :
    (encodeShape sh prec prev).2
      = ⟨stripMc sh.particle, sh.delta, sh.speed, sh.count⟩ := rfl

theorem tlines_encodeShape (sh : Shape) (prec : ℕ) (prev : Option ShapeState) :
    tlines (encodeShape sh prec prev).1
      = tlines (tlineDiff (stripMc sh.particle) prev) := by
  show tlines (tlineDiff (stripMc sh.particle) prev
      ++ attrDiff prec sh.delta sh.speed sh.count prev
      ++ encodePts sh.points .P prec
      ++ (match sh.motions with
          | some ms => if ms.isEmpty then [] else encodePts ms .M prec
          | none => [])) = _
  rw [tlines_append, tlines_append, tlines_append, tlines_attrDiff,
    tlines_encodePts]
  have hm : tlines (match sh.motions with
      | some ms => if ms.isEmpty then [] else encodePts ms .M prec
      | none => []) = [] := by
    match sh.motions with
    | none => rfl
    | some [] => rfl
    | some (m0 :: mr) =>
      show tlines (if (m0 :: mr).isEmpty = true then [] else encodePts (m0 :: mr) .M prec) = []
      rw [if_neg (by simp)]
      exact tlines_encodePts (m0 :: mr) .M prec
  rw [hm]
  simp

theorem tlines_tlineDiff_some (sp : String) (st : ShapeState) :
    tlines (tlineDiff sp (some st)) = if sp ≠ st.t then [sp] else [] := by
  show tlines (if sp ≠ st.t then [SLine.tline sp] else []) = _
  split <;> rfl

/-- **C6, counterexample.** A first (and only) frame whose stripped type
equals the fixed default `flame` still gets a type line: the encoder emits
the line whenever there is no previous state, not only when the type
differs from the default. -/
theorem C6_counterexample :
    stripMc "minecraft:flame" = defaultState.t
    ∧ tlines (saveAnimLines [(0, ⟨[], "minecraft:flame", (0, 0, 0), 0, 1, none⟩)] 3)
        = ["flame"] :=
  ⟨by decide, by decide⟩

/-- **C6 (amended).** The encoder strips the well-known prefix and emits a
type line at a frame with a previous record exactly when the stripped type
differs from that record's; at the first record the line is always emitted
(even when equal to the fixed default `flame`).  Consequently a 5-frame
animation with stripped types `[A, A, B, B, A]` (`A ≠ B`) yields exactly
the type lines `[A, B, A]`. -/
theorem C6_particle_type_diffing (prec : ℕ) (A B : String) (hAB : A ≠ B)
    (t1 t2 t3 t4 t5 : ℤ) (s1 s2 s3 s4 s5 : Shape)
    (e1 : stripMc s1.particle = A) (e2 : stripMc s2.particle = A)
    (e3 : stripMc s3.particle = B) (e4 : stripMc s4.particle = B)
    (e5 : stripMc s5.particle = A) :
    tlines (encodeFrames prec [(t1, s1), (t2, s2), (t3, s3), (t4, s4), (t5, s5)] none)
      = [A, B, A]
    ∧ (∀ sh st, tlines (encodeShape sh prec (some st)).1
        = if stripMc sh.particle ≠ st.t then [stripMc sh.particle] else [])
    ∧ (∀ sh, tlines (encodeShape sh prec none).1 = [stripMc sh.particle]) := by
  have hsome : ∀ sh st, tlines (encodeShape sh prec (some st)).1
      = if stripMc sh.particle ≠ st.t then [stripMc sh.particle] else [] := by
    intro sh st
    rw [tlines_encodeShape, tlines_tlineDiff_some]
  have hnone : ∀ sh, tlines (encodeShape sh prec none).1 = [stripMc sh.particle] := by
    intro sh
    rw [tlines_encodeShape]
    rfl
  refine ⟨?_, hsome, hnone⟩
  simp only [encodeFrames, tlines_tick, tlines_append, encodeShape_snd,
    hsome, hnone, e1, e2, e3, e4, e5]
  simp [hAB, Ne.symm hAB, tlines]

/-- Witness for C6 with concrete types and frames. -/
theorem C6_particle_type_diffing_witness :
    tlines (encodeFrames 3
        [((0 : ℤ), (⟨[], "a", (0, 0, 0), 0, 1, none⟩ : Shape)),
         (1, ⟨[], "a", (0, 0, 0), 0, 1, none⟩),
         (2, ⟨[], "b", (0, 0, 0), 0, 1, none⟩),
         (3, ⟨[], "b", (0, 0, 0), 0, 1, none⟩),
         (4, ⟨[], "a", (0, 0, 0), 0, 1, none⟩)] none)
      = ["a", "b", "a"] :=
  (C6_particle_type_diffing 3 "a" "b" (by decide) 0 1 2 3 4
    ⟨[], "a", (0, 0, 0), 0, 1, none⟩ ⟨[], "a", (0, 0, 0), 0, 1, none⟩
    ⟨[], "b", (0, 0, 0), 0, 1, none⟩ ⟨[], "b", (0, 0, 0), 0, 1, none⟩
    ⟨[], "a", (0, 0, 0), 0, 1, none⟩
    (by decide) (by decide) (by decide) (by decide) (by decide)).1

/- ============================================================
   C5: axis elision
   ============================================================ -/

/-- **C5.** Axis-elision correctness: on the rounded deltas of any encoded
point block, the elision plan is sound — it is parallel to the deltas, and
every marked index carries an axis `< 3` whose rounded delta component is
exactly zero and sits inside a fully marked run (same axis) of length at
least 3 — and decoding the encoded block reproduces exactly the rounded
originals (so the decoded points on elided segments coincide with the
non-elided decoding, the reinserted component being exactly `0`). -/
theorem C5_axis_elision (prec : ℕ) (tag : PtsTag) (p0 : P3) (rest0 : List P3) :
    DmOK (deltasOf ((p0 :: rest0).map (round3 prec)))
        (planDrops (deltasOf ((p0 :: rest0).map (round3 prec))))
    ∧ decodePts (encodePts (p0 :: rest0) tag prec)
        = ((p0 :: rest0).map (round3 prec), [])
    ∧ (∀ i a,
        (planDrops (deltasOf ((p0 :: rest0).map (round3 prec)))).getD i none
          = some a →
        axisVal ((deltasOf (decodePts (encodePts (p0 :: rest0) tag prec)).1).getD
          i (0, 0, 0)) a = 0) := by
  have hdec : decodePts (encodePts (p0 :: rest0) tag prec)
      = ((p0 :: rest0).map (round3 prec), []) := by
    simpa using decodePts_encodePts prec tag p0 rest0 [] (Or.inl rfl)
  refine ⟨planDrops_ok _, hdec, ?_⟩
  intro i a hmark
  rw [hdec]
  exact ((planDrops_ok _).2 i a hmark).2.2.1

/-- Witness for C5: a two-point block decodes to its rounded points. -/
theorem C5_axis_elision_witness :
    decodePts (encodePts [((0 : ℚ), (0 : ℚ), (0 : ℚ)), (1, 0, 0)] PtsTag.P 0)
      = ([((0 : ℚ), (0 : ℚ), (0 : ℚ)), (1, 0, 0)].map (round3 0), []) :=
  (C5_axis_elision 0 PtsTag.P ((0 : ℚ), (0 : ℚ), (0 : ℚ)) [(1, 0, 0)]).2.1

/- ============================================================
   C7: constant-stride lines
   ============================================================ -/

theorem p3sub_add_cancel (a d : P3) : p3sub (p3add a d) a = d := by
  simp [p3add, p3sub]

theorem deltasOf_accPts : ∀ (ds : List P3) (a : P3), deltasOf (accPts a ds) = ds := by
  intro ds
  induction ds with
  | nil => intro a; rfl
  | cons d rest ih =>
    intro a
    show deltasOf (a :: accPts (p3add a d) rest) = d :: rest
    rw [accPts_head_tail (p3add a d) rest]
    show p3sub (p3add a d) a
        :: deltasOf (p3add a d :: (accPts (p3add a d) rest).tail) = d :: rest
    rw [← accPts_head_tail (p3add a d) rest, p3sub_add_cancel, ih]

theorem map_round3_of_onGrid {prec : ℕ} : ∀ {pts : List P3},
    (∀ p ∈ pts, OnGrid3 prec p) → pts.map (round3 prec) = pts := by
  intro pts
  induction pts with
  | nil => intro _; rfl
  | cons p rest ih =>
    intro h
    simp only [List.map_cons]
    rw [OnGrid3.round3_eq (h p (by simp)), ih (fun q hq => h q (by simp [hq]))]

theorem takeWhile_all {α : Type} (p : α → Bool) :
    ∀ (l : List α), (∀ x ∈ l, p x = true) → l.takeWhile p = l := by
  intro l
  induction l with
  | nil => intro _; rfl
  | cons x rest ih =>
    intro h
    rw [List.takeWhile_cons, if_pos (h x (by simp)),
      ih (fun y hy => h y (by simp [hy]))]

theorem dropWhile_all {α : Type} (p : α → Bool) :
    ∀ (l : List α), (∀ x ∈ l, p x = true) → l.dropWhile p = [] := by
  intro l
  induction l with
  | nil => intro _; rfl
  | cons x rest ih =>
    intro h
    rw [List.dropWhile_cons, if_pos (h x (by simp)),
      ih (fun y hy => h y (by simp [hy]))]

theorem zeroRuns_nonzero (ax : ℕ) :
    ∀ (N : ℕ) (ds : List P3), ds.length ≤ N →
      (∀ d ∈ ds, axisVal d ax ≠ 0) → ∀ i, zeroRuns ax ds i = [] := by
  intro N
  induction N with
  | zero =>
    intro ds hlen _ i
    have hds : ds = [] := List.length_eq_zero.mp (Nat.le_zero.mp hlen)
    subst hds
    rw [zeroRuns]
  | succ N ih =>
    intro ds hlen hnz i
    match ds with
    | [] => rw [zeroRuns]
    | d :: rest =>
      rw [zeroRuns, if_neg (hnz d (by simp))]
      refine ih rest ?_ (fun e he => hnz e (by simp [he])) (i + 1)
      simp only [List.length_cons] at hlen
      omega

theorem zeroRuns_const_zero (ax : ℕ) (s : P3) (hz : axisVal s ax = 0)
    (m : ℕ) (hm : 3 ≤ m) : zeroRuns ax (List.replicate m s) 0 = [(0, m, ax, m)] := by
  obtain ⟨m', rfl⟩ : ∃ m', m = m' + 1 := ⟨m - 1, by omega⟩
  rw [List.replicate_succ, zeroRuns, if_pos hz]
  have htw : (List.replicate m' s).takeWhile (fun e => decide (axisVal e ax = 0))
      = List.replicate m' s :=
    takeWhile_all _ _ (fun x hx => by rw [List.eq_of_mem_replicate hx]; simp [hz])
  rw [htw, List.length_replicate]
  simp only []
  rw [if_pos (show 3 ≤ 1 + m' by omega)]
  have hdrop : (List.replicate m' s).drop (1 + m' - 1) = [] := by
    rw [show 1 + m' - 1 = m' from by omega, List.drop_replicate]
    simp
  rw [hdrop, zeroRuns]
  simp [Nat.add_comm]

theorem planDrops_nonzero {ds : List P3} (hne : ds ≠ [])
    (h : ∀ d ∈ ds, axisVal d 0 ≠ 0 ∧ axisVal d 1 ≠ 0 ∧ axisVal d 2 ≠ 0) :
    planDrops ds = List.replicate ds.length none := by
  unfold planDrops
  rw [if_neg (by simpa [List.isEmpty_iff] using hne)]
  rw [zeroRuns_nonzero 0 ds.length ds (le_refl _) (fun d hd => (h d hd).1) 0,
    zeroRuns_nonzero 1 ds.length ds (le_refl _) (fun d hd => (h d hd).2.1) 0,
    zeroRuns_nonzero 2 ds.length ds (le_refl _) (fun d hd => (h d hd).2.2) 0]
  rfl

theorem replayChk_exact (prec : ℕ) :
    ∀ (pattern : List P3) (acc : P3) (rest : List P3),
      replayChk prec pattern acc ((accPts acc pattern).tail ++ rest)
        = (true, accLast acc pattern) := by
  intro pattern
  induction pattern with
  | nil => intro acc rest; simp [accPts, replayChk, accLast_nil]
  | cons d ps ih =>
    intro acc rest
    have hshape : (accPts acc (d :: ps)).tail ++ rest
        = p3add acc d :: ((accPts (p3add acc d) ps).tail ++ rest) := by
      show accPts (p3add acc d) ps ++ rest = _
      rw [accPts_head_tail (p3add acc d) ps]
      rfl
    rw [hshape]
    show (if round3 prec (p3add acc d) = round3 prec (p3add acc d)
        then replayChk prec ps (p3add acc d) ((accPts (p3add acc d) ps).tail ++ rest)
        else (false, p3add acc d)) = (true, accLast acc (d :: ps))
    rw [if_pos rfl, ih, accLast_cons]

theorem countReps_const (prec : ℕ) (s : P3) (k : ℕ) (hk : 0 < k) :
    ∀ (N m : ℕ), m ≤ N → ∀ (acc : P3),
      countReps prec (List.replicate k s) acc
          ((accPts acc (List.replicate m s)).tail) = m / k := by
  intro N
  induction N with
  | zero =>
    intro m hm acc
    have hm0 : m = 0 := Nat.le_zero.mp hm
    subst hm0
    rw [countReps, dif_pos]
    · exact (Nat.div_eq_of_lt hk).symm
    · left
      simpa [accPts] using hk
  | succ N ih =>
    intro m hm acc
    have hlenT : ((accPts acc (List.replicate m s)).tail).length = m := by
      have h1 := accPts_length acc (List.replicate m s)
      rw [accPts_head_tail acc (List.replicate m s)] at h1
      simp only [List.length_cons, List.length_replicate] at h1
      simp [List.length_tail, accPts_length]
    by_cases hmk : m < k
    · rw [countReps, dif_pos]
      · exact (Nat.div_eq_of_lt hmk).symm
      · left
        rw [hlenT, List.length_replicate]
        exact hmk
    · push_neg at hmk
      have hsplit : List.replicate m s
          = List.replicate k s ++ List.replicate (m - k) s := by
        rw [← List.replicate_add]
        congr 1
        omega
      have htail : (accPts acc (List.replicate m s)).tail
          = (accPts acc (List.replicate k s)).tail
            ++ (accPts (accLast acc (List.replicate k s))
                  (List.replicate (m - k) s)).tail := by
        rw [hsplit, accPts_tail_append]
      rw [htail, countReps, dif_neg (by
        push_neg
        constructor
        · rw [← htail, hlenT, List.length_replicate]
          omega
        · simp [List.isEmpty_iff]
          omega)]
      rw [replayChk_exact]
      have hT1len : ((accPts acc (List.replicate k s)).tail).length = k := by
        rw [List.length_tail, accPts_length, List.length_replicate]
        omega
      have hdrop : ((accPts acc (List.replicate k s)).tail
            ++ (accPts (accLast acc (List.replicate k s))
                  (List.replicate (m - k) s)).tail).drop
            (List.replicate k s).length
          = (accPts (accLast acc (List.replicate k s))
              (List.replicate (m - k) s)).tail := by
        rw [List.length_replicate]
        calc ((accPts acc (List.replicate k s)).tail
              ++ (accPts (accLast acc (List.replicate k s))
                    (List.replicate (m - k) s)).tail).drop k
            = ((accPts acc (List.replicate k s)).tail
              ++ (accPts (accLast acc (List.replicate k s))
                    (List.replicate (m - k) s)).tail).drop
                ((accPts acc (List.replicate k s)).tail).length := by rw [hT1len]
          _ = _ := List.drop_left _ _
      rw [hdrop]
      show 1 + countReps prec (List.replicate k s) (accLast acc (List.replicate k s))
          (accPts (accLast acc (List.replicate k s)) (List.replicate (m - k) s)).tail
        = m / k
      rw [ih (m - k) (by omega)]
      rw [Nat.div_eq_sub_div hk hmk]
      omega

theorem bestRun_const_n (prec : ℕ) (s : P3) (m : ℕ) (acc : P3) (k : ℕ)
    (hk1 : 1 ≤ k) (hkm : k ≤ m) :
    countReps prec ((List.replicate m s).take k)
        ((accPts acc (List.replicate m s)).getD k acc)
        ((accPts acc (List.replicate m s)).drop (k + 1))
      = (m - k) / k := by
  have htake : (List.replicate m s).take k = List.replicate k s := by
    rw [List.take_replicate]
    congr 1
    omega
  have hgetD : (accPts acc (List.replicate m s)).getD k acc
      = accLast acc (List.replicate k s) := by
    rw [accPts_getD acc _ acc k (by rw [List.length_replicate]; exact hkm), htake]
  have hdrop : (accPts acc (List.replicate m s)).drop (k + 1)
      = (accPts (accLast acc (List.replicate k s))
          (List.replicate (m - k) s)).tail := by
    have h1 : (accPts acc (List.replicate m s)).drop (k + 1)
        = ((accPts acc (List.replicate m s)).tail).drop k := by
      rw [accPts_head_tail acc (List.replicate m s)]
      rfl
    rw [h1, accPts_tail_drop, htake, List.drop_replicate]
  rw [htake, hgetD, hdrop,
    countReps_const prec s k (by omega) (m - k) (m - k) (le_refl _)]

theorem bestRun_const (prec : ℕ) (s : P3) (m : ℕ) (hm : 2 ≤ m) (acc : P3) :
    bestRun prec (List.replicate m s) acc = (1, m - 1) := by
  unfold bestRun
  rw [List.length_replicate]
  set M := min (m / 2) 8 with hM
  have hdvle : m / 2 ≤ m := Nat.div_le_self m 2
  have hMle : M ≤ m / 2 := by rw [hM]; exact min_le_left _ _
  have hM1 : 1 ≤ M := by
    rw [hM]
    refine le_min ?_ ?_ <;> omega
  obtain ⟨M', hM'⟩ : ∃ M', M = M' + 1 := ⟨M - 1, by omega⟩
  rw [hM', List.range'_succ 1 M' 1, List.foldl_cons]
  refine foldl_inv (fun b => b = (1, m - 1)) _ _ _ ?_ ?_
  · simp only []
    rw [bestRun_const_n prec s m acc 1 (le_refl _) (by omega), Nat.div_one]
    rw [if_pos ⟨by omega, by omega⟩]
  · intro b k hk hb
    subst hb
    simp only []
    split
    · rename_i hcond
      exfalso
      obtain ⟨h2k, hkM⟩ := List.mem_range'_1.mp hk
      have hkm : k ≤ m := by omega
      rw [bestRun_const_n prec s m acc k (by omega) hkm] at hcond
      obtain ⟨hpos, hlt⟩ := hcond
      have hnk := Nat.div_mul_le_self (m - k) k
      simp only [Nat.mul_one] at hlt
      generalize (m - k) / k * k = w at hlt hnk
      omega
    · rfl

theorem encSeg_nil (prec : ℕ) (dr : Option ℕ) (acc : P3) :
    encSeg prec dr [] acc = [] := by
  rw [encSeg.eq_def]

theorem encSeg_const (prec : ℕ) (dr : Option ℕ) (s : P3) (m : ℕ) (hm : 2 ≤ m)
    (acc : P3) :
    encSeg prec dr (List.replicate m s) acc
      = [SLine.delta (deltaVals dr s), SLine.run 1 (m - 1)] := by
  have hbr : bestRun prec (List.replicate m s) acc = (1, m - 1) :=
    bestRun_const prec s m hm acc
  obtain ⟨m', hm'⟩ : ∃ m', m = m' + 1 := ⟨m - 1, by omega⟩
  subst hm'
  rw [List.replicate_succ] at hbr ⊢
  rw [encSeg.eq_def]
  simp only []
  rw [dif_pos (by rw [hbr]; simp only [Nat.add_sub_cancel]; omega)]
  rw [hbr]
  simp only [Nat.add_sub_cancel, Nat.mul_one]
  rw [Nat.add_comm 1 m']
  simp only [List.take_succ_cons, List.take_zero, List.map_cons, List.map_nil,
    List.drop_succ_cons, List.drop_replicate, Nat.sub_self, List.replicate_zero]
  rw [encSeg_nil]
  rfl

theorem encBody_nil (prec : ℕ) (cur : Option ℕ) (acc : P3) :
    encBody prec [] cur acc = [] := by
  rw [encBody.eq_def]

theorem encBody_const (prec : ℕ) (dr cur : Option ℕ) (s : P3) (m : ℕ) (hm : 2 ≤ m)
    (acc : P3) :
    encBody prec (List.replicate m (s, dr)) cur acc
      = (if dr = cur then [] else match dr with
          | some a => [SLine.dropDir a]
          | none => []) ++ [SLine.delta (deltaVals dr s), SLine.run 1 (m - 1)] := by
  obtain ⟨m', hm'⟩ : ∃ m', m = m' + 1 := ⟨m - 1, by omega⟩
  subst hm'
  have hall : ∀ x ∈ (s, dr) :: List.replicate m' (s, dr),
      (fun x : P3 × Option ℕ => decide (x.2 = dr)) x = true := by
    intro x hx
    rcases List.mem_cons.mp hx with rfl | hx
    · simp
    · rw [List.eq_of_mem_replicate hx]
      simp
  rw [List.replicate_succ, encBody.eq_def]
  simp only []
  rw [takeWhile_all _ _ hall, dropWhile_all _ _ hall]
  rw [show ((s, dr) :: List.replicate m' (s, dr)).map Prod.fst
      = List.replicate (m' + 1) s from by
    rw [← List.replicate_succ, List.map_replicate]]
  rw [encSeg_const prec dr s (m' + 1) hm acc, encBody_nil]
  simp

theorem encodePts_ge2 (prec : ℕ) (tag : PtsTag) (p0 : P3) (tl : List P3)
    (hmap : (p0 :: tl).map (round3 prec) = p0 :: tl)
    (hlen : 2 ≤ (p0 :: tl).length) :
    encodePts (p0 :: tl) tag prec
      = SLine.header tag p0
        :: encBody prec ((deltasOf (p0 :: tl)).zip (planDrops (deltasOf (p0 :: tl))))
            none p0 := by
  rw [encodePts]
  simp only [hmap, List.headD_cons]
  rw [if_neg (by simp only [List.length_cons] at hlen ⊢; omega)]

theorem encodePts_accPts_replicate (prec : ℕ) (tag : PtsTag) (p0 s : P3) (m : ℕ)
    (hm : 1 ≤ m) (hg0 : OnGrid3 prec p0) (hgs : OnGrid3 prec s) :
    encodePts (accPts p0 (List.replicate m s)) tag prec
      = SLine.header tag p0
        :: encBody prec ((List.replicate m s).zip
            (planDrops (List.replicate m s))) none p0 := by
  have hgrid : ∀ p ∈ accPts p0 (List.replicate m s), OnGrid3 prec p :=
    fun p hp => accPts_onGrid hg0 (fun d hd => by
      rw [List.eq_of_mem_replicate hd]; exact hgs) p hp
  have hpts := accPts_head_tail p0 (List.replicate m s)
  have hmap := map_round3_of_onGrid hgrid
  rw [hpts] at hmap
  have hres := encodePts_ge2 prec tag p0 ((accPts p0 (List.replicate m s)).tail)
    hmap (by
      rw [← hpts, accPts_length, List.length_replicate]
      omega)
  rw [hpts, hres, ← hpts, deltasOf_accPts]

/-- **C7, counterexample.** A straight 50-point line with the constant stride
`(1, 0, 0)` — two coordinates constant — encodes to FOUR lines, not three:
the elision planner marks the whole run on axis 1 and the encoder emits an
additional `? 1` direction line before the (two-component) delta line and
the run marker. -/
theorem C7_counterexample :
    (accPts (0, 0, 0) (List.replicate 49 ((1 : ℚ), 0, 0))).length = 50
    ∧ encodePts (accPts (0, 0, 0) (List.replicate 49 ((1 : ℚ), 0, 0))) PtsTag.P 0
      = [SLine.header PtsTag.P (0, 0, 0), SLine.dropDir 1,
         SLine.delta [1, 0], SLine.run 1 48]
    ∧ (encodePts (accPts (0, 0, 0) (List.replicate 49 ((1 : ℚ), 0, 0)))
        PtsTag.P 0).length ≠ 3 := by
  have hplan : planDrops (List.replicate 49 ((1 : ℚ), 0, 0))
      = List.replicate 49 (some 1) := by
    unfold planDrops
    rw [if_neg (by decide)]
    rw [zeroRuns_nonzero 0 49 _ (by simp) (fun d hd => by
        rw [List.eq_of_mem_replicate hd]; decide) 0,
      zeroRuns_const_zero 1 _ (by decide) 49 (by omega),
      zeroRuns_const_zero 2 _ (by decide) 49 (by omega)]
    rw [List.length_replicate]
    rfl
  have henc : encodePts (accPts (0, 0, 0) (List.replicate 49 ((1 : ℚ), 0, 0))) PtsTag.P 0
      = [SLine.header PtsTag.P (0, 0, 0), SLine.dropDir 1, SLine.delta [1, 0],
         SLine.run 1 48] := by
    rw [encodePts_accPts_replicate 0 .P (0, 0, 0) ((1 : ℚ), 0, 0) 49 (by omega)
      ⟨⟨0, by norm_num⟩, ⟨0, by norm_num⟩, ⟨0, by norm_num⟩⟩
      ⟨⟨1, by norm_num⟩, ⟨0, by norm_num⟩, ⟨0, by norm_num⟩⟩]
    rw [hplan]
    simp only [List.zip_replicate, Nat.min_self]
    rw [encBody_const 0 (some 1) none ((1 : ℚ), 0, 0) 49 (by omega) (0, 0, 0)]
    rfl
  refine ⟨by rw [accPts_length, List.length_replicate], henc, ?_⟩
  rw [henc]
  decide

/-- **C7 (amended).** Encoding a straight 50-point line with constant stride
produces exactly a header line, a single delta line and a single run marker
— three lines — provided all three stride components are nonzero; when a
component is zero the axis-elision planner adds one `?` direction line (see
the counterexample), giving four lines. -/
theorem C7_constant_stride (prec : ℕ) (p0 s : P3) (hg0 : OnGrid3 prec p0)
    (hgs : OnGrid3 prec s)
    (hnz : axisVal s 0 ≠ 0 ∧ axisVal s 1 ≠ 0 ∧ axisVal s 2 ≠ 0) :
    (accPts p0 (List.replicate 49 s)).length = 50
    ∧ encodePts (accPts p0 (List.replicate 49 s)) PtsTag.P prec
      = [SLine.header PtsTag.P p0, SLine.delta (p3list s), SLine.run 1 48] := by
  refine ⟨by rw [accPts_length, List.length_replicate], ?_⟩
  rw [encodePts_accPts_replicate prec .P p0 s 49 (by omega) hg0 hgs]
  rw [planDrops_nonzero (by simp) (fun d hd => by
    rw [List.eq_of_mem_replicate hd]; exact hnz)]
  rw [List.length_replicate]
  simp only [List.zip_replicate, Nat.min_self]
  rw [encBody_const prec none none s 49 (by omega) p0]
  rfl

/-- Witness for C7 at stride `(1, 2, 3)` from the origin, precision 0. -/
theorem C7_constant_stride_witness :
    (accPts (0, 0, 0) (List.replicate 49 ((1 : ℚ), 2, 3))).length = 50
    ∧ encodePts (accPts (0, 0, 0) (List.replicate 49 ((1 : ℚ), 2, 3))) PtsTag.P 0
      = [SLine.header PtsTag.P (0, 0, 0), SLine.delta (p3list ((1 : ℚ), 2, 3)),
         SLine.run 1 48] :=
  C7_constant_stride 0 (0, 0, 0) ((1 : ℚ), 2, 3)
    ⟨⟨0, by norm_num⟩, ⟨0, by norm_num⟩, ⟨0, by norm_num⟩⟩
    ⟨⟨1, by norm_num⟩, ⟨2, by norm_num⟩, ⟨3, by norm_num⟩⟩
    ⟨by decide, by decide, by decide⟩

/- ============================================================
   C2: options diffing and inheritance (spec-modelled layer)
   ============================================================ -/

mutual
/-- Modelled from the spec: the Options tree attached to a shape — "a tagged
value: Integer, Float, Boolean, String, List<Options>, or Map
(insertion-ordered, keys unique, string keys, Options values)".  The options
field of `ParticleShape` and its serialization are exercised by the
repository's tests (§10 of `test_sps.py`) but the handling code is not under
`src/`, so the layer is modelled from the spec's words. -/
inductive OptVal where
  | int (n : ℤ)
  | float (q : ℚ)
  | bool (b : Bool)
  | str (s : String)
  | list (l : OptList)
  | comp (l : OptKVs)
deriving DecidableEq
/-- Modelled from the spec: a `List<Options>` node of the Options tree. -/
inductive OptList where
  | nil
  | cons (v : OptVal) (rest : OptList)
deriving DecidableEq
/-- Modelled from the spec: the insertion-ordered Map node of the Options
tree. -/
inductive OptKVs where
  | nil
  | cons (k : String) (v : OptVal) (rest : OptKVs)
deriving DecidableEq
end

/-- Modelled from the spec: the options line of one encoded record.  "If an
explicit options value is attached to the shape, serialize it … and emit an
options line only if it differs from the previous state's options
(structural equality).  If the shape carries no explicit options value at
all, no options line is emitted."  Returns the emitted option payloads (one
or none) and the updated threaded state. -/
def encodeOptLine (cur prev : Option OptVal) : List OptVal × Option OptVal :=
  match cur with
  | none => ([], prev)
  | some o => if some o = prev then ([], prev) else ([o], some o)

/-- Modelled from the spec: the decoder's options state after one frame — an
options line sets the value, a frame without one "inherits the previous
frame's options value unchanged". -/
def decodeOptLine (lines : List OptVal) (prev : Option OptVal) : Option OptVal :=
  match lines with
  | [] => prev
  | o :: _ => some o

/-- Modelled from the spec: the per-frame encoder loop threading the options
state. -/
def encodeOptFrames : List (Option OptVal) → Option OptVal → List (List OptVal)
  | [], _ => []
  | c :: rest, prev =>
    let r := encodeOptLine c prev
    r.1 :: encodeOptFrames rest r.2

/-- Modelled from the spec: the per-frame decoder loop threading the options
state. -/
def decodeOptFrames : List (List OptVal) → Option OptVal → List (Option OptVal)
  | [], _ => []
  | ls :: rest, prev =>
    let v := decodeOptLine ls prev
    v :: decodeOptFrames rest v

/-- Modelled from the spec: the effective (inherited) options value of each
frame — an explicit value takes effect, an absent one keeps the previous
frame's value. -/
def effOpt : List (Option OptVal) → Option OptVal → List (Option OptVal)
  | [], _ => []
  | c :: rest, prev =>
    let v := match c with
      | none => prev
      | some o => some o
    v :: effOpt rest v

/-- **C2.** Options diffing and inheritance: a frame with no explicit
options value emits no options line and decoding inherits the previous
value unchanged; a frame with an explicit but unchanged value emits no
options line; a frame with a changed value emits exactly one options line
containing the new value; and over any frame sequence, decoding the
encoding reproduces the effective (inherited) options value of every
frame. -/
theorem C2_options_inheritance (frames : List (Option OptVal)) (prev : Option OptVal) :
    (∀ p, encodeOptLine none p = ([], p))
    ∧ (∀ o, encodeOptLine (some o) (some o) = ([], some o))
    ∧ (∀ o p, some o ≠ p → encodeOptLine (some o) p = ([o], some o))
    ∧ (∀ p, decodeOptLine [] p = p)
    ∧ (∀ o rest p, decodeOptLine (o :: rest) p = some o)
    ∧ decodeOptFrames (encodeOptFrames frames prev) prev = effOpt frames prev := by
  refine ⟨fun p => rfl, fun o => by simp [encodeOptLine], fun o p h => by
    simp [encodeOptLine, h], fun p => rfl, fun o rest p => rfl, ?_⟩
  induction frames generalizing prev with
  | nil => rfl
  | cons c rest ih =>
    match c with
    | none =>
      show decodeOptFrames (([], prev).1 :: encodeOptFrames rest ([], prev).2) prev = _
      rw [decodeOptFrames]
      show prev :: decodeOptFrames (encodeOptFrames rest prev) prev
          = effOpt (none :: rest) prev
      rw [ih prev]
      rfl
    | some o =>
      by_cases h : some o = prev
      · show decodeOptFrames
            ((if some o = prev then ([], prev) else ([o], some o)).1
              :: encodeOptFrames rest
                (if some o = prev then ([], prev) else ([o], some o)).2) prev = _
        rw [if_pos h, decodeOptFrames]
        show prev :: decodeOptFrames (encodeOptFrames rest prev) prev
            = effOpt (some o :: rest) prev
        rw [ih prev]
        show prev :: effOpt rest prev = some o :: effOpt rest (some o)
        rw [← h]
      · show decodeOptFrames
            ((if some o = prev then ([], prev) else ([o], some o)).1
              :: encodeOptFrames rest
                (if some o = prev then ([], prev) else ([o], some o)).2) prev = _
        rw [if_neg h, decodeOptFrames]
        show some o :: decodeOptFrames (encodeOptFrames rest (some o)) (some o)
            = effOpt (some o :: rest) prev
        rw [ih (some o)]
        rfl

/-- Witness for C2: a changed value emits exactly one line with the value. -/
theorem C2_options_inheritance_witness :
    encodeOptLine (some (OptVal.int 1)) none = ([OptVal.int 1], some (OptVal.int 1))
    ∧ decodeOptFrames (encodeOptFrames [some (OptVal.int 1), none, some (OptVal.int 1)] none) none
        = effOpt [some (OptVal.int 1), none, some (OptVal.int 1)] none :=
  ⟨(C2_options_inheritance [] none).2.2.1 (OptVal.int 1) none (by simp),
   (C2_options_inheritance [some (OptVal.int 1), none, some (OptVal.int 1)] none).2.2.2.2.2⟩

/- ============================================================
   C4 / C9: the value grammar on bare tokens
   ============================================================ -/

theorem unquoted_not_ws {c : Char} (h : isUnquotedChar c = true) :
    isSnbtWs c = false := by
  by_contra hws
  simp only [Bool.not_eq_false] at hws
  simp only [isSnbtWs, Bool.or_eq_true, decide_eq_true_eq] at hws
  rcases hws with ((h1 | h1) | h1) | h1 <;> subst h1 <;> exact absurd h (by decide)

theorem parseValue_bare (fuel : ℕ) (t : List Char) (hne : t ≠ [])
    (hall : ∀ c ∈ t, isUnquotedChar c = true) :
    parseValue (fuel + 1) t = .ok (resolveToken t, []) := by
  obtain ⟨c, r, rfl⟩ : ∃ c r, t = c :: r := by
    cases t with
    | nil => exact absurd rfl hne
    | cons c r => exact ⟨c, r, rfl⟩
  have hc := hall c (by simp)
  have hskip : skipWs (c :: r) = c :: r := by
    unfold skipWs
    rw [List.dropWhile_cons, if_neg (by simp [unquoted_not_ws hc])]
  rw [parseValue]
  simp only [hskip]
  rw [if_neg (fun h => absurd hc (by subst h; decide)),
    if_neg (fun h => absurd hc (by subst h; decide)),
    if_neg (fun h => by
      rcases h with h | h <;> exact absurd hc (by subst h; decide))]
  simp only [takeWhile_all _ _ hall, dropWhile_all _ _ hall]
  rw [if_neg (by simp)]

theorem fromSnbt_bare (t : List Char) (hne : t ≠ [])
    (hall : ∀ c ∈ t, isUnquotedChar c = true) :
    fromSnbt (String.mk t) = .ok (resolveToken t) := by
  unfold fromSnbt
  rw [show 4 * (String.mk t).length + 4 = (4 * (String.mk t).length + 3) + 1 from
    by omega]
  rw [parseValue_bare (4 * (String.mk t).length + 3) t hne hall]

theorem resolveToken_unsuffixed (token : List Char)
    (hf : isFloatSuffix ((token.filter (fun c => c ≠ '_')).getD
        ((token.filter (fun c => c ≠ '_')).length - 1) ' ') = false)
    (hi : isIntSuffix ((token.filter (fun c => c ≠ '_')).getD
        ((token.filter (fun c => c ≠ '_')).length - 1) ' ') = false) :
    resolveToken token = .str (String.mk token) := by
  unfold resolveToken
  simp only []
  rw [if_neg (fun h => by
    have := h.2.2
    rw [show isTwoCharSecond = isIntSuffix from rfl, hi] at this
    exact Bool.false_ne_true this)]
  simp only []
  rw [if_neg (fun h => by
    rw [hf] at h
    exact Bool.false_ne_true h.2)]
  simp only []
  rw [if_neg (fun h => by
    rw [hi] at h
    exact Bool.false_ne_true h.2)]

/-- **C4.** The value grammar's suffix rule: `42` parses to the string
`"42"`, `42i` to the integer `42`, `1.5d` to the float `1.5`; and every
bare token whose (underscore-stripped) last character is neither a float
nor an integer type suffix comes back verbatim as a string — in particular
the numeric-looking `1.5`, `0xFF` (float-suffix candidate whose body fails
to parse), `1_000`, and boolean-looking `true`/`false` in any case. -/
theorem C4_value_grammar_suffix_rule :
    fromSnbt "42" = .ok (.str "42")
    ∧ fromSnbt "42i" = .ok (.int 42)
    ∧ fromSnbt "1.5d" = .ok (.float (3 / 2))
    ∧ (∀ t : List Char, t ≠ [] → (∀ c ∈ t, isUnquotedChar c = true) →
        isFloatSuffix ((t.filter (fun c => c ≠ '_')).getD
          ((t.filter (fun c => c ≠ '_')).length - 1) ' ') = false →
        isIntSuffix ((t.filter (fun c => c ≠ '_')).getD
          ((t.filter (fun c => c ≠ '_')).length - 1) ' ') = false →
        fromSnbt (String.mk t) = .ok (.str (String.mk t)))
    ∧ fromSnbt "1.5" = .ok (.str "1.5")
    ∧ fromSnbt "0xFF" = .ok (.str "0xFF")
    ∧ fromSnbt "1_000" = .ok (.str "1_000")
    ∧ fromSnbt "true" = .ok (.str "true")
    ∧ fromSnbt "false" = .ok (.str "false")
    ∧ fromSnbt "TRUE" = .ok (.str "TRUE")
    ∧ fromSnbt "False" = .ok (.str "False") := by
  refine ⟨rfl, rfl, ?_, ?_, rfl, rfl, rfl, rfl, rfl, rfl, rfl⟩
  · have h0 : fromSnbt "1.5d"
        = .ok (.float ((1 : ℚ) * ((1 : ℚ) + (5 : ℚ) / 10 ^ (1 : ℕ)))) := rfl
    have h1 : (1 : ℚ) * ((1 : ℚ) + (5 : ℚ) / 10 ^ (1 : ℕ)) = 3 / 2 := by norm_num
    rw [h0, h1]
  · intro t hne hall hf hi
    rw [fromSnbt_bare t hne hall, resolveToken_unsuffixed t hf hi]

/-- Witness for C4: the general unsuffixed-token clause at `9_9`. -/
theorem C4_value_grammar_suffix_rule_witness :
    fromSnbt (String.mk ['9', '_', '9']) = .ok (.str (String.mk ['9', '_', '9'])) :=
  C4_value_grammar_suffix_rule.2.2.2.1 ['9', '_', '9'] (by decide) (by decide)
    (by decide) (by decide)

/- ============================================================
   C9: decimal renderings parse back
   ============================================================ -/

theorem digitChar_isDigit {d : ℕ} (hd : d < 10) : (digitChar d).isDigit = true := by
  interval_cases d <;> decide

theorem digitVal_digitChar {d : ℕ} (hd : d < 10) : digitVal (digitChar d) = d := by
  interval_cases d <;> decide

theorem natStr_digits (n : ℕ) : ∀ c ∈ natStr n, c.isDigit = true := by
  unfold natStr
  split
  · intro c hc
    simp only [List.mem_singleton] at hc
    subst hc
    decide
  · intro c hc
    simp only [List.mem_map, List.mem_reverse] at hc
    obtain ⟨d, hd, rfl⟩ := hc
    exact digitChar_isDigit (Nat.digits_lt_base (by norm_num) hd)

theorem natStr_ne_nil (n : ℕ) : natStr n ≠ [] := by
  unfold natStr
  split
  · simp
  · rename_i h
    simp only [ne_eq, List.map_eq_nil, List.reverse_eq_nil_iff]
    exact Nat.digits_ne_nil_iff_ne_zero.mpr h

theorem intStr_chars (z : ℤ) : ∀ c ∈ intStr z, c.isDigit = true ∨ c = '-' := by
  unfold intStr
  split
  · intro c hc
    rcases List.mem_cons.mp hc with rfl | hc
    · right; rfl
    · exact Or.inl (natStr_digits _ c hc)
  · intro c hc
    exact Or.inl (natStr_digits _ c hc)

theorem intStr_ne_nil (z : ℤ) : intStr z ≠ [] := by
  unfold intStr
  split
  · simp
  · exact natStr_ne_nil _

theorem digit_or_minus_unquoted {c : Char} (h : c.isDigit = true ∨ c = '-') :
    isUnquotedChar c = true := by
  rcases h with h | rfl
  · simp [isUnquotedChar, h]
  · decide

theorem digit_or_minus_not_float_suffix {c : Char} (h : c.isDigit = true ∨ c = '-') :
    isFloatSuffix c = false := by
  rcases h with h | rfl
  · by_contra hf
    simp only [Bool.not_eq_false] at hf
    simp only [isFloatSuffix, Bool.or_eq_true, decide_eq_true_eq] at hf
    rcases hf with ((rfl | rfl) | rfl) | rfl <;> exact absurd h (by decide)
  · decide

theorem digit_or_minus_not_int_suffix {c : Char} (h : c.isDigit = true ∨ c = '-') :
    isIntSuffix c = false := by
  rcases h with h | rfl
  · by_contra hf
    simp only [Bool.not_eq_false] at hf
    simp only [isIntSuffix, Bool.or_eq_true, decide_eq_true_eq] at hf
    rcases hf with ((((((rfl | rfl) | rfl) | rfl) | rfl) | rfl) | rfl) | rfl <;>
      exact absurd h (by decide)
  · decide

theorem digit_or_minus_ne_underscore {c : Char} (h : c.isDigit = true ∨ c = '-') :
    c ≠ '_' := by
  rcases h with h | rfl
  · intro hc
    subst hc
    exact absurd h (by decide)
  · decide

/-- Parsing the decimal rendering of an integer returns it verbatim as a
string: the token carries no type suffix. -/
theorem fromSnbt_intStr (z : ℤ) :
    fromSnbt (String.mk (intStr z)) = .ok (.str (String.mk (intStr z))) := by
  have hchars := intStr_chars z
  have hne := intStr_ne_nil z
  have hfilter : (intStr z).filter (fun c => c ≠ '_') = intStr z := by
    rw [List.filter_eq_self]
    intro c hc
    simpa using digit_or_minus_ne_underscore (hchars c hc)
  have hlenpos : 0 < (intStr z).length := List.length_pos.mpr hne
  have hmem : ((intStr z).getD ((intStr z).length - 1) ' ') ∈ intStr z :=
    mem_getD (intStr z) ((intStr z).length - 1) ' ' (by omega)
  rw [fromSnbt_bare _ hne (fun c hc => digit_or_minus_unquoted (hchars c hc))]
  rw [resolveToken_unsuffixed _ (by
      rw [hfilter]
      exact digit_or_minus_not_float_suffix (hchars _ hmem))
    (by
      rw [hfilter]
      exact digit_or_minus_not_int_suffix (hchars _ hmem))]

theorem multP_not_dvd {p n : ℕ} (h : ¬ p ∣ n) : multP p n = 0 := by
  rw [multP]
  rw [dif_neg]
  intro hcon
  exact h (Nat.dvd_of_mod_eq_zero hcon.2.2)

theorem multP_pow_mul {p : ℕ} (hp : 1 < p) (b : ℕ) (hb : 0 < b) (hnd : ¬ p ∣ b) :
    ∀ a, multP p (p ^ a * b) = a := by
  intro a
  induction a with
  | zero =>
    simp only [pow_zero, one_mul]
    exact multP_not_dvd hnd
  | succ a ih =>
    rw [multP, dif_pos ⟨hp, by positivity, by
      rw [pow_succ, mul_comm (p ^ a) p, mul_assoc]
      exact Nat.mul_mod_right p _⟩]
    have hdiv : p ^ (a + 1) * b / p = p ^ a * b := by
      rw [pow_succ, mul_comm (p ^ a) p, mul_assoc, Nat.mul_div_cancel_left _ (by omega)]
    rw [hdiv, ih]

theorem den_eq_two_five (d : ℕ) (hd : 0 < d) (k : ℕ) (h : d ∣ 10 ^ k) :
    d = 2 ^ multP 2 d * 5 ^ multP 5 d := by
  obtain ⟨a, m, hm, rfl⟩ :=
    Nat.exists_eq_pow_mul_and_not_dvd (Nat.pos_iff_ne_zero.mp hd) 2 (by omega)
  have hm0 : 0 < m := Nat.pos_of_ne_zero (fun h0 => hm (h0 ▸ dvd_zero 2))
  have hmdvd : m ∣ 10 ^ k := (dvd_mul_left m (2 ^ a)).trans h
  have h10 : (10 : ℕ) ^ k = 2 ^ k * 5 ^ k := by rw [← Nat.mul_pow]
  have hcop : Nat.Coprime m (2 ^ k) :=
    (((Nat.Prime.coprime_iff_not_dvd Nat.prime_two).mpr hm).symm).pow_right k
  have hm5 : m ∣ 5 ^ k := hcop.dvd_of_dvd_mul_left (h10 ▸ hmdvd)
  obtain ⟨b, hbk, rfl⟩ := (Nat.dvd_prime_pow (by norm_num)).mp hm5
  have h2 : multP 2 (2 ^ a * 5 ^ b) = a := multP_pow_mul (by omega) _ (by positivity) hm a
  have h5 : multP 5 (2 ^ a * 5 ^ b) = b := by
    rw [mul_comm]
    refine multP_pow_mul (by omega) _ (by positivity) ?_ b
    intro hdvd
    have := Nat.Prime.dvd_of_dvd_pow (by norm_num : Nat.Prime 5) hdvd
    omega
  rw [h2, h5]

theorem den_dvd_ten_pow_decScale (q : ℚ) (k : ℕ) (h : q.den ∣ 10 ^ k) :
    q.den ∣ 10 ^ decScale q := by
  have hd := den_eq_two_five q.den q.den_pos k h
  unfold decScale
  rw [show (10 : ℕ) ^ max (multP 2 q.den) (multP 5 q.den)
      = 2 ^ max (multP 2 q.den) (multP 5 q.den) * 5 ^ max (multP 2 q.den) (multP 5 q.den)
      from by rw [← Nat.mul_pow]]
  calc q.den = 2 ^ multP 2 q.den * 5 ^ multP 5 q.den := hd
    _ ∣ _ := Nat.mul_dvd_mul (pow_dvd_pow 2 (le_max_left _ _))
        (pow_dvd_pow 5 (le_max_right _ _))

theorem mul_pow_ten_int (q : ℚ) (K : ℕ) (h : q.den ∣ 10 ^ K) :
    ∃ w : ℤ, q * 10 ^ K = (w : ℚ) := by
  obtain ⟨c, hc⟩ := h
  refine ⟨q.num * c, ?_⟩
  have h10 : (10 : ℚ) ^ K = ((q.den * c : ℕ) : ℚ) := by
    rw [← hc]
    push_cast
    ring
  rw [h10]
  push_cast
  rw [← mul_assoc, Rat.mul_den_eq_num]

theorem abs_mantissa (q : ℚ) (K : ℕ) (h : q.den ∣ 10 ^ K) :
    |q| * 10 ^ K = (((|q| * 10 ^ K).num.toNat : ℕ) : ℚ) := by
  obtain ⟨w, hw⟩ := mul_pow_ten_int q K h
  have habs : |q| * 10 ^ K = |q * 10 ^ K| := by
    rw [abs_mul, abs_of_nonneg (by positivity : (0 : ℚ) ≤ 10 ^ K)]
  rw [habs, hw, ← Int.cast_abs, Rat.num_intCast]
  exact_mod_cast (Int.toNat_of_nonneg (abs_nonneg w)).symm

theorem digitsVal_from (B : List Char) : ∀ (i : ℕ),
    B.foldl (fun a c => 10 * a + digitVal c) i = i * 10 ^ B.length + digitsVal B := by
  induction B with
  | nil => intro i; simp [digitsVal]
  | cons c B ih =>
    intro i
    show B.foldl _ (10 * i + digitVal c) = _
    rw [ih (10 * i + digitVal c)]
    have h2 : digitsVal (c :: B) = B.foldl (fun a c => 10 * a + digitVal c) (digitVal c) := by
      show B.foldl _ (10 * 0 + digitVal c) = _
      rw [show 10 * 0 + digitVal c = digitVal c from by omega]
    rw [h2, ih (digitVal c)]
    simp only [List.length_cons]
    ring

theorem digitsVal_append (A B : List Char) :
    digitsVal (A ++ B) = digitsVal A * 10 ^ B.length + digitsVal B := by
  unfold digitsVal
  rw [List.foldl_append]
  exact digitsVal_from B _

theorem digitsVal_zeros (j : ℕ) : digitsVal (List.replicate j '0') = 0 := by
  induction j with
  | zero => rfl
  | succ j ih =>
    rw [List.replicate_succ, show ('0' :: List.replicate j '0')
        = ['0'] ++ List.replicate j '0' from rfl, digitsVal_append, ih,
      show digitsVal ['0'] = 0 from rfl]
    ring

theorem digitsVal_map_digitChar : ∀ (K : List ℕ), (∀ d ∈ K, d < 10) → ∀ i,
    (K.map digitChar).foldl (fun a c => 10 * a + digitVal c) i
      = K.foldl (fun a d => 10 * a + d) i := by
  intro K
  induction K with
  | nil => intro _ i; rfl
  | cons d K ih =>
    intro h i
    show (K.map digitChar).foldl _ (10 * i + digitVal (digitChar d)) = _
    rw [digitVal_digitChar (h d (by simp))]
    exact ih (fun e he => h e (by simp [he])) _

theorem foldl_rev_eq_ofDigits : ∀ (L : List ℕ),
    L.reverse.foldl (fun a d => 10 * a + d) 0 = Nat.ofDigits 10 L := by
  intro L
  induction L with
  | nil => simp [Nat.ofDigits]
  | cons d L ih =>
    rw [List.reverse_cons, List.foldl_append]
    show 10 * (L.reverse.foldl _ 0) + d = _
    rw [ih, Nat.ofDigits_cons]
    push_cast
    ring

theorem digitsVal_natStr (n : ℕ) : digitsVal (natStr n) = n := by
  unfold natStr
  split
  · rename_i h
    subst h
    decide
  · unfold digitsVal
    rw [digitsVal_map_digitChar _ (fun d hd =>
      Nat.digits_lt_base (by norm_num) (List.mem_reverse.mp hd)) 0]
    rw [foldl_rev_eq_ofDigits, Nat.ofDigits_digits]

theorem takeWhile_append_stop {α : Type} (p : α → Bool) :
    ∀ (A : List α), (∀ a ∈ A, p a = true) → ∀ (c : α), p c = false → ∀ (B : List α),
      (A ++ c :: B).takeWhile p = A ∧ (A ++ c :: B).dropWhile p = c :: B := by
  intro A
  induction A with
  | nil =>
    intro _ c hc B
    constructor <;> simp [List.takeWhile_cons, List.dropWhile_cons, hc]
  | cons a A ih =>
    intro h c hc B
    have ha := h a (by simp)
    obtain ⟨h1, h2⟩ := ih (fun x hx => h x (by simp [hx])) c hc B
    constructor
    · rw [List.cons_append, List.takeWhile_cons, if_pos ha, h1]
    · rw [List.cons_append, List.dropWhile_cons, if_pos ha, h2]

theorem readSign_no_sign (c : Char) (r : List Char) (h1 : c ≠ '-') (h2 : c ≠ '+') :
    readSign (c :: r) = (1, c :: r) := by
  rw [readSign.eq_def]
  split
  · rename_i heq
    injection heq with ha _
    exact absurd ha h1
  · rename_i heq
    injection heq with ha _
    exact absurd ha h2
  · rfl

theorem tryFloat_parts (neg : Prop) [Decidable neg] (A B : List Char)
    (hA : ∀ c ∈ A, c.isDigit = true) (hAne : A ≠ [])
    (hB : ∀ c ∈ B, c.isDigit = true) :
    tryFloat ((if neg then ['-'] else []) ++ A ++ '.' :: B)
      = some ((if neg then (-1 : ℚ) else 1)
          * ((digitsVal A : ℚ) + (digitsVal B : ℚ) / 10 ^ B.length)) := by
  obtain ⟨a, A', rfl⟩ : ∃ a A', A = a :: A' := by
    cases A with
    | nil => exact absurd rfl hAne
    | cons a A' => exact ⟨a, A', rfl⟩
  have ha := hA a (by simp)
  have hsign : readSign ((if neg then ['-'] else []) ++ (a :: A') ++ '.' :: B)
      = ((if neg then (-1 : ℤ) else 1), (a :: A') ++ '.' :: B) := by
    by_cases hn : neg
    · rw [if_pos hn, if_pos hn]
      rfl
    · rw [if_neg hn, if_neg hn, List.nil_append]
      exact readSign_no_sign a _ (fun h => absurd ha (by rw [h]; decide))
        (fun h => absurd ha (by rw [h]; decide))
  obtain ⟨htake, hdrop⟩ :=
    takeWhile_append_stop Char.isDigit (a :: A') hA '.' (by decide) B
  have htakeB := takeWhile_all Char.isDigit B hB
  have hdropB := dropWhile_all Char.isDigit B hB
  unfold tryFloat
  rw [hsign]
  simp only []
  rw [htake, hdrop]
  rw [if_neg (fun hcon => absurd hcon.1 (by simp))]
  split
  · show some ((Int.cast (if neg then (-1 : ℤ) else 1) : ℚ)
        * ((digitsVal (a :: A') : ℚ)
          + (digitsVal (B.takeWhile Char.isDigit) : ℚ)
            / 10 ^ (B.takeWhile Char.isDigit).length))
      = some ((if neg then (-1 : ℚ) else 1)
          * ((digitsVal (a :: A') : ℚ) + (digitsVal B : ℚ) / 10 ^ B.length))
    rw [htakeB]
    by_cases hn : neg
    · rw [if_pos hn, if_pos hn]
      norm_num
    · rw [if_neg hn, if_neg hn]
      norm_num
  · rename_i e r heq
    have h0 : List.dropWhile Char.isDigit B = e :: r := heq
    rw [hdropB] at h0
    exact absurd h0 (by simp)

theorem tryFloat_floatRepr (q : ℚ) (k : ℕ) (hden : q.den ∣ 10 ^ k) :
    tryFloat (floatRepr q) = some q := by
  have hdenK : q.den ∣ 10 ^ decScale q := den_dvd_ten_pow_decScale q k hden
  have hint := abs_mantissa q (decScale q) hdenK
  unfold floatRepr
  simp only []
  by_cases hK0 : decScale q = 0
  · rw [if_pos hK0]
    rw [show ((['.', '0'] : List Char)) = '.' :: ['0'] from rfl]
    rw [tryFloat_parts (q < 0) _ ['0'] (natStr_digits _) (natStr_ne_nil _) (by decide)]
    congr 1
    rw [digitsVal_natStr, show digitsVal ['0'] = 0 from rfl]
    have habs : |q| = (((|q| * 10 ^ decScale q).num.toNat : ℕ) : ℚ) := by
      rw [← hint, hK0]
      norm_num
    by_cases hq : q < 0
    · rw [if_pos hq]
      rw [← habs, abs_of_neg hq]
      push_cast
      ring
    · rw [if_neg hq]
      rw [← habs, abs_of_nonneg (le_of_not_lt hq)]
      push_cast
      ring
  · rw [if_neg hK0]
    set K := decScale q with hKdef
    set m : ℕ := (|q| * 10 ^ K).num.toNat with hmdef
    set ds0 : List Char := natStr m with hds0
    set ds : List Char := if ds0.length ≤ K then
        List.replicate (K + 1 - ds0.length) '0' ++ ds0 else ds0 with hds
    have hdsdig : ∀ c ∈ ds, c.isDigit = true := by
      rw [hds]
      split
      · intro c hc
        rcases List.mem_append.mp hc with hc | hc
        · rw [List.eq_of_mem_replicate hc]
          decide
        · exact natStr_digits m c hc
      · exact natStr_digits m
    have hdsval : digitsVal ds = m := by
      rw [hds]
      split
      · rw [digitsVal_append, digitsVal_zeros, digitsVal_natStr]
        ring
      · exact digitsVal_natStr m
    have hdslen : K + 1 ≤ ds.length := by
      rw [hds]
      split
      · rename_i hle
        rw [List.length_append, List.length_replicate]
        omega
      · rename_i hgt
        omega
    have hAne : ds.take (ds.length - K) ≠ [] := by
      have : (ds.take (ds.length - K)).length = ds.length - K := by
        rw [List.length_take]
        omega
      intro hcon
      rw [hcon] at this
      simp only [List.length_nil] at this
      omega
    have hBlen : (ds.drop (ds.length - K)).length = K := by
      rw [List.length_drop]
      omega
    rw [tryFloat_parts (q < 0) _ _
      (fun c hc => hdsdig c (List.mem_of_mem_take hc)) hAne
      (fun c hc => hdsdig c (List.mem_of_mem_drop hc))]
    congr 1
    have hsplit : digitsVal (ds.take (ds.length - K)) * 10 ^ K
        + digitsVal (ds.drop (ds.length - K)) = m := by
      have h1 := digitsVal_append (ds.take (ds.length - K)) (ds.drop (ds.length - K))
      rw [List.take_append_drop, hBlen, hdsval] at h1
      omega
    rw [hBlen]
    have h10 : ((10 : ℚ) ^ K) ≠ 0 := by positivity
    have habs : |q| * 10 ^ K = (m : ℚ) := hint
    have hval : (digitsVal (ds.take (ds.length - K)) : ℚ)
        + (digitsVal (ds.drop (ds.length - K)) : ℚ) / 10 ^ K
        = (m : ℚ) / 10 ^ K := by
      rw [← hsplit]
      push_cast
      field_simp
    rw [hval]
    by_cases hq : q < 0
    · rw [if_pos hq]
      rw [← habs, abs_of_neg hq]
      field_simp
    · rw [if_neg hq]
      rw [← habs, abs_of_nonneg (le_of_not_lt hq)]
      field_simp

theorem float_char_unquoted {c : Char} (h : c.isDigit = true ∨ c = '-' ∨ c = '.') :
    isUnquotedChar c = true := by
  rcases h with h | rfl | rfl
  · simp [isUnquotedChar, h]
  · decide
  · decide

theorem floatRepr_chars (q : ℚ) :
    ∀ c ∈ floatRepr q, c.isDigit = true ∨ c = '-' ∨ c = '.' := by
  have hsgn : ∀ c ∈ (if q < 0 then ['-'] else ([] : List Char)), c = '-' := by
    split
    · intro c hc
      simpa using hc
    · intro c hc
      simp at hc
  unfold floatRepr
  simp only []
  split
  · intro c hc
    rcases List.mem_append.mp hc with hc | hc
    · rcases List.mem_append.mp hc with hc | hc
      · exact Or.inr (Or.inl (hsgn c hc))
      · exact Or.inl (natStr_digits _ c hc)
    · simp only [List.mem_cons, List.mem_singleton] at hc
      rcases hc with rfl | rfl | hc
      · exact Or.inr (Or.inr rfl)
      · exact Or.inl (by decide)
      · simp at hc
  · have hpd : ∀ c ∈ (if (natStr ((|q| * 10 ^ decScale q).num.toNat)).length ≤ decScale q
        then List.replicate (decScale q + 1
            - (natStr ((|q| * 10 ^ decScale q).num.toNat)).length) '0'
          ++ natStr ((|q| * 10 ^ decScale q).num.toNat)
        else natStr ((|q| * 10 ^ decScale q).num.toNat)), c.isDigit = true := by
      split
      · intro c hc
        rcases List.mem_append.mp hc with hc | hc
        · rw [List.eq_of_mem_replicate hc]
          decide
        · exact natStr_digits _ c hc
      · exact natStr_digits _
    intro c hc
    rcases List.mem_append.mp hc with hc | hc
    · rcases List.mem_append.mp hc with hc | hc
      · exact Or.inr (Or.inl (hsgn c hc))
      · exact Or.inl (hpd c (List.mem_of_mem_take hc))
    · rcases List.mem_cons.mp hc with rfl | hc
      · exact Or.inr (Or.inr rfl)
      · exact Or.inl (hpd c (List.mem_of_mem_drop hc))

theorem floatRepr_ne_nil (q : ℚ) : floatRepr q ≠ [] := by
  unfold floatRepr
  simp only []
  split
  · simp
  · intro hcon
    rcases List.append_eq_nil.mp hcon with ⟨h1, h2⟩
    exact List.cons_ne_nil _ _ h2

theorem getD_append_singleton {α : Type} : ∀ (A : List α) (x d : α),
    (A ++ [x]).getD A.length d = x := by
  intro A
  induction A with
  | nil => intro x d; rfl
  | cons a A ih =>
    intro x d
    show (A ++ [x]).getD A.length d = x
    exact ih x d

theorem fromSnbt_float (q : ℚ) (k : ℕ) (hden : q.den ∣ 10 ^ k) :
    fromSnbt (String.mk (toSnbt (.float q))) = .ok (.float q) := by
  have hchars := floatRepr_chars q
  have hlen1 : 1 ≤ (floatRepr q).length :=
    List.length_pos.mpr (floatRepr_ne_nil q)
  show fromSnbt (String.mk (floatRepr q ++ ['d'])) = .ok (.float q)
  rw [fromSnbt_bare _ (by simp) (fun c hc => by
    rcases List.mem_append.mp hc with hc | hc
    · exact float_char_unquoted (hchars c hc)
    · simp only [List.mem_singleton] at hc
      subst hc
      decide)]
  have hfilter : (floatRepr q ++ ['d']).filter (fun c => c ≠ '_')
      = floatRepr q ++ ['d'] := by
    rw [List.filter_eq_self]
    intro c hc
    rcases List.mem_append.mp hc with hc | hc
    · rcases hchars c hc with h | rfl | rfl
      · simpa using digit_or_minus_ne_underscore (Or.inl h)
      · simp
      · simp
    · simp only [List.mem_singleton] at hc
      subst hc
      simp
  have hno2 : ∀ c ∈ floatRepr q ++ ['d'], isTwoCharFirst c = false := by
    intro c hc
    rcases List.mem_append.mp hc with hc | hc
    · rcases hchars c hc with h | rfl | rfl
      · by_contra h2
        simp only [Bool.not_eq_false] at h2
        simp only [isTwoCharFirst, Bool.or_eq_true, decide_eq_true_eq] at h2
        rcases h2 with ((rfl | rfl) | rfl) | rfl <;> exact absurd h (by decide)
      · decide
      · decide
    · simp only [List.mem_singleton] at hc
      subst hc
      decide
  have hgetd : (floatRepr q ++ ['d']).getD ((floatRepr q ++ ['d']).length - 1) ' '
      = 'd' := by
    simp only [List.length_append, List.length_cons, List.length_nil]
    rw [show (floatRepr q).length + (0 + 1) - 1 = (floatRepr q).length from by omega]
    exact getD_append_singleton _ _ _
  have htk : (floatRepr q ++ ['d']).take ((floatRepr q ++ ['d']).length - 1)
      = floatRepr q := by
    simp only [List.length_append, List.length_cons, List.length_nil]
    rw [show (floatRepr q).length + (0 + 1) - 1 = (floatRepr q).length from by omega]
    exact List.take_left _ _
  unfold resolveToken
  simp only []
  rw [hfilter]
  rw [if_neg (fun h => by
    have hm : ((floatRepr q ++ ['d']).getD ((floatRepr q ++ ['d']).length - 2) ' ')
        ∈ floatRepr q ++ ['d'] := by
      refine mem_getD _ _ ' ' ?_
      simp only [List.length_append, List.length_cons, List.length_nil]
      omega
    rw [hno2 _ hm] at h
    exact Bool.false_ne_true h.2.1)]
  simp only []
  rw [if_pos ⟨by
      simp only [List.length_append, List.length_cons, List.length_nil]
      omega,
    by rw [hgetd]; decide⟩]
  rw [htk, tryFloat_floatRepr q k hden]

theorem escapeChars_length_ge : ∀ (l : List Char), l.length ≤ (escapeChars l).length := by
  intro l
  induction l with
  | nil => simp [escapeChars]
  | cons c rest ih =>
    rw [escapeChars]
    split
    · simp only [List.length_cons]
      omega
    · split
      · simp only [List.length_cons]
        omega
      · simp only [List.length_cons]
        omega

theorem parseQuoted_escapeChars : ∀ (l : List Char) (fuel : ℕ) (rest : List Char),
    l.length < fuel →
    parseQuoted '"' fuel (escapeChars l ++ '"' :: rest) = .ok (l, rest) := by
  intro l
  induction l with
  | nil =>
    intro fuel rest hf
    obtain ⟨f, rfl⟩ : ∃ f, fuel = f + 1 := ⟨fuel - 1, by omega⟩
    show parseQuoted '"' (f + 1) ('"' :: rest) = .ok ([], rest)
    rw [parseQuoted, if_pos rfl]
  | cons c cs ih =>
    intro fuel rest hf
    obtain ⟨f, rfl⟩ : ∃ f, fuel = f + 1 := ⟨fuel - 1, by omega⟩
    have hcs : cs.length < f := by
      simp only [List.length_cons] at hf
      omega
    rw [escapeChars]
    by_cases h1 : c = '\\'
    · rw [if_pos h1]
      subst h1
      show parseQuoted '"' (f + 1) ('\\' :: ('\\' :: (escapeChars cs ++ '"' :: rest)))
          = .ok ('\\' :: cs, rest)
      rw [parseQuoted]
      rw [if_neg (by decide), if_pos rfl]
      show (match parseQuoted '"' f (escapeChars cs ++ '"' :: rest) with
        | .error err => (.error err : Except String (List Char × List Char))
        | .ok (s, r2) => .ok ('\\' :: s, r2)) = .ok ('\\' :: cs, rest)
      rw [ih f rest hcs]
    · rw [if_neg h1]
      by_cases h2 : c = '"'
      · rw [if_pos h2]
        subst h2
        show parseQuoted '"' (f + 1) ('\\' :: ('"' :: (escapeChars cs ++ '"' :: rest)))
            = .ok ('"' :: cs, rest)
        rw [parseQuoted]
        rw [if_neg (by decide), if_pos rfl]
        show (match parseQuoted '"' f (escapeChars cs ++ '"' :: rest) with
          | .error err => (.error err : Except String (List Char × List Char))
          | .ok (s, r2) => .ok ('"' :: s, r2)) = .ok ('"' :: cs, rest)
        rw [ih f rest hcs]
      · rw [if_neg h2]
        show parseQuoted '"' (f + 1) (c :: (escapeChars cs ++ '"' :: rest))
            = .ok (c :: cs, rest)
        rw [parseQuoted]
        rw [if_neg h2, if_neg h1]
        show (match parseQuoted '"' f (escapeChars cs ++ '"' :: rest) with
          | .error err => (.error err : Except String (List Char × List Char))
          | .ok (s, r2) => .ok (c :: s, r2)) = .ok (c :: cs, rest)
        rw [ih f rest hcs]

theorem fromSnbt_str (s : String) :
    fromSnbt (String.mk (toSnbt (.str s))) = .ok (.str s) := by
  show fromSnbt (String.mk ('"' :: (escapeChars s.data ++ ['"']))) = .ok (.str s)
  unfold fromSnbt
  rw [show 4 * (String.mk ('"' :: (escapeChars s.data ++ ['"']))).length + 4
      = (4 * (String.mk ('"' :: (escapeChars s.data ++ ['"']))).length + 3) + 1 from
    by omega]
  rw [parseValue]
  have hskip : skipWs ('"' :: (escapeChars s.data ++ ['"'])) 
      = '"' :: (escapeChars s.data ++ ['"']) := by
    unfold skipWs
    rw [List.dropWhile_cons, if_neg (by decide)]
  simp only [hskip]
  rw [if_neg (by decide), if_neg (by decide), if_pos (Or.inl trivial)]
  have hq := parseQuoted_escapeChars s.data
    ((escapeChars s.data ++ ['"']).length + 1) []
    (by
      simp only [List.length_append, List.length_cons, List.length_nil]
      have := escapeChars_length_ge s.data
      omega)
  rw [show (escapeChars s.data ++ ('"' :: ([] : List Char))) = escapeChars s.data ++ ['"']
      from rfl] at hq
  rw [hq]

/-- **C9.** The value-grammar codec is not self-inverse on integers and
booleans, but is on (finite, decimally representable) floats and strings:
parsing the serialization of an integer `n` returns the decimal string of
`n` (a string, not the integer); the serializations `1b`/`0b` of the
booleans parse back as the integers `1`/`0`; while a float `z / 10^k`
and any string round-trip exactly. -/
theorem C9_codec_not_self_inverse :
    (∀ n : ℤ, fromSnbt (String.mk (toSnbt (.int n)))
          = .ok (.str (String.mk (intStr n)))
        ∧ (SVal.str (String.mk (intStr n)) ≠ .int n))
    ∧ fromSnbt (String.mk (toSnbt (.bool true))) = .ok (.int 1)
    ∧ fromSnbt (String.mk (toSnbt (.bool false))) = .ok (.int 0)
    ∧ (∀ (z : ℤ) (k : ℕ),
        fromSnbt (String.mk (toSnbt (.float ((z : ℚ) / 10 ^ k))))
          = .ok (.float ((z : ℚ) / 10 ^ k)))
    ∧ (∀ s : String, fromSnbt (String.mk (toSnbt (.str s))) = .ok (.str s)) := by
  refine ⟨fun n => ⟨fromSnbt_intStr n, fun h => SVal.noConfusion h⟩, rfl, rfl,
    fun z k => ?_, fromSnbt_str⟩
  refine fromSnbt_float _ k ?_
  have h1 : ((z : ℚ) / 10 ^ k) = Rat.divInt z (10 ^ k) := by
    rw [Rat.divInt_eq_div]
    push_cast
    ring
  rw [h1]
  have h2 := Rat.den_dvd z ((10 : ℤ) ^ k)
  have h3 : ((10 : ℤ) ^ k) = ((10 ^ k : ℕ) : ℤ) := by push_cast; ring
  rw [h3] at h2
  exact_mod_cast h2

end Sparkle
